import Mathlib

/-
Verification of the pico-di resolution engine (src/index.js).

The engine is shallowly embedded as a fueled interpreter `step` over an
explicit state `St`.  JavaScript machine details that matter to the
claims are modelled explicitly:

* `Map.get` returns `undefined` for an absent key, and the caches are
  probed with `instance === undefined`, so a stored `undefined` is
  indistinguishable from a miss (`mapGet`).
* The resolution stack `#path` is a JS array used with `push` / `pop` /
  `lastIndexOf`; it is modelled in the same (oldest-first) order.
* User factories are deep-embedded as `Factory` programs: a factory
  either reads a list of dependency names through the context it is
  given and then allocates a fresh object, returns a constant value, or
  throws.  Factory invocations are observable through `St.callLog`
  (mirroring the invocation counters the repository's own test suite
  uses) and fresh allocation through `St.fresh`.
* Errors are `JsErr`: `resolveError` (an `Error` whose `name` field is
  set to "ResolveError"), `typeError` (`new TypeError()` and implicit
  coercion TypeErrors), and `userError` (anything a user factory throws).
-/

namespace PicoDi

/-- JS values as far as the engine observes them: `undefined`, or a
defined instance identified by an allocation tag. -/
inductive Value where
  | undef : Value
  | obj : Nat → Value
deriving DecidableEq, Repr

/-- The three registered lifetimes (`"singleton" | "scoped" | "transient"`). -/
inductive Lifetime where
  | singleton : Lifetime
  | scoped : Lifetime
  | transient : Lifetime
deriving DecidableEq, Repr

/-- Deep embedding of a user factory `(context) -> instance`:
`alloc deps` reads each name in `deps` from the context (in order) and
then returns a freshly allocated object, like the test suite's
`class C { constructor({ a, b }) { ... } }`; `const v` returns a fixed
value without touching the context; `throws t` throws a user error. -/
inductive Factory where
  | alloc : List String → Factory
  | const : Value → Factory
  | throws : Nat → Factory
deriving DecidableEq, Repr

/-- A registered descriptor `{ lifetime, create }`. -/
structure Descriptor where
  lifetime : Lifetime
  create : Factory
deriving DecidableEq, Repr

/-- Association list playing the role of a JS `Map` (insertion order kept). -/
abbrev EntryMap (α : Type) := List (String × α)

def lookupKey {α : Type} : EntryMap α → String → Option α
  | [], _ => none
  | (k, v) :: rest, name => if k = name then some v else lookupKey rest name

def containsKey {α : Type} (m : EntryMap α) (name : String) : Bool :=
  (lookupKey m name).isSome

/-- `Map.set`: overwrite in place if the key exists, else append. -/
def setKey {α : Type} : EntryMap α → String → α → EntryMap α
  | [], name, v => [(name, v)]
  | (k, w) :: rest, name, v =>
    if k = name then (name, v) :: rest else (k, w) :: setKey rest name v

/-- `Map.get` on an instance cache: an absent key reads as `undefined`,
exactly the observation the engine makes with `=== undefined`. -/
def mapGet (m : EntryMap Value) (name : String) : Value :=
  match lookupKey m name with
  | some v => v
  | none => Value.undef

/-- The frozen descriptor table built by `ServiceRegistryBuilder.build`. -/
abbrev Registry := EntryMap Descriptor

/-- Errors distinguishable by a JS caller. -/
inductive JsErr where
  | resolveError : String → JsErr
  | typeError : JsErr
  | userError : Nat → JsErr
deriving DecidableEq, Repr

/-- A property key reaching the proxy `get` trap: a string or a symbol. -/
inductive Key where
  | str : String → Key
  | sym : Nat → Key
deriving DecidableEq, Repr

/-- The scope's `name` debug label (`null` by default, assignable). -/
inductive ScopeLabel where
  | undef : ScopeLabel
  | nullv : ScopeLabel
  | str : String → ScopeLabel
deriving DecidableEq, Repr

/-- Template-literal interpolation of the label. -/
def ScopeLabel.interp : ScopeLabel → String
  | ScopeLabel.undef => "undefined"
  | ScopeLabel.nullv => "null"
  | ScopeLabel.str s => s

/-- Path rendering used by both message builders: each entry is followed
by the literal arrow separator. -/
def joinArrow : List String → String
  | [] => ""
  | p :: rest => p ++ " -> " ++ joinArrow rest

/-- Path rendering with the entry at a given index wrapped in brackets
(the `index1 === index2` comparison in the message loops). -/
def markJoin : List String → Nat → String
  | [], _ => ""
  | p :: rest, 0 => "[" ++ p ++ "]" ++ " -> " ++ joinArrow rest
  | p :: rest, Nat.succ i => p ++ " -> " ++ markJoin rest i

/-- `Array.prototype.lastIndexOf`: index of the last occurrence. -/
def lastIdxOf : List String → String → Option Nat
  | [], _ => none
  | p :: rest, name =>
    match lastIdxOf rest name with
    | some i => some (i + 1)
    | none => if p = name then some 0 else none

/-- Message built by `#throwErrorIfCircularReferenced` (which tests
`this.name === null` for the unnamed form). -/
def circularMessage (label : ScopeLabel) (path : List String) (idx : Nat) (name : String) :
    String :=
  (if label = ScopeLabel.nullv then "/(unnamed)/ " else "/" ++ label.interp ++ "/ ")
    ++ "Invalid service resolution" ++ ": " ++ markJoin path idx ++ "[" ++ name ++ "]"

/-- Message built by `#throwErrorIfLifetimeExceeded` (which, unlike the
circular check, tests `this.name === undefined` for the unnamed form). -/
def lifetimeMessage (label : ScopeLabel) (path : List String) (idx : Nat) (name : String) :
    String :=
  (if label = ScopeLabel.undef then "/(unnamed)/ " else "/" ++ label.interp ++ "/ ")
    ++ "Invalid service lifetime" ++ ": " ++ markJoin path idx ++ "[" ++ name ++ "]"

/-- `#throwErrorIfCircularReferenced`: fires iff the name already occurs
in the path, marking the most recent prior occurrence. -/
def circularCheck (label : ScopeLabel) (path : List String) (name : String) : Option JsErr :=
  match lastIdxOf path name with
  | none => none
  | some idx => some (JsErr.resolveError (circularMessage label path idx name))

/-- Walk of `#throwErrorIfLifetimeExceeded` over the reversed path
(`index1` runs from the end toward the start); `k` counts entries from
the end.  `registry.get` on an unregistered entry throws its own
`ResolveError`. -/
def lifetimeScan (reg : Registry) : List String → Nat → Option (Except String Nat)
  | [], _ => none
  | p :: rest, k =>
    match lookupKey reg p with
    | none => some (Except.error p)
    | some d =>
      if d.lifetime = Lifetime.singleton then some (Except.ok k)
      else lifetimeScan reg rest (k + 1)

/-- `#throwErrorIfLifetimeExceeded`: fails when any stack entry, walked
from the most recent backward, has singleton lifetime. -/
def lifetimeCheck (reg : Registry) (label : ScopeLabel) (path : List String) (name : String) :
    Option JsErr :=
  match lifetimeScan reg path.reverse 0 with
  | none => none
  | some (Except.error p) => some (JsErr.resolveError ("Invalid service name: " ++ p))
  | some (Except.ok k) =>
    some (JsErr.resolveError (lifetimeMessage label path (path.length - 1 - k) name))

/-- Per-scope state: `#retainedScoped`, `#path`, and the `name` label. -/
structure Scope where
  scopedCache : EntryMap Value
  path : List String
  label : ScopeLabel
deriving DecidableEq, Repr

/-- A scope as `beginScope` creates it. -/
def Scope.init : Scope := ⟨[], [], ScopeLabel.nullv⟩

/-- Whole-provider state: the shared `#retainedSingleton` cache, every
scope created so far (identified by index), the log of factory
invocations `(scope index, service name)` in order, and the allocation
counter backing fresh objects. -/
structure St where
  singletonCache : EntryMap Value
  scopes : List Scope
  callLog : List (Nat × String)
  fresh : Nat
deriving DecidableEq, Repr

/-- State of a freshly created provider. -/
def St.init : St := ⟨[], [], [], 0⟩

def listGet? {α : Type} : List α → Nat → Option α
  | [], _ => none
  | x :: _, 0 => some x
  | _ :: rest, Nat.succ i => listGet? rest i

def modifyAt {α : Type} : List α → Nat → (α → α) → List α
  | [], _, _ => []
  | x :: rest, 0, f => f x :: rest
  | x :: rest, Nat.succ i, f => x :: modifyAt rest i f

def pathOf (st : St) (i : Nat) : List String :=
  match listGet? st.scopes i with
  | some sc => sc.path
  | none => []

def labelOf (st : St) (i : Nat) : ScopeLabel :=
  match listGet? st.scopes i with
  | some sc => sc.label
  | none => ScopeLabel.nullv

def scopedOf (st : St) (i : Nat) : EntryMap Value :=
  match listGet? st.scopes i with
  | some sc => sc.scopedCache
  | none => []

/-- `this.#path.push(name)` on scope `i`. -/
def pushPath (st : St) (i : Nat) (name : String) : St :=
  { st with scopes := modifyAt st.scopes i (fun sc => { sc with path := sc.path ++ [name] }) }

/-- `this.#path.pop()` on scope `i` (the `finally` cleanup). -/
def popPath (st : St) (i : Nat) : St :=
  { st with scopes := modifyAt st.scopes i (fun sc => { sc with path := sc.path.dropLast }) }

/-- `this.#retainedSingleton.set(name, instance)`. -/
def setSingleton (st : St) (name : String) (v : Value) : St :=
  { st with singletonCache := setKey st.singletonCache name v }

/-- `this.#retainedScoped.set(name, instance)` on scope `i`. -/
def setScoped (st : St) (i : Nat) (name : String) (v : Value) : St :=
  { st with scopes :=
      modifyAt st.scopes i (fun sc => { sc with scopedCache := setKey sc.scopedCache name v }) }

/-- Record one invocation of the factory registered under `name`,
performed on scope `i`. -/
def logCall (st : St) (i : Nat) (name : String) : St :=
  { st with callLog := st.callLog ++ [(i, name)] }

/-- The exotic context argument of `createContext`: absent, or a plain
mapping of extra names to values. -/
abbrev Exotic := Option (EntryMap Value)

/-- Requests the interpreter can serve: a `scope.resolve(name, context)`
call, a proxy property read `context[key]`, the invocation of a factory
for a named service, and the sequence of context reads a factory body
performs for its dependency list. -/
inductive Req where
  | resolve : String → Req
  | getKey : Key → Req
  | runFac : String → Factory → Req
  | runDeps : List String → Req
deriving DecidableEq, Repr

/-- Error-propagating sequencing: a thrown error aborts the rest. -/
def bindOk (o : Option (Except JsErr Value × St))
    (k : Value → St → Option (Except JsErr Value × St)) :
    Option (Except JsErr Value × St) :=
  match o with
  | none => none
  | some (Except.error e, st') => some (Except.error e, st')
  | some (Except.ok v, st') => k v st'

/-- The `try { instance = create(context) } finally { this.#path.pop() }`
shape shared by all three lifetime branches: the path entry is popped on
both success and failure; on success the `store` action (the cache
`set`, or nothing for transient) runs on the popped state. -/
def constructCont (i : Nat) (store : St → Value → St)
    (o : Option (Except JsErr Value × St)) : Option (Except JsErr Value × St) :=
  match o with
  | none => none
  | some (Except.error e, st') => some (Except.error e, popPath st' i)
  | some (Except.ok v, st') => some (Except.ok v, store (popPath st' i) v)

/-- The resolution engine.  `step reg ex fuel i req st` runs request
`req` against registry `reg` on scope `i`, inside a context whose exotic
mapping is `ex`.  Fuel only bounds recursion depth; `none` means the
fuel ran out (real runs terminate: the circular check caps the stack by
the number of registered names).

`Req.resolve` follows `ServiceScope.resolve` line by line: circular
check, `registry.get`, then the lifetime switch, where singleton and
scoped misses push / construct / pop / store, the scoped miss
additionally runs the lifetime-escalation walk before pushing, and
transient always constructs and never stores.  `Req.getKey` follows the
proxy `get` trap in `createContext`: a symbol key dies with a
`TypeError` when the template literal ``Invalid service name: ${name}``
coerces it (so `throwError` is never reached), `"then"` reads as
`undefined`, a name contained in the exotic mapping is returned from it,
and anything else delegates to `resolve`. -/
def step (reg : Registry) (ex : Exotic) :
    Nat → Nat → Req → St → Option (Except JsErr Value × St)
  | 0, _, _, _ => none
  | Nat.succ fuel, i, req, st =>
    match req with
    | Req.getKey key =>
      match key with
      | Key.sym _ => some (Except.error JsErr.typeError, st)
      | Key.str name =>
        if name = "then" then some (Except.ok Value.undef, st)
        else
          match ex with
          | some m =>
            if containsKey m name then some (Except.ok (mapGet m name), st)
            else step reg ex fuel i (Req.resolve name) st
          | none => step reg ex fuel i (Req.resolve name) st
    | Req.resolve name =>
      match circularCheck (labelOf st i) (pathOf st i) name with
      | some e => some (Except.error e, st)
      | none =>
        match lookupKey reg name with
        | none => some (Except.error (JsErr.resolveError ("Invalid service name: " ++ name)), st)
        | some d =>
          match d.lifetime with
          | Lifetime.singleton =>
            match mapGet st.singletonCache name with
            | Value.obj t => some (Except.ok (Value.obj t), st)
            | Value.undef =>
              constructCont i (fun s v => setSingleton s name v)
                (step reg ex fuel i (Req.runFac name d.create) (pushPath st i name))
          | Lifetime.scoped =>
            match mapGet (scopedOf st i) name with
            | Value.obj t => some (Except.ok (Value.obj t), st)
            | Value.undef =>
              match lifetimeCheck reg (labelOf st i) (pathOf st i) name with
              | some e => some (Except.error e, st)
              | none =>
                constructCont i (fun s v => setScoped s i name v)
                  (step reg ex fuel i (Req.runFac name d.create) (pushPath st i name))
          | Lifetime.transient =>
            constructCont i (fun s _ => s)
              (step reg ex fuel i (Req.runFac name d.create) (pushPath st i name))
    | Req.runFac name fac =>
      match fac with
      | Factory.const v => some (Except.ok v, logCall st i name)
      | Factory.throws t => some (Except.error (JsErr.userError t), logCall st i name)
      | Factory.alloc deps =>
        bindOk (step reg ex fuel i (Req.runDeps deps) (logCall st i name))
          (fun _ st' => some (Except.ok (Value.obj st'.fresh), { st' with fresh := st'.fresh + 1 }))
    | Req.runDeps deps =>
      match deps with
      | [] => some (Except.ok Value.undef, st)
      | dep :: rest =>
        bindOk (step reg ex fuel i (Req.getKey (Key.str dep)) st)
          (fun _ st' => step reg ex fuel i (Req.runDeps rest) st')

/-- Events of a provider session: `beginScope` creates a fresh scope;
`access i name` reads property `name` on the plain context (`begin()`
passes no exotic mapping) of the scope created `i`-th. -/
inductive Ev where
  | beginScope : Ev
  | access : Nat → String → Ev
deriving DecidableEq, Repr

/-- Run one event.  Accessing a scope that was never created is not a
representable JS program, so it is rejected like fuel exhaustion. -/
def runEv (reg : Registry) (fuel : Nat) : Ev → St → Option (Except JsErr Value × St)
  | Ev.beginScope, st => some (Except.ok Value.undef, { st with scopes := st.scopes ++ [Scope.init] })
  | Ev.access i name, st =>
    if i < st.scopes.length then step reg none fuel i (Req.getKey (Key.str name)) st
    else none

/-- Sequencing for session runs: collect the event's outcome, keep its
post-state, and continue. -/
def traceCont (o : Option (Except JsErr Value × St))
    (k : St → Option (List (Except JsErr Value) × St)) :
    Option (List (Except JsErr Value) × St) :=
  match o with
  | none => none
  | some (r, st') =>
    match k st' with
    | none => none
    | some (rs, st'') => some (r :: rs, st'')

/-- Run a whole session, collecting each event's outcome.  Errors are
returned to the driver (a JS caller may catch and continue), so the
session keeps going after a failed access. -/
def runTrace (reg : Registry) (fuel : Nat) : List Ev → St → Option (List (Except JsErr Value) × St)
  | [], st => some ([], st)
  | ev :: rest, st =>
    traceCont (runEv reg fuel ev st) (fun st' => runTrace reg fuel rest st')

/-- Number of invocations of the factory registered under `name`. -/
def countCalls (st : St) (name : String) : Nat :=
  (st.callLog.filter (fun q => q.2 = name)).length

/-- Number of invocations of the factory under `name` performed on scope `j`. -/
def countScope (st : St) (j : Nat) (name : String) : Nat :=
  (st.callLog.filter (fun q => q = (j, name))).length

/-- Did this outcome return normally? -/
def isOk : Except JsErr Value → Bool
  | Except.ok _ => true
  | Except.error _ => false

/-- A factory never evaluating to `undefined`: allocation always returns
an object and a throwing factory returns nothing, so only a constant
factory can produce the cache sentinel. -/
def Factory.returnsDefined : Factory → Bool
  | Factory.const v => v ≠ Value.undef
  | _ => true


/-- A value passed to the registration API as `target`.
`ServiceFactory.from` distinguishes a class constructor (a function
whose `prototype` property exists and is non-writable, wrapped as
`context => new target(context)`) from a plain callable (used directly);
anything that is not a function is rejected with `new TypeError()`.
Both function shapes behave as the same one-argument callable, which is
what `Factory` models. -/
inductive Target where
  | classCtor : Factory → Target
  | plainFn : Factory → Target
  | notFn : Value → Target
deriving DecidableEq, Repr

/-- `ServiceFactory.from` (`from` is reserved in Lean, hence the name). -/
def fromTarget : Target → Except JsErr Factory
  | Target.classCtor f => Except.ok f
  | Target.plainFn f => Except.ok f
  | Target.notFn _ => Except.error JsErr.typeError

/-- `ServiceRegistryBuilder#add`: record the descriptor, overwriting a
prior registration of the same name. -/
def addDescriptor (b : EntryMap Descriptor) (name : String) (create : Factory)
    (lt : Lifetime) : EntryMap Descriptor :=
  setKey b name ⟨lt, create⟩

/-- `addSingleton(name, target)`: `ServiceFactory.from(target)` runs
first, so a `TypeError` escapes before the descriptor map is touched. -/
def addSingleton (b : EntryMap Descriptor) (name : String) (target : Target) :
    Except JsErr (EntryMap Descriptor) :=
  match fromTarget target with
  | Except.error e => Except.error e
  | Except.ok f => Except.ok (addDescriptor b name f Lifetime.singleton)

/-- `addScoped(name, target)`. -/
def addScoped (b : EntryMap Descriptor) (name : String) (target : Target) :
    Except JsErr (EntryMap Descriptor) :=
  match fromTarget target with
  | Except.error e => Except.error e
  | Except.ok f => Except.ok (addDescriptor b name f Lifetime.scoped)

/-- `addTransient(name, target)`. -/
def addTransient (b : EntryMap Descriptor) (name : String) (target : Target) :
    Except JsErr (EntryMap Descriptor) :=
  match fromTarget target with
  | Except.error e => Except.error e
  | Except.ok f => Except.ok (addDescriptor b name f Lifetime.transient)

/-- `build()` freezes the collected descriptors into the registry. -/
def buildRegistry (b : EntryMap Descriptor) : Registry := b

/-- The own property keys of a context, as `[[OwnPropertyKeys]]` reports
them: the proxy handler built in `createContext` defines only a `get`
trap over the empty object `{}` used as the proxy target, so the
operation forwards to that target and yields no keys at all. -/
def contextOwnKeys : List Key := []

/-- Object-spread (`CopyDataProperties`) over a list of own keys: read
each key through the proxy `get` trap and collect the string-keyed
results into a plain object. -/
def spreadKeys (reg : Registry) (ex : Exotic) (fuel i : Nat) :
    List Key → St → EntryMap Value
  | [], _ => []
  | k :: rest, st =>
    match step reg ex fuel i (Req.getKey k) st with
    | some (Except.ok v, st') =>
      (match k with
       | Key.str s => [(s, v)]
       | Key.sym _ => []) ++ spreadKeys reg ex fuel i rest st'
    | _ => spreadKeys reg ex fuel i rest st

/-- `{...context}`: spread the context's own keys into a plain object. -/
def contextSpread (reg : Registry) (ex : Exotic) (fuel i : Nat) (st : St) : EntryMap Value :=
  spreadKeys reg ex fuel i contextOwnKeys st

/-- Example registry: a singleton depending on a transient. -/
def regSingletonOverTransient : Registry :=
  [("s", ⟨Lifetime.singleton, Factory.alloc ["t"]⟩),
   ("t", ⟨Lifetime.transient, Factory.alloc []⟩)]

/-- Example registry: a singleton depending on a scoped service. -/
def regSingletonOverScoped : Registry :=
  [("s", ⟨Lifetime.singleton, Factory.alloc ["p"]⟩),
   ("p", ⟨Lifetime.scoped, Factory.alloc []⟩)]

/-- Example registry: a singleton depending on a transient and on
another singleton. -/
def regSingletonChain : Registry :=
  [("root", ⟨Lifetime.singleton, Factory.alloc ["tr", "leaf"]⟩),
   ("tr", ⟨Lifetime.transient, Factory.alloc []⟩),
   ("leaf", ⟨Lifetime.singleton, Factory.alloc []⟩)]

/-- Example registry: a singleton whose factory returns `undefined`. -/
def regUndefSingleton : Registry :=
  [("a", ⟨Lifetime.singleton, Factory.const Value.undef⟩)]

/-- Example registry: a scoped service whose factory returns `undefined`. -/
def regUndefScoped : Registry :=
  [("b", ⟨Lifetime.scoped, Factory.const Value.undef⟩)]

/-- Example registry: a two-cycle `a -> b -> a` plus an unrelated
singleton `c`. -/
def regCycle : Registry :=
  [("a", ⟨Lifetime.transient, Factory.alloc ["b"]⟩),
   ("b", ⟨Lifetime.transient, Factory.alloc ["a"]⟩),
   ("c", ⟨Lifetime.singleton, Factory.alloc []⟩)]

/-- Example registry: one ordinary singleton. -/
def regOneSingleton : Registry := [("w", ⟨Lifetime.singleton, Factory.alloc []⟩)]

/-- Example registry: one ordinary scoped service. -/
def regOneScoped : Registry := [("w", ⟨Lifetime.scoped, Factory.alloc []⟩)]

/-- Example registry: one ordinary transient. -/
def regOneTransient : Registry := [("w", ⟨Lifetime.transient, Factory.alloc []⟩)]

/-- Example registry: a singleton returning a fixed object. -/
def regConstSingleton : Registry :=
  [("a", ⟨Lifetime.singleton, Factory.const (Value.obj 5)⟩)]

/-- Example registry: a singleton whose factory throws. -/
def regThrowing : Registry :=
  [("boom", ⟨Lifetime.singleton, Factory.throws 42⟩)]

/-- Provider state with a single freshly begun scope. -/
def oneScopeSt : St := ⟨[], [Scope.init], [], 0⟩

/-- Provider state of a scope midway through constructing the singleton
`"s"`: `"s"` has been pushed and its factory invoked. -/
def midResolveSt : St := ⟨[], [⟨[], ["s"], ScopeLabel.nullv⟩], [(0, "s")], 0⟩

/-- Provider state of a scope whose stack currently holds `"x"`, `"y"`. -/
def twoPathSt : St := ⟨[], [⟨[], ["x", "y"], ScopeLabel.nullv⟩], [], 0⟩

/-! Basic facts about the map, list and state helpers. -/

theorem lookupKey_setKey_self {α : Type} (m : EntryMap α) (k : String) (v : α) :
    lookupKey (setKey m k v) k = some v := by
  induction m with
  | nil => simp [setKey, lookupKey]
  | cons p rest ih =>
    obtain ⟨k', w⟩ := p
    by_cases h : k' = k
    · simp [setKey, h, lookupKey]
    · simp [setKey, h, lookupKey, ih]

theorem lookupKey_setKey_ne {α : Type} (m : EntryMap α) (k k' : String) (v : α)
    (h : k' ≠ k) : lookupKey (setKey m k v) k' = lookupKey m k' := by
  have hk : ¬k = k' := fun hh => h hh.symm
  induction m with
  | nil => simp [setKey, lookupKey, hk]
  | cons p rest ih =>
    obtain ⟨k0, w⟩ := p
    by_cases h0 : k0 = k
    · subst h0
      simp [setKey, lookupKey, hk]
    · simp [setKey, h0, lookupKey, ih]

theorem mapGet_setKey_self (m : EntryMap Value) (k : String) (v : Value) :
    mapGet (setKey m k v) k = v := by
  simp [mapGet, lookupKey_setKey_self]

theorem mapGet_setKey_ne (m : EntryMap Value) (k k' : String) (v : Value) (h : k' ≠ k) :
    mapGet (setKey m k v) k' = mapGet m k' := by
  simp [mapGet, lookupKey_setKey_ne m k k' v h]

theorem modifyAt_length {α : Type} (l : List α) (i : Nat) (f : α → α) :
    (modifyAt l i f).length = l.length := by
  induction l generalizing i with
  | nil => simp [modifyAt]
  | cons x rest ih =>
    cases i with
    | zero => simp [modifyAt]
    | succ j => simp [modifyAt, ih]

theorem listGet?_modifyAt {α : Type} (l : List α) (i j : Nat) (f : α → α) :
    listGet? (modifyAt l i f) j = if j = i then (listGet? l j).map f else listGet? l j := by
  induction l generalizing i j with
  | nil => simp [modifyAt, listGet?]
  | cons x rest ih =>
    cases i with
    | zero =>
      cases j with
      | zero => simp [modifyAt, listGet?]
      | succ j' => simp [modifyAt, listGet?]
    | succ i' =>
      cases j with
      | zero => simp [modifyAt, listGet?]
      | succ j' =>
        simp only [modifyAt, listGet?, ih i' j']
        by_cases h : j' = i'
        · simp [h]
        · simp [h]

theorem listGet?_isSome_of_lt {α : Type} (l : List α) (i : Nat) (h : i < l.length) :
    (listGet? l i).isSome := by
  induction l generalizing i with
  | nil => simp at h
  | cons x rest ih =>
    cases i with
    | zero => simp [listGet?]
    | succ j =>
      simp only [listGet?]
      exact ih j (by simpa using Nat.lt_of_succ_lt_succ h)

theorem listGet?_append_left {α : Type} (l l' : List α) (i : Nat) (h : i < l.length) :
    listGet? (l ++ l') i = listGet? l i := by
  induction l generalizing i with
  | nil => simp at h
  | cons x rest ih =>
    cases i with
    | zero => simp [listGet?]
    | succ j =>
      simp only [List.cons_append, listGet?]
      exact ih j (by simpa using Nat.lt_of_succ_lt_succ h)

/-! The state mutators leave unrelated components untouched. -/

theorem scopes_length_pushPath (st : St) (i : Nat) (n : String) :
    (pushPath st i n).scopes.length = st.scopes.length := modifyAt_length _ _ _

theorem scopes_length_popPath (st : St) (i : Nat) :
    (popPath st i).scopes.length = st.scopes.length := modifyAt_length _ _ _

theorem scopes_length_setScoped (st : St) (i : Nat) (n : String) (v : Value) :
    (setScoped st i n v).scopes.length = st.scopes.length := modifyAt_length _ _ _

theorem pathOf_pushPath_self (st : St) (i : Nat) (n : String) (h : i < st.scopes.length) :
    pathOf (pushPath st i n) i = pathOf st i ++ [n] := by
  obtain ⟨sc, hsc⟩ := Option.isSome_iff_exists.mp (listGet?_isSome_of_lt st.scopes i h)
  simp [pathOf, pushPath, listGet?_modifyAt, hsc]

theorem pathOf_pushPath_ne (st : St) (i j : Nat) (n : String) (h : j ≠ i) :
    pathOf (pushPath st i n) j = pathOf st j := by
  simp only [pathOf, pushPath, listGet?_modifyAt, h, if_false]

theorem pathOf_popPath_self (st : St) (i : Nat) (h : i < st.scopes.length) :
    pathOf (popPath st i) i = (pathOf st i).dropLast := by
  obtain ⟨sc, hsc⟩ := Option.isSome_iff_exists.mp (listGet?_isSome_of_lt st.scopes i h)
  simp [pathOf, popPath, listGet?_modifyAt, hsc]

theorem pathOf_popPath_ne (st : St) (i j : Nat) (h : j ≠ i) :
    pathOf (popPath st i) j = pathOf st j := by
  simp only [pathOf, popPath, listGet?_modifyAt, h, if_false]

theorem pathOf_setScoped (st : St) (i j : Nat) (n : String) (v : Value) :
    pathOf (setScoped st i n v) j = pathOf st j := by
  simp only [pathOf, setScoped, listGet?_modifyAt]
  by_cases h : j = i
  · subst h
    cases listGet? st.scopes j <;> simp
  · simp [h]

theorem pathOf_setSingleton (st : St) (n : String) (v : Value) (j : Nat) :
    pathOf (setSingleton st n v) j = pathOf st j := rfl

theorem pathOf_logCall (st : St) (i : Nat) (n : String) (j : Nat) :
    pathOf (logCall st i n) j = pathOf st j := rfl

theorem labelOf_pushPath (st : St) (i j : Nat) (n : String) :
    labelOf (pushPath st i n) j = labelOf st j := by
  simp only [labelOf, pushPath, listGet?_modifyAt]
  by_cases h : j = i
  · subst h
    cases listGet? st.scopes j <;> simp
  · simp [h]

theorem labelOf_popPath (st : St) (i j : Nat) :
    labelOf (popPath st i) j = labelOf st j := by
  simp only [labelOf, popPath, listGet?_modifyAt]
  by_cases h : j = i
  · subst h
    cases listGet? st.scopes j <;> simp
  · simp [h]

theorem labelOf_setScoped (st : St) (i j : Nat) (n : String) (v : Value) :
    labelOf (setScoped st i n v) j = labelOf st j := by
  simp only [labelOf, setScoped, listGet?_modifyAt]
  by_cases h : j = i
  · subst h
    cases listGet? st.scopes j <;> simp
  · simp [h]

theorem labelOf_setSingleton (st : St) (n : String) (v : Value) (j : Nat) :
    labelOf (setSingleton st n v) j = labelOf st j := rfl

theorem labelOf_logCall (st : St) (i : Nat) (n : String) (j : Nat) :
    labelOf (logCall st i n) j = labelOf st j := rfl

theorem scopedOf_pushPath (st : St) (i j : Nat) (n : String) :
    scopedOf (pushPath st i n) j = scopedOf st j := by
  simp only [scopedOf, pushPath, listGet?_modifyAt]
  by_cases h : j = i
  · subst h
    cases listGet? st.scopes j <;> simp
  · simp [h]

theorem scopedOf_popPath (st : St) (i j : Nat) :
    scopedOf (popPath st i) j = scopedOf st j := by
  simp only [scopedOf, popPath, listGet?_modifyAt]
  by_cases h : j = i
  · subst h
    cases listGet? st.scopes j <;> simp
  · simp [h]

theorem scopedOf_setSingleton (st : St) (n : String) (v : Value) (j : Nat) :
    scopedOf (setSingleton st n v) j = scopedOf st j := rfl

theorem scopedOf_logCall (st : St) (i : Nat) (n : String) (j : Nat) :
    scopedOf (logCall st i n) j = scopedOf st j := rfl

theorem scopedOf_setScoped_self (st : St) (i : Nat) (n : String) (v : Value)
    (h : i < st.scopes.length) :
    scopedOf (setScoped st i n v) i = setKey (scopedOf st i) n v := by
  obtain ⟨sc, hsc⟩ := Option.isSome_iff_exists.mp (listGet?_isSome_of_lt st.scopes i h)
  simp [scopedOf, setScoped, listGet?_modifyAt, hsc]

theorem scopedOf_setScoped_ne (st : St) (i j : Nat) (n : String) (v : Value) (h : j ≠ i) :
    scopedOf (setScoped st i n v) j = scopedOf st j := by
  simp only [scopedOf, setScoped, listGet?_modifyAt, h, if_false]

theorem singletonCache_pushPath (st : St) (i : Nat) (n : String) :
    (pushPath st i n).singletonCache = st.singletonCache := rfl

theorem singletonCache_popPath (st : St) (i : Nat) :
    (popPath st i).singletonCache = st.singletonCache := rfl

theorem singletonCache_setScoped (st : St) (i : Nat) (n : String) (v : Value) :
    (setScoped st i n v).singletonCache = st.singletonCache := rfl

theorem singletonCache_logCall (st : St) (i : Nat) (n : String) :
    (logCall st i n).singletonCache = st.singletonCache := rfl

theorem callLog_pushPath (st : St) (i : Nat) (n : String) :
    (pushPath st i n).callLog = st.callLog := rfl

theorem callLog_popPath (st : St) (i : Nat) : (popPath st i).callLog = st.callLog := rfl

theorem callLog_setScoped (st : St) (i : Nat) (n : String) (v : Value) :
    (setScoped st i n v).callLog = st.callLog := rfl

theorem callLog_setSingleton (st : St) (n : String) (v : Value) :
    (setSingleton st n v).callLog = st.callLog := rfl

theorem countCalls_logCall (st : St) (i : Nat) (n name : String) :
    countCalls (logCall st i n) name =
      countCalls st name + (if n = name then 1 else 0) := by
  by_cases h : n = name <;> simp [countCalls, logCall, h]

theorem countScope_logCall (st : St) (i : Nat) (n : String) (j : Nat) (name : String) :
    countScope (logCall st i n) j name =
      countScope st j name + (if (i, n) = (j, name) then 1 else 0) := by
  by_cases h : (i, n) = ((j, name) : Nat × String) <;> simp [countScope, logCall, h]

/-! Inversion principles for the two sequencing combinators. -/

theorem bindOk_eq_some (o : Option (Except JsErr Value × St))
    (k : Value → St → Option (Except JsErr Value × St)) (r : Except JsErr Value) (st' : St)
    (h : bindOk o k = some (r, st')) :
    (∃ e st1, o = some (Except.error e, st1) ∧ r = Except.error e ∧ st' = st1) ∨
      (∃ v st1, o = some (Except.ok v, st1) ∧ k v st1 = some (r, st')) := by
  match o with
  | none => simp [bindOk] at h
  | some (Except.error e, st1) =>
    left
    simp [bindOk] at h
    exact ⟨e, st1, rfl, h.1.symm, h.2.symm⟩
  | some (Except.ok v, st1) =>
    right
    exact ⟨v, st1, rfl, h⟩

theorem constructCont_eq_some (i : Nat) (store : St → Value → St)
    (o : Option (Except JsErr Value × St)) (r : Except JsErr Value) (st' : St)
    (h : constructCont i store o = some (r, st')) :
    (∃ e st1, o = some (Except.error e, st1) ∧ r = Except.error e ∧ st' = popPath st1 i) ∨
      (∃ v st1, o = some (Except.ok v, st1) ∧ r = Except.ok v ∧ st' = store (popPath st1 i) v) := by
  match o with
  | none => simp [constructCont] at h
  | some (Except.error e, st1) =>
    left
    simp [constructCont] at h
    exact ⟨e, st1, rfl, h.1.symm, h.2.symm⟩
  | some (Except.ok v, st1) =>
    right
    simp [constructCont] at h
    exact ⟨v, st1, rfl, h.1.symm, h.2.symm⟩

/-! Facts about `lastIdxOf` and the circular check. -/

theorem lastIdxOf_eq_none_iff (l : List String) (name : String) :
    lastIdxOf l name = none ↔ name ∉ l := by
  induction l with
  | nil => simp [lastIdxOf]
  | cons p rest ih =>
    simp only [lastIdxOf, List.mem_cons]
    cases h : lastIdxOf rest name with
    | some i =>
      have hmem : name ∈ rest := by
        by_contra hc
        rw [ih.mpr hc] at h
        exact Option.noConfusion h
      simp [hmem]
    | none =>
      have hnm : name ∉ rest := ih.mp h
      by_cases hp : p = name
      · simp [hp]
      · have hp' : ¬name = p := fun hh => hp hh.symm
        simp [hp, hp', hnm]

/-! Facts about the lifetime-escalation walk. -/

theorem lifetimeScan_finds (reg : Registry) (l : List String)
    (hreg : ∀ p ∈ l, (lookupKey reg p).isSome = true)
    (hsing : ∃ p ∈ l, ∃ d, lookupKey reg p = some d ∧ d.lifetime = Lifetime.singleton) :
    ∀ k0, ∃ k, lifetimeScan reg l k0 = some (Except.ok k) := by
  induction l with
  | nil => simp at hsing
  | cons p rest ih =>
    intro k0
    obtain ⟨d, hd⟩ := Option.isSome_iff_exists.mp (hreg p (by simp))
    by_cases hlt : d.lifetime = Lifetime.singleton
    · exact ⟨k0, by simp [lifetimeScan, hd, hlt]⟩
    · have hrest : ∃ q ∈ rest, ∃ d', lookupKey reg q = some d' ∧
          d'.lifetime = Lifetime.singleton := by
        obtain ⟨q, hq, d', hd', hlt'⟩ := hsing
        rcases List.mem_cons.mp hq with hq0 | hq1
        · subst hq0
          rw [hd] at hd'
          cases hd'
          exact absurd hlt' hlt
        · exact ⟨q, hq1, d', hd', hlt'⟩
      obtain ⟨k, hk⟩ := ih (fun q hq => hreg q (List.mem_cons_of_mem _ hq)) hrest (k0 + 1)
      exact ⟨k, by simp [lifetimeScan, hd, hlt, hk]⟩

theorem lifetimeCheck_fires (reg : Registry) (label : ScopeLabel) (path : List String)
    (name : String)
    (hreg : ∀ p ∈ path, (lookupKey reg p).isSome = true)
    (hsing : ∃ p ∈ path, ∃ d, lookupKey reg p = some d ∧ d.lifetime = Lifetime.singleton) :
    ∃ k, lifetimeCheck reg label path name =
      some (JsErr.resolveError (lifetimeMessage label path k name)) := by
  have hreg' : ∀ p ∈ path.reverse, (lookupKey reg p).isSome = true := by
    intro p hp
    exact hreg p (List.mem_reverse.mp hp)
  have hsing' : ∃ p ∈ path.reverse, ∃ d, lookupKey reg p = some d ∧
      d.lifetime = Lifetime.singleton := by
    obtain ⟨p, hp, w⟩ := hsing
    exact ⟨p, List.mem_reverse.mpr hp, w⟩
  obtain ⟨k, hk⟩ := lifetimeScan_finds reg path.reverse hreg' hsing' 0
  exact ⟨path.length - 1 - k, by simp [lifetimeCheck, hk]⟩

theorem lifetimeScan_clean (reg : Registry) (l : List String)
    (h : ∀ p ∈ l, ∃ d, lookupKey reg p = some d ∧ d.lifetime ≠ Lifetime.singleton) :
    ∀ k0, lifetimeScan reg l k0 = none := by
  induction l with
  | nil => intro k0; rfl
  | cons p rest ih =>
    intro k0
    obtain ⟨d, hd, hlt⟩ := h p (by simp)
    simp [lifetimeScan, hd, hlt, ih (fun q hq => h q (List.mem_cons_of_mem _ hq))]

/-! The step invariant: everything a single engine request preserves.

`frame` says the scope list keeps its length, scopes other than the
active one are untouched, and the active scope's path and label are
restored on exit (the `finally` pop balancing every push).  `singleMono`
and `scopedMono` say a cached defined instance is never replaced.
`log` says every invocation recorded during the request is attributed to
the active scope.  `singleStable` / `scopedStable` say a cache is only
ever written at a name whose registered lifetime matches that cache. -/

structure StepInv (reg : Registry) (i : Nat) (st st' : St) : Prop where
  scopesLen : st'.scopes.length = st.scopes.length
  otherScopes : ∀ j, j ≠ i → listGet? st'.scopes j = listGet? st.scopes j
  pathEq : pathOf st' i = pathOf st i
  labelEq : labelOf st' i = labelOf st i
  singleMono : ∀ k t, mapGet st.singletonCache k = Value.obj t →
    mapGet st'.singletonCache k = Value.obj t
  scopedMono : ∀ j k t, mapGet (scopedOf st j) k = Value.obj t →
    mapGet (scopedOf st' j) k = Value.obj t
  log : ∃ ext, st'.callLog = st.callLog ++ ext ∧ ∀ p ∈ ext, p.1 = i
  freshLe : st.fresh ≤ st'.fresh
  singleStable : ∀ k, (∀ d, lookupKey reg k = some d → d.lifetime ≠ Lifetime.singleton) →
    mapGet st'.singletonCache k = mapGet st.singletonCache k
  scopedStable : ∀ j k, (∀ d, lookupKey reg k = some d → d.lifetime ≠ Lifetime.scoped) →
    mapGet (scopedOf st' j) k = mapGet (scopedOf st j) k

theorem stepInv_rfl (reg : Registry) (i : Nat) (st : St) : StepInv reg i st st :=
  ⟨rfl, fun _ _ => rfl, rfl, rfl, fun _ _ h => h, fun _ _ _ h => h,
    ⟨[], by simp, by simp⟩, Nat.le_refl _, fun _ _ => rfl, fun _ _ _ => rfl⟩

theorem stepInv_trans (reg : Registry) (i : Nat) (st st' st'' : St)
    (h1 : StepInv reg i st st') (h2 : StepInv reg i st' st'') : StepInv reg i st st'' := by
  refine ⟨h2.scopesLen.trans h1.scopesLen,
    fun j hj => (h2.otherScopes j hj).trans (h1.otherScopes j hj),
    h2.pathEq.trans h1.pathEq, h2.labelEq.trans h1.labelEq,
    fun k t h => h2.singleMono k t (h1.singleMono k t h),
    fun j k t h => h2.scopedMono j k t (h1.scopedMono j k t h), ?_,
    Nat.le_trans h1.freshLe h2.freshLe,
    fun k hk => (h2.singleStable k hk).trans (h1.singleStable k hk),
    fun j k hk => (h2.scopedStable j k hk).trans (h1.scopedStable j k hk)⟩
  obtain ⟨e1, he1, hm1⟩ := h1.log
  obtain ⟨e2, he2, hm2⟩ := h2.log
  refine ⟨e1 ++ e2, by rw [he2, he1, List.append_assoc], ?_⟩
  intro p hp
  rcases List.mem_append.mp hp with hp1 | hp2
  · exact hm1 p hp1
  · exact hm2 p hp2

theorem stepInv_logCall (reg : Registry) (i : Nat) (st : St) (n : String) :
    StepInv reg i st (logCall st i n) :=
  ⟨rfl, fun _ _ => rfl, rfl, rfl, fun _ _ h => h, fun _ _ _ h => h,
    ⟨[(i, n)], rfl, by simp⟩, Nat.le_refl _, fun _ _ => rfl, fun _ _ _ => rfl⟩

theorem stepInv_fresh (reg : Registry) (i : Nat) (st st' : St) (h : StepInv reg i st st') :
    StepInv reg i st { st' with fresh := st'.fresh + 1 } :=
  ⟨h.scopesLen, h.otherScopes, h.pathEq, h.labelEq, h.singleMono, h.scopedMono, h.log,
    Nat.le_trans h.freshLe (Nat.le_succ _), h.singleStable, h.scopedStable⟩

theorem stepInv_popPath (reg : Registry) (i : Nat) (st st1 : St) (name : String)
    (hi : i < st.scopes.length)
    (hbody : StepInv reg i (pushPath st i name) st1) :
    StepInv reg i st (popPath st1 i) := by
  have hlen1 : st1.scopes.length = st.scopes.length :=
    hbody.scopesLen.trans (scopes_length_pushPath st i name)
  have hi1 : i < st1.scopes.length := hlen1 ▸ hi
  refine ⟨(scopes_length_popPath st1 i).trans hlen1, ?_, ?_, ?_,
    fun k t h => hbody.singleMono k t h,
    fun j k t h => by
      rw [scopedOf_popPath]
      exact hbody.scopedMono j k t (by rwa [scopedOf_pushPath]), ?_,
    hbody.freshLe,
    fun k hk => (hbody.singleStable k hk : _),
    fun j k hk => by
      rw [scopedOf_popPath]
      rw [hbody.scopedStable j k hk, scopedOf_pushPath]⟩
  · intro j hj
    calc listGet? (popPath st1 i).scopes j = listGet? st1.scopes j := by
          simp [popPath, listGet?_modifyAt, hj]
      _ = listGet? (pushPath st i name).scopes j := hbody.otherScopes j hj
      _ = listGet? st.scopes j := by simp [pushPath, listGet?_modifyAt, hj]
  · rw [pathOf_popPath_self st1 i hi1, hbody.pathEq, pathOf_pushPath_self st i name hi]
    exact List.dropLast_concat
  · rw [labelOf_popPath, hbody.labelEq, labelOf_pushPath]
  · obtain ⟨ext, hext, hm⟩ := hbody.log
    exact ⟨ext, by rw [callLog_popPath, hext, callLog_pushPath], hm⟩

theorem stepInv_setSingleton (reg : Registry) (i : Nat) (st st' : St) (name : String)
    (v : Value) (d : Descriptor)
    (hmiss : mapGet st.singletonCache name = Value.undef)
    (hname : lookupKey reg name = some d) (hlt : d.lifetime = Lifetime.singleton)
    (h : StepInv reg i st st') :
    StepInv reg i st (setSingleton st' name v) := by
  refine ⟨h.scopesLen, h.otherScopes, h.pathEq, h.labelEq, ?_, h.scopedMono, h.log,
    h.freshLe, ?_, h.scopedStable⟩
  · intro k t hk
    have hkn : k ≠ name := by
      intro he
      rw [he, hmiss] at hk
      exact Value.noConfusion hk
    rw [show (setSingleton st' name v).singletonCache = setKey st'.singletonCache name v
      from rfl, mapGet_setKey_ne _ _ _ _ hkn]
    exact h.singleMono k t hk
  · intro k hk
    have hkn : k ≠ name := by
      intro he
      exact hk d (he ▸ hname) hlt
    rw [show (setSingleton st' name v).singletonCache = setKey st'.singletonCache name v
      from rfl, mapGet_setKey_ne _ _ _ _ hkn]
    exact h.singleStable k hk

theorem stepInv_setScoped (reg : Registry) (i : Nat) (st st' : St) (name : String)
    (v : Value) (d : Descriptor)
    (hi : i < st.scopes.length)
    (hmiss : mapGet (scopedOf st i) name = Value.undef)
    (hname : lookupKey reg name = some d) (hlt : d.lifetime = Lifetime.scoped)
    (h : StepInv reg i st st') :
    StepInv reg i st (setScoped st' i name v) := by
  have hi' : i < st'.scopes.length := h.scopesLen ▸ hi
  refine ⟨(scopes_length_setScoped st' i name v).trans h.scopesLen, ?_, ?_, ?_,
    h.singleMono, ?_, h.log, h.freshLe, h.singleStable, ?_⟩
  · intro j hj
    calc listGet? (setScoped st' i name v).scopes j = listGet? st'.scopes j := by
          simp [setScoped, listGet?_modifyAt, hj]
      _ = listGet? st.scopes j := h.otherScopes j hj
  · rw [pathOf_setScoped]
    exact h.pathEq
  · rw [labelOf_setScoped]
    exact h.labelEq
  · intro j k t hk
    by_cases hj : j = i
    · subst hj
      have hkn : k ≠ name := by
        intro he
        rw [he, hmiss] at hk
        exact Value.noConfusion hk
      rw [scopedOf_setScoped_self st' j name v hi', mapGet_setKey_ne _ _ _ _ hkn]
      exact h.scopedMono j k t hk
    · rw [scopedOf_setScoped_ne st' i j name v hj]
      exact h.scopedMono j k t hk
  · intro j k hk
    have hkn : k ≠ name := by
      intro he
      exact hk d (he ▸ hname) hlt
    by_cases hj : j = i
    · subst hj
      rw [scopedOf_setScoped_self st' j name v hi', mapGet_setKey_ne _ _ _ _ hkn]
      exact h.scopedStable j k hk
    · rw [scopedOf_setScoped_ne st' i j name v hj]
      exact h.scopedStable j k hk

/-- Every request the engine can serve preserves the step invariant:
scope list shape, sibling scopes, the active path and label, cached
defined instances, log attribution and the lifetime discipline of cache
writes. -/
theorem step_inv (reg : Registry) (ex : Exotic) :
    ∀ fuel i req st r st', i < st.scopes.length →
      step reg ex fuel i req st = some (r, st') → StepInv reg i st st' := by
  intro fuel
  induction fuel with
  | zero =>
    intro i req st r st' hi h
    simp [step] at h
  | succ fuel ih =>
    intro i req st r st' hi h
    cases req with
    | getKey key =>
      cases key with
      | sym id =>
        simp only [step, Option.some.injEq, Prod.mk.injEq] at h
        obtain ⟨-, rfl⟩ := h
        exact stepInv_rfl reg i st
      | str name =>
        by_cases hthen : name = "then"
        · subst hthen
          simp only [step, if_pos rfl, Option.some.injEq, Prod.mk.injEq] at h
          obtain ⟨-, rfl⟩ := h
          exact stepInv_rfl reg i st
        · cases ex with
          | none =>
            simp only [step, if_neg hthen] at h
            exact ih i (Req.resolve name) st r st' hi h
          | some m =>
            simp only [step, if_neg hthen] at h
            by_cases hc : containsKey m name = true
            · rw [if_pos hc] at h
              simp only [Option.some.injEq, Prod.mk.injEq] at h
              obtain ⟨-, rfl⟩ := h
              exact stepInv_rfl reg i st
            · rw [if_neg hc] at h
              exact ih i (Req.resolve name) st r st' hi h
    | resolve name =>
      have hip : i < (pushPath st i name).scopes.length := by
        rw [scopes_length_pushPath]
        exact hi
      simp only [step] at h
      split at h
      · simp only [Option.some.injEq, Prod.mk.injEq] at h
        obtain ⟨-, rfl⟩ := h
        exact stepInv_rfl reg i st
      · split at h
        · simp only [Option.some.injEq, Prod.mk.injEq] at h
          obtain ⟨-, rfl⟩ := h
          exact stepInv_rfl reg i st
        · split at h
          · split at h
            · simp only [Option.some.injEq, Prod.mk.injEq] at h
              obtain ⟨-, rfl⟩ := h
              exact stepInv_rfl reg i st
            · rename_i x1 hcc x2 d hlk x3 hlt x4 hmg
              rcases constructCont_eq_some _ _ _ _ _ h with
                ⟨e, st1, hsub, -, rfl⟩ | ⟨v, st1, hsub, -, rfl⟩
              · exact stepInv_popPath reg i st st1 name hi
                  (ih i (Req.runFac name d.create) (pushPath st i name) _ _ hip hsub)
              · exact stepInv_setSingleton reg i st (popPath st1 i) name v d hmg hlk hlt
                  (stepInv_popPath reg i st st1 name hi
                    (ih i (Req.runFac name d.create) (pushPath st i name) _ _ hip hsub))
          · split at h
            · simp only [Option.some.injEq, Prod.mk.injEq] at h
              obtain ⟨-, rfl⟩ := h
              exact stepInv_rfl reg i st
            · split at h
              · simp only [Option.some.injEq, Prod.mk.injEq] at h
                obtain ⟨-, rfl⟩ := h
                exact stepInv_rfl reg i st
              · rename_i x1 hcc x2 d hlk x3 hlt x4 hmg x5 hlc
                rcases constructCont_eq_some _ _ _ _ _ h with
                  ⟨e, st1, hsub, -, rfl⟩ | ⟨v, st1, hsub, -, rfl⟩
                · exact stepInv_popPath reg i st st1 name hi
                    (ih i (Req.runFac name d.create) (pushPath st i name) _ _ hip hsub)
                · exact stepInv_setScoped reg i st (popPath st1 i) name v d hi hmg hlk hlt
                    (stepInv_popPath reg i st st1 name hi
                      (ih i (Req.runFac name d.create) (pushPath st i name) _ _ hip hsub))
          · rename_i x1 hcc x2 d hlk x3 hlt
            rcases constructCont_eq_some _ _ _ _ _ h with
              ⟨e, st1, hsub, -, rfl⟩ | ⟨v, st1, hsub, -, rfl⟩
            · exact stepInv_popPath reg i st st1 name hi
                (ih i (Req.runFac name d.create) (pushPath st i name) _ _ hip hsub)
            · exact stepInv_popPath reg i st st1 name hi
                (ih i (Req.runFac name d.create) (pushPath st i name) _ _ hip hsub)
    | runFac name fac =>
      cases fac with
      | const v =>
        simp only [step, Option.some.injEq, Prod.mk.injEq] at h
        obtain ⟨-, rfl⟩ := h
        exact stepInv_logCall reg i st name
      | throws t =>
        simp only [step, Option.some.injEq, Prod.mk.injEq] at h
        obtain ⟨-, rfl⟩ := h
        exact stepInv_logCall reg i st name
      | alloc deps =>
        simp only [step] at h
        rcases bindOk_eq_some _ _ _ _ h with
          ⟨e, st1, hsub, -, rfl⟩ | ⟨v, st1, hsub, hk⟩
        · exact stepInv_trans reg i st (logCall st i name) st'
            (stepInv_logCall reg i st name)
            (ih i (Req.runDeps deps) (logCall st i name) _ _ hi hsub)
        · simp only [Option.some.injEq, Prod.mk.injEq] at hk
          obtain ⟨-, rfl⟩ := hk
          exact stepInv_fresh reg i st st1
            (stepInv_trans reg i st (logCall st i name) st1
              (stepInv_logCall reg i st name)
              (ih i (Req.runDeps deps) (logCall st i name) _ _ hi hsub))
    | runDeps deps =>
      cases deps with
      | nil =>
        simp only [step, Option.some.injEq, Prod.mk.injEq] at h
        obtain ⟨-, rfl⟩ := h
        exact stepInv_rfl reg i st
      | cons dep rest =>
        simp only [step] at h
        rcases bindOk_eq_some _ _ _ _ h with
          ⟨e, st1, hsub, -, rfl⟩ | ⟨v, st1, hsub, hk⟩
        · exact ih i (Req.getKey (Key.str dep)) st _ _ hi hsub
        · have h1 := ih i (Req.getKey (Key.str dep)) st _ _ hi hsub
          have hi1 : i < st1.scopes.length := by
            rw [h1.scopesLen]
            exact hi
          exact stepInv_trans reg i st st1 st' h1 (ih i (Req.runDeps rest) st1 _ _ hi1 hk)

/-! Equation lemmas exposing each branch of `step`. -/

theorem step_getKey_sym (reg : Registry) (ex : Exotic) (fuel i id : Nat) (st : St) :
    step reg ex (fuel + 1) i (Req.getKey (Key.sym id)) st =
      some (Except.error JsErr.typeError, st) := rfl

theorem step_getKey_then (reg : Registry) (ex : Exotic) (fuel i : Nat) (st : St) :
    step reg ex (fuel + 1) i (Req.getKey (Key.str "then")) st =
      some (Except.ok Value.undef, st) := by
  simp [step]

theorem step_getKey_plain (reg : Registry) (fuel i : Nat) (name : String) (st : St)
    (hthen : name ≠ "then") :
    step reg none (fuel + 1) i (Req.getKey (Key.str name)) st =
      step reg none fuel i (Req.resolve name) st := by
  simp [step, hthen]

theorem step_getKey_exotic_hit (reg : Registry) (m : EntryMap Value) (fuel i : Nat)
    (name : String) (st : St) (hthen : name ≠ "then") (hc : containsKey m name = true) :
    step reg (some m) (fuel + 1) i (Req.getKey (Key.str name)) st =
      some (Except.ok (mapGet m name), st) := by
  simp [step, hthen, hc]

theorem step_getKey_exotic_miss (reg : Registry) (m : EntryMap Value) (fuel i : Nat)
    (name : String) (st : St) (hthen : name ≠ "then") (hc : containsKey m name = false) :
    step reg (some m) (fuel + 1) i (Req.getKey (Key.str name)) st =
      step reg (some m) fuel i (Req.resolve name) st := by
  simp [step, hthen, hc]

theorem step_resolve_circular (reg : Registry) (ex : Exotic) (fuel i : Nat) (name : String)
    (st : St) (e : JsErr)
    (hcc : circularCheck (labelOf st i) (pathOf st i) name = some e) :
    step reg ex (fuel + 1) i (Req.resolve name) st = some (Except.error e, st) := by
  simp only [step]
  rw [hcc]

theorem step_resolve_unregistered (reg : Registry) (ex : Exotic) (fuel i : Nat)
    (name : String) (st : St)
    (hcc : circularCheck (labelOf st i) (pathOf st i) name = none)
    (hlk : lookupKey reg name = none) :
    step reg ex (fuel + 1) i (Req.resolve name) st =
      some (Except.error (JsErr.resolveError ("Invalid service name: " ++ name)), st) := by
  simp only [step]
  rw [hcc, hlk]

theorem step_resolve_singleton_hit (reg : Registry) (ex : Exotic) (fuel i : Nat)
    (name : String) (st : St) (d : Descriptor) (t : Nat)
    (hcc : circularCheck (labelOf st i) (pathOf st i) name = none)
    (hlk : lookupKey reg name = some d) (hlt : d.lifetime = Lifetime.singleton)
    (hmg : mapGet st.singletonCache name = Value.obj t) :
    step reg ex (fuel + 1) i (Req.resolve name) st = some (Except.ok (Value.obj t), st) := by
  obtain ⟨lt, fac⟩ := d
  have hlt2 : lt = Lifetime.singleton := hlt
  subst hlt2
  simp only [step]
  rw [hcc, hlk, hmg]

theorem step_resolve_singleton_miss (reg : Registry) (ex : Exotic) (fuel i : Nat)
    (name : String) (st : St) (d : Descriptor)
    (hcc : circularCheck (labelOf st i) (pathOf st i) name = none)
    (hlk : lookupKey reg name = some d) (hlt : d.lifetime = Lifetime.singleton)
    (hmg : mapGet st.singletonCache name = Value.undef) :
    step reg ex (fuel + 1) i (Req.resolve name) st =
      constructCont i (fun s v => setSingleton s name v)
        (step reg ex fuel i (Req.runFac name d.create) (pushPath st i name)) := by
  obtain ⟨lt, fac⟩ := d
  have hlt2 : lt = Lifetime.singleton := hlt
  subst hlt2
  simp only [step]
  rw [hcc, hlk, hmg]

theorem step_resolve_scoped_hit (reg : Registry) (ex : Exotic) (fuel i : Nat)
    (name : String) (st : St) (d : Descriptor) (t : Nat)
    (hcc : circularCheck (labelOf st i) (pathOf st i) name = none)
    (hlk : lookupKey reg name = some d) (hlt : d.lifetime = Lifetime.scoped)
    (hmg : mapGet (scopedOf st i) name = Value.obj t) :
    step reg ex (fuel + 1) i (Req.resolve name) st = some (Except.ok (Value.obj t), st) := by
  obtain ⟨lt, fac⟩ := d
  have hlt2 : lt = Lifetime.scoped := hlt
  subst hlt2
  simp only [step]
  rw [hcc, hlk, hmg]

theorem step_resolve_scoped_lterr (reg : Registry) (ex : Exotic) (fuel i : Nat)
    (name : String) (st : St) (d : Descriptor) (e : JsErr)
    (hcc : circularCheck (labelOf st i) (pathOf st i) name = none)
    (hlk : lookupKey reg name = some d) (hlt : d.lifetime = Lifetime.scoped)
    (hmg : mapGet (scopedOf st i) name = Value.undef)
    (hlc : lifetimeCheck reg (labelOf st i) (pathOf st i) name = some e) :
    step reg ex (fuel + 1) i (Req.resolve name) st = some (Except.error e, st) := by
  obtain ⟨lt, fac⟩ := d
  have hlt2 : lt = Lifetime.scoped := hlt
  subst hlt2
  simp only [step]
  rw [hcc, hlk, hmg, hlc]

theorem step_resolve_scoped_miss (reg : Registry) (ex : Exotic) (fuel i : Nat)
    (name : String) (st : St) (d : Descriptor)
    (hcc : circularCheck (labelOf st i) (pathOf st i) name = none)
    (hlk : lookupKey reg name = some d) (hlt : d.lifetime = Lifetime.scoped)
    (hmg : mapGet (scopedOf st i) name = Value.undef)
    (hlc : lifetimeCheck reg (labelOf st i) (pathOf st i) name = none) :
    step reg ex (fuel + 1) i (Req.resolve name) st =
      constructCont i (fun s v => setScoped s i name v)
        (step reg ex fuel i (Req.runFac name d.create) (pushPath st i name)) := by
  obtain ⟨lt, fac⟩ := d
  have hlt2 : lt = Lifetime.scoped := hlt
  subst hlt2
  simp only [step]
  rw [hcc, hlk, hmg, hlc]

theorem step_resolve_transient (reg : Registry) (ex : Exotic) (fuel i : Nat)
    (name : String) (st : St) (d : Descriptor)
    (hcc : circularCheck (labelOf st i) (pathOf st i) name = none)
    (hlk : lookupKey reg name = some d) (hlt : d.lifetime = Lifetime.transient) :
    step reg ex (fuel + 1) i (Req.resolve name) st =
      constructCont i (fun s _ => s)
        (step reg ex fuel i (Req.runFac name d.create) (pushPath st i name)) := by
  obtain ⟨lt, fac⟩ := d
  have hlt2 : lt = Lifetime.transient := hlt
  subst hlt2
  simp only [step]
  rw [hcc, hlk]

theorem step_runFac_const (reg : Registry) (ex : Exotic) (fuel i : Nat) (name : String)
    (v : Value) (st : St) :
    step reg ex (fuel + 1) i (Req.runFac name (Factory.const v)) st =
      some (Except.ok v, logCall st i name) := rfl

theorem step_runFac_throws (reg : Registry) (ex : Exotic) (fuel i : Nat) (name : String)
    (t : Nat) (st : St) :
    step reg ex (fuel + 1) i (Req.runFac name (Factory.throws t)) st =
      some (Except.error (JsErr.userError t), logCall st i name) := rfl

theorem step_runFac_alloc (reg : Registry) (ex : Exotic) (fuel i : Nat) (name : String)
    (deps : List String) (st : St) :
    step reg ex (fuel + 1) i (Req.runFac name (Factory.alloc deps)) st =
      bindOk (step reg ex fuel i (Req.runDeps deps) (logCall st i name))
        (fun _ st' => some (Except.ok (Value.obj st'.fresh), { st' with fresh := st'.fresh + 1 })) :=
  rfl

theorem step_runDeps_nil (reg : Registry) (ex : Exotic) (fuel i : Nat) (st : St) :
    step reg ex (fuel + 1) i (Req.runDeps []) st = some (Except.ok Value.undef, st) := rfl

theorem step_runDeps_cons (reg : Registry) (ex : Exotic) (fuel i : Nat) (dep : String)
    (rest : List String) (st : St) :
    step reg ex (fuel + 1) i (Req.runDeps (dep :: rest)) st =
      bindOk (step reg ex fuel i (Req.getKey (Key.str dep)) st)
        (fun _ st' => step reg ex fuel i (Req.runDeps rest) st') := rfl

theorem circularCheck_eq_none_iff (label : ScopeLabel) (path : List String) (name : String) :
    circularCheck label path name = none ↔ name ∉ path := by
  rw [circularCheck]
  cases h : lastIdxOf path name with
  | none => simp [(lastIdxOf_eq_none_iff path name).mp h]
  | some k =>
    have : name ∈ path := by
      by_contra hc
      rw [(lastIdxOf_eq_none_iff path name).mpr hc] at h
      exact Option.noConfusion h
    simp [this]

theorem circularCheck_fires (label : ScopeLabel) (path : List String) (name : String)
    (h : name ∈ path) :
    ∃ k, lastIdxOf path name = some k ∧
      circularCheck label path name =
        some (JsErr.resolveError (circularMessage label path k name)) := by
  cases hk : lastIdxOf path name with
  | none => exact absurd ((lastIdxOf_eq_none_iff path name).mp hk) (by simp [h])
  | some k => exact ⟨k, rfl, by simp [circularCheck, hk]⟩

theorem countCalls_pushPath (st : St) (i : Nat) (n name : String) :
    countCalls (pushPath st i n) name = countCalls st name := rfl

theorem countCalls_popPath (st : St) (i : Nat) (name : String) :
    countCalls (popPath st i) name = countCalls st name := rfl

theorem countCalls_setSingleton (st : St) (n : String) (v : Value) (name : String) :
    countCalls (setSingleton st n v) name = countCalls st name := rfl

theorem countCalls_setScoped (st : St) (i : Nat) (n : String) (v : Value) (name : String) :
    countCalls (setScoped st i n v) name = countCalls st name := rfl

/-- While `name` sits on the active scope's resolution stack, no request
(other than the factory invocation for `name` itself, which only the
miss branch of `resolve name` issues and the circular check blocks) can
invoke `name`'s factory again or write either cache at `name`. -/
theorem onpath_no_invoke (reg : Registry) (name : String) :
    ∀ fuel i req st r st', i < st.scopes.length →
      name ∈ pathOf st i →
      (∀ f, req ≠ Req.runFac name f) →
      step reg none fuel i req st = some (r, st') →
      countCalls st' name = countCalls st name ∧
      mapGet st'.singletonCache name = mapGet st.singletonCache name ∧
      mapGet (scopedOf st' i) name = mapGet (scopedOf st i) name := by
  intro fuel
  induction fuel with
  | zero =>
    intro i req st r st' hi hmem hg h
    simp [step] at h
  | succ fuel ih =>
    intro i req st r st' hi hmem hg h
    have hmempush : ∀ nm, name ∈ pathOf (pushPath st i nm) i := by
      intro nm
      rw [pathOf_pushPath_self st i nm hi]
      exact List.mem_append_left _ hmem
    have hipush : ∀ nm, i < (pushPath st i nm).scopes.length := by
      intro nm
      rw [scopes_length_pushPath]
      exact hi
    cases req with
    | getKey key =>
      cases key with
      | sym id =>
        rw [step_getKey_sym] at h
        simp only [Option.some.injEq, Prod.mk.injEq] at h
        obtain ⟨-, rfl⟩ := h
        exact ⟨rfl, rfl, rfl⟩
      | str nm =>
        by_cases hthen : nm = "then"
        · subst hthen
          rw [step_getKey_then] at h
          simp only [Option.some.injEq, Prod.mk.injEq] at h
          obtain ⟨-, rfl⟩ := h
          exact ⟨rfl, rfl, rfl⟩
        · rw [step_getKey_plain reg fuel i nm st hthen] at h
          exact ih i (Req.resolve nm) st r st' hi hmem (fun f hq => Req.noConfusion hq) h
    | resolve nm =>
      by_cases hnm : nm = name
      · subst hnm
        obtain ⟨k, -, hcs⟩ := circularCheck_fires (labelOf st i) (pathOf st i) nm hmem
        rw [step_resolve_circular reg none fuel i nm st _ hcs] at h
        simp only [Option.some.injEq, Prod.mk.injEq] at h
        obtain ⟨-, rfl⟩ := h
        exact ⟨rfl, rfl, rfl⟩
      · cases hcco : circularCheck (labelOf st i) (pathOf st i) nm with
        | some e =>
          rw [step_resolve_circular reg none fuel i nm st e hcco] at h
          simp only [Option.some.injEq, Prod.mk.injEq] at h
          obtain ⟨-, rfl⟩ := h
          exact ⟨rfl, rfl, rfl⟩
        | none =>
          cases hlk : lookupKey reg nm with
          | none =>
            rw [step_resolve_unregistered reg none fuel i nm st hcco hlk] at h
            simp only [Option.some.injEq, Prod.mk.injEq] at h
            obtain ⟨-, rfl⟩ := h
            exact ⟨rfl, rfl, rfl⟩
          | some d =>
            have hguard : ∀ f, Req.runFac nm d.create ≠ Req.runFac name f := by
              intro f hq
              injection hq with h1 h2
              exact hnm h1
            cases hltc : d.lifetime
            · cases hmg : mapGet st.singletonCache nm with
              | obj t =>
                rw [step_resolve_singleton_hit reg none fuel i nm st d t hcco hlk hltc hmg] at h
                simp only [Option.some.injEq, Prod.mk.injEq] at h
                obtain ⟨-, rfl⟩ := h
                exact ⟨rfl, rfl, rfl⟩
              | undef =>
                rw [step_resolve_singleton_miss reg none fuel i nm st d hcco hlk hltc hmg] at h
                rcases constructCont_eq_some _ _ _ _ _ h with
                  ⟨e, st1, hsub, -, rfl⟩ | ⟨v, st1, hsub, -, rfl⟩
                · obtain ⟨hc1, hc2, hc3⟩ := ih i (Req.runFac nm d.create) (pushPath st i nm)
                    _ _ (hipush nm) (hmempush nm) hguard hsub
                  refine ⟨hc1, hc2, ?_⟩
                  rw [scopedOf_popPath, hc3, scopedOf_pushPath]
                · obtain ⟨hc1, hc2, hc3⟩ := ih i (Req.runFac nm d.create) (pushPath st i nm)
                    _ _ (hipush nm) (hmempush nm) hguard hsub
                  refine ⟨hc1, ?_, ?_⟩
                  · rw [show (setSingleton (popPath st1 i) nm v).singletonCache =
                      setKey (popPath st1 i).singletonCache nm v from rfl]
                    rw [mapGet_setKey_ne _ _ _ _ (fun hh => hnm hh.symm)]
                    rw [singletonCache_popPath, hc2, singletonCache_pushPath]
                  · rw [show scopedOf (setSingleton (popPath st1 i) nm v) i =
                      scopedOf (popPath st1 i) i from rfl]
                    rw [scopedOf_popPath, hc3, scopedOf_pushPath]
            · cases hmg : mapGet (scopedOf st i) nm with
              | obj t =>
                rw [step_resolve_scoped_hit reg none fuel i nm st d t hcco hlk hltc hmg] at h
                simp only [Option.some.injEq, Prod.mk.injEq] at h
                obtain ⟨-, rfl⟩ := h
                exact ⟨rfl, rfl, rfl⟩
              | undef =>
                cases hlc : lifetimeCheck reg (labelOf st i) (pathOf st i) nm with
                | some e =>
                  rw [step_resolve_scoped_lterr reg none fuel i nm st d e hcco hlk hltc hmg hlc]
                    at h
                  simp only [Option.some.injEq, Prod.mk.injEq] at h
                  obtain ⟨-, rfl⟩ := h
                  exact ⟨rfl, rfl, rfl⟩
                | none =>
                  rw [step_resolve_scoped_miss reg none fuel i nm st d hcco hlk hltc hmg hlc] at h
                  rcases constructCont_eq_some _ _ _ _ _ h with
                    ⟨e, st1, hsub, -, rfl⟩ | ⟨v, st1, hsub, -, rfl⟩
                  · obtain ⟨hc1, hc2, hc3⟩ := ih i (Req.runFac nm d.create) (pushPath st i nm)
                      _ _ (hipush nm) (hmempush nm) hguard hsub
                    refine ⟨hc1, hc2, ?_⟩
                    rw [scopedOf_popPath, hc3, scopedOf_pushPath]
                  · obtain ⟨hc1, hc2, hc3⟩ := ih i (Req.runFac nm d.create) (pushPath st i nm)
                      _ _ (hipush nm) (hmempush nm) hguard hsub
                    have hlen1 : st1.scopes.length = st.scopes.length :=
                      ((step_inv reg none fuel i (Req.runFac nm d.create) (pushPath st i nm)
                        _ _ (hipush nm) hsub).scopesLen).trans (scopes_length_pushPath st i nm)
                    have hipop : i < (popPath st1 i).scopes.length := by
                      rw [scopes_length_popPath, hlen1]
                      exact hi
                    refine ⟨hc1, hc2, ?_⟩
                    rw [scopedOf_setScoped_self (popPath st1 i) i nm v hipop]
                    rw [mapGet_setKey_ne _ _ _ _ (fun hh => hnm hh.symm)]
                    rw [scopedOf_popPath, hc3, scopedOf_pushPath]
            · rw [step_resolve_transient reg none fuel i nm st d hcco hlk hltc] at h
              rcases constructCont_eq_some _ _ _ _ _ h with
                ⟨e, st1, hsub, -, rfl⟩ | ⟨v, st1, hsub, -, rfl⟩
              · obtain ⟨hc1, hc2, hc3⟩ := ih i (Req.runFac nm d.create) (pushPath st i nm)
                  _ _ (hipush nm) (hmempush nm) hguard hsub
                refine ⟨hc1, hc2, ?_⟩
                rw [scopedOf_popPath, hc3, scopedOf_pushPath]
              · obtain ⟨hc1, hc2, hc3⟩ := ih i (Req.runFac nm d.create) (pushPath st i nm)
                  _ _ (hipush nm) (hmempush nm) hguard hsub
                refine ⟨hc1, hc2, ?_⟩
                rw [scopedOf_popPath, hc3, scopedOf_pushPath]
    | runFac nm fac =>
      have hnm : nm ≠ name := by
        intro he
        exact hg fac (by rw [he])
      cases fac with
      | const v =>
        rw [step_runFac_const] at h
        simp only [Option.some.injEq, Prod.mk.injEq] at h
        obtain ⟨-, rfl⟩ := h
        refine ⟨?_, rfl, rfl⟩
        rw [countCalls_logCall]
        simp [hnm]
      | throws t =>
        rw [step_runFac_throws] at h
        simp only [Option.some.injEq, Prod.mk.injEq] at h
        obtain ⟨-, rfl⟩ := h
        refine ⟨?_, rfl, rfl⟩
        rw [countCalls_logCall]
        simp [hnm]
      | alloc deps =>
        rw [step_runFac_alloc] at h
        have hguard : ∀ f, Req.runDeps deps ≠ Req.runFac name f := by
          intro f hq
          exact Req.noConfusion hq
        rcases bindOk_eq_some _ _ _ _ h with
          ⟨e, st1, hsub, -, rfl⟩ | ⟨v, st1, hsub, hk⟩
        · obtain ⟨hc1, hc2, hc3⟩ := ih i (Req.runDeps deps) (logCall st i nm)
            _ _ hi hmem hguard hsub
          refine ⟨?_, hc2, hc3⟩
          rw [hc1, countCalls_logCall]
          simp [hnm]
        · simp only [Option.some.injEq, Prod.mk.injEq] at hk
          obtain ⟨-, rfl⟩ := hk
          obtain ⟨hc1, hc2, hc3⟩ := ih i (Req.runDeps deps) (logCall st i nm)
            _ _ hi hmem hguard hsub
          refine ⟨?_, hc2, hc3⟩
          rw [show countCalls { st1 with fresh := st1.fresh + 1 } name = countCalls st1 name
            from rfl, hc1, countCalls_logCall]
          simp [hnm]
    | runDeps deps =>
      cases deps with
      | nil =>
        rw [step_runDeps_nil] at h
        simp only [Option.some.injEq, Prod.mk.injEq] at h
        obtain ⟨-, rfl⟩ := h
        exact ⟨rfl, rfl, rfl⟩
      | cons dep rest =>
        rw [step_runDeps_cons] at h
        have hguard1 : ∀ f, Req.getKey (Key.str dep) ≠ Req.runFac name f := by
          intro f hq
          exact Req.noConfusion hq
        have hguard2 : ∀ f, Req.runDeps rest ≠ Req.runFac name f := by
          intro f hq
          exact Req.noConfusion hq
        rcases bindOk_eq_some _ _ _ _ h with
          ⟨e, st1, hsub, -, rfl⟩ | ⟨v, st1, hsub, hk⟩
        · exact ih i (Req.getKey (Key.str dep)) st _ _ hi hmem hguard1 hsub
        · obtain ⟨hc1, hc2, hc3⟩ := ih i (Req.getKey (Key.str dep)) st _ _ hi hmem hguard1 hsub
          have hinv := step_inv reg none fuel i (Req.getKey (Key.str dep)) st _ _ hi hsub
          have hi1 : i < st1.scopes.length := by
            rw [hinv.scopesLen]
            exact hi
          have hmem1 : name ∈ pathOf st1 i := by
            rw [hinv.pathEq]
            exact hmem
          obtain ⟨hd1, hd2, hd3⟩ := ih i (Req.runDeps rest) st1 _ _ hi1 hmem1 hguard2 hk
          exact ⟨hd1.trans hc1, hd2.trans hc2, hd3.trans hc3⟩

/-- Once the provider's singleton cache holds a defined instance for
`name`, no request invokes `name`'s factory again; resolving or reading
`name` returns exactly the cached instance, and a direct resolve does
not change the state at all. -/
theorem singleton_hit_stable (reg : Registry) (name : String) (d : Descriptor)
    (hreg : lookupKey reg name = some d) (hdlt : d.lifetime = Lifetime.singleton)
    (hname : name ≠ "then") :
    ∀ fuel i req st r st' t, i < st.scopes.length →
      mapGet st.singletonCache name = Value.obj t →
      name ∉ pathOf st i →
      (∀ f, req ≠ Req.runFac name f) →
      step reg none fuel i req st = some (r, st') →
      countCalls st' name = countCalls st name ∧
      (req = Req.resolve name → r = Except.ok (Value.obj t) ∧ st' = st) ∧
      (req = Req.getKey (Key.str name) → r = Except.ok (Value.obj t)) := by
  intro fuel
  induction fuel with
  | zero =>
    intro i req st r st' t hi hcache hnp hg h
    simp [step] at h
  | succ fuel ih =>
    intro i req st r st' t hi hcache hnp hg h
    cases req with
    | getKey key =>
      cases key with
      | sym id =>
        rw [step_getKey_sym] at h
        simp only [Option.some.injEq, Prod.mk.injEq] at h
        obtain ⟨-, rfl⟩ := h
        refine ⟨rfl, fun heq => Req.noConfusion heq, fun heq => ?_⟩
        injection heq with h1
        exact Key.noConfusion h1
      | str nm =>
        by_cases hthen : nm = "then"
        · subst hthen
          rw [step_getKey_then] at h
          simp only [Option.some.injEq, Prod.mk.injEq] at h
          obtain ⟨-, rfl⟩ := h
          refine ⟨rfl, fun heq => Req.noConfusion heq, fun heq => ?_⟩
          injection heq with h1
          injection h1 with h2
          exact absurd h2.symm hname
        · rw [step_getKey_plain reg fuel i nm st hthen] at h
          obtain ⟨hc1, hc2, -⟩ := ih i (Req.resolve nm) st r st' t hi hcache hnp
            (fun f hq => Req.noConfusion hq) h
          refine ⟨hc1, fun heq => Req.noConfusion heq, fun heq => ?_⟩
          injection heq with h1
          injection h1 with h2
          exact (hc2 (by rw [h2])).1
    | resolve nm =>
      by_cases hnm : nm = name
      · subst hnm
        have hcco : circularCheck (labelOf st i) (pathOf st i) nm = none :=
          (circularCheck_eq_none_iff _ _ _).mpr hnp
        rw [step_resolve_singleton_hit reg none fuel i nm st d t hcco hreg hdlt hcache] at h
        simp only [Option.some.injEq, Prod.mk.injEq] at h
        obtain ⟨hr, rfl⟩ := h
        refine ⟨rfl, fun _ => ⟨hr.symm, rfl⟩, fun heq => Req.noConfusion heq⟩
      · have himp2 : Req.resolve nm = Req.resolve name → r = Except.ok (Value.obj t) ∧ st' = st := by
          intro heq
          injection heq with h1
          exact absurd h1 hnm
        have himp3 : Req.resolve nm = Req.getKey (Key.str name) → r = Except.ok (Value.obj t) := by
          intro heq
          exact Req.noConfusion heq
        have hnppush : name ∉ pathOf (pushPath st i nm) i := by
          rw [pathOf_pushPath_self st i nm hi]
          intro hin
          rcases List.mem_append.mp hin with hin1 | hin2
          · exact hnp hin1
          · rw [List.mem_singleton] at hin2
            exact hnm hin2.symm
        have hipush : i < (pushPath st i nm).scopes.length := by
          rw [scopes_length_pushPath]
          exact hi
        cases hcco : circularCheck (labelOf st i) (pathOf st i) nm with
        | some e =>
          rw [step_resolve_circular reg none fuel i nm st e hcco] at h
          simp only [Option.some.injEq, Prod.mk.injEq] at h
          obtain ⟨-, rfl⟩ := h
          exact ⟨rfl, himp2, himp3⟩
        | none =>
          cases hlk : lookupKey reg nm with
          | none =>
            rw [step_resolve_unregistered reg none fuel i nm st hcco hlk] at h
            simp only [Option.some.injEq, Prod.mk.injEq] at h
            obtain ⟨-, rfl⟩ := h
            exact ⟨rfl, himp2, himp3⟩
          | some d2 =>
            have hguard : ∀ f, Req.runFac nm d2.create ≠ Req.runFac name f := by
              intro f hq
              injection hq with h1 h2
              exact hnm h1
            cases hltc : d2.lifetime
            · cases hmg : mapGet st.singletonCache nm with
              | obj t2 =>
                rw [step_resolve_singleton_hit reg none fuel i nm st d2 t2 hcco hlk hltc hmg] at h
                simp only [Option.some.injEq, Prod.mk.injEq] at h
                obtain ⟨-, rfl⟩ := h
                exact ⟨rfl, himp2, himp3⟩
              | undef =>
                rw [step_resolve_singleton_miss reg none fuel i nm st d2 hcco hlk hltc hmg] at h
                rcases constructCont_eq_some _ _ _ _ _ h with
                  ⟨e, st1, hsub, -, rfl⟩ | ⟨v, st1, hsub, -, rfl⟩
                · obtain ⟨hc1, -, -⟩ := ih i (Req.runFac nm d2.create) (pushPath st i nm)
                    _ _ t hipush hcache hnppush hguard hsub
                  exact ⟨hc1, himp2, himp3⟩
                · obtain ⟨hc1, -, -⟩ := ih i (Req.runFac nm d2.create) (pushPath st i nm)
                    _ _ t hipush hcache hnppush hguard hsub
                  exact ⟨hc1, himp2, himp3⟩
            · cases hmg : mapGet (scopedOf st i) nm with
              | obj t2 =>
                rw [step_resolve_scoped_hit reg none fuel i nm st d2 t2 hcco hlk hltc hmg] at h
                simp only [Option.some.injEq, Prod.mk.injEq] at h
                obtain ⟨-, rfl⟩ := h
                exact ⟨rfl, himp2, himp3⟩
              | undef =>
                cases hlc : lifetimeCheck reg (labelOf st i) (pathOf st i) nm with
                | some e =>
                  rw [step_resolve_scoped_lterr reg none fuel i nm st d2 e hcco hlk hltc hmg hlc]
                    at h
                  simp only [Option.some.injEq, Prod.mk.injEq] at h
                  obtain ⟨-, rfl⟩ := h
                  exact ⟨rfl, himp2, himp3⟩
                | none =>
                  rw [step_resolve_scoped_miss reg none fuel i nm st d2 hcco hlk hltc hmg hlc] at h
                  rcases constructCont_eq_some _ _ _ _ _ h with
                    ⟨e, st1, hsub, -, rfl⟩ | ⟨v, st1, hsub, -, rfl⟩
                  · obtain ⟨hc1, -, -⟩ := ih i (Req.runFac nm d2.create) (pushPath st i nm)
                      _ _ t hipush hcache hnppush hguard hsub
                    exact ⟨hc1, himp2, himp3⟩
                  · obtain ⟨hc1, -, -⟩ := ih i (Req.runFac nm d2.create) (pushPath st i nm)
                      _ _ t hipush hcache hnppush hguard hsub
                    exact ⟨hc1, himp2, himp3⟩
            · rw [step_resolve_transient reg none fuel i nm st d2 hcco hlk hltc] at h
              rcases constructCont_eq_some _ _ _ _ _ h with
                ⟨e, st1, hsub, -, rfl⟩ | ⟨v, st1, hsub, -, rfl⟩
              · obtain ⟨hc1, -, -⟩ := ih i (Req.runFac nm d2.create) (pushPath st i nm)
                  _ _ t hipush hcache hnppush hguard hsub
                exact ⟨hc1, himp2, himp3⟩
              · obtain ⟨hc1, -, -⟩ := ih i (Req.runFac nm d2.create) (pushPath st i nm)
                  _ _ t hipush hcache hnppush hguard hsub
                exact ⟨hc1, himp2, himp3⟩
    | runFac nm fac =>
      have hnm : nm ≠ name := by
        intro he
        exact hg fac (by rw [he])
      have himp2 : Req.runFac nm fac = Req.resolve name → r = Except.ok (Value.obj t) ∧ st' = st :=
        fun heq => Req.noConfusion heq
      have himp3 : Req.runFac nm fac = Req.getKey (Key.str name) → r = Except.ok (Value.obj t) :=
        fun heq => Req.noConfusion heq
      cases fac with
      | const v =>
        rw [step_runFac_const] at h
        simp only [Option.some.injEq, Prod.mk.injEq] at h
        obtain ⟨-, rfl⟩ := h
        refine ⟨?_, himp2, himp3⟩
        rw [countCalls_logCall]
        simp [hnm]
      | throws t2 =>
        rw [step_runFac_throws] at h
        simp only [Option.some.injEq, Prod.mk.injEq] at h
        obtain ⟨-, rfl⟩ := h
        refine ⟨?_, himp2, himp3⟩
        rw [countCalls_logCall]
        simp [hnm]
      | alloc deps =>
        rw [step_runFac_alloc] at h
        have hguard : ∀ f, Req.runDeps deps ≠ Req.runFac name f :=
          fun f hq => Req.noConfusion hq
        rcases bindOk_eq_some _ _ _ _ h with
          ⟨e, st1, hsub, -, rfl⟩ | ⟨v, st1, hsub, hk⟩
        · obtain ⟨hc1, -, -⟩ := ih i (Req.runDeps deps) (logCall st i nm)
            _ _ t hi hcache hnp hguard hsub
          refine ⟨?_, himp2, himp3⟩
          rw [hc1, countCalls_logCall]
          simp [hnm]
        · simp only [Option.some.injEq, Prod.mk.injEq] at hk
          obtain ⟨-, rfl⟩ := hk
          obtain ⟨hc1, -, -⟩ := ih i (Req.runDeps deps) (logCall st i nm)
            _ _ t hi hcache hnp hguard hsub
          refine ⟨?_, himp2, himp3⟩
          rw [show countCalls { st1 with fresh := st1.fresh + 1 } name = countCalls st1 name
            from rfl, hc1, countCalls_logCall]
          simp [hnm]
    | runDeps deps =>
      have himp2 : Req.runDeps deps = Req.resolve name → r = Except.ok (Value.obj t) ∧ st' = st :=
        fun heq => Req.noConfusion heq
      have himp3 : Req.runDeps deps = Req.getKey (Key.str name) → r = Except.ok (Value.obj t) :=
        fun heq => Req.noConfusion heq
      cases deps with
      | nil =>
        rw [step_runDeps_nil] at h
        simp only [Option.some.injEq, Prod.mk.injEq] at h
        obtain ⟨-, rfl⟩ := h
        exact ⟨rfl, himp2, himp3⟩
      | cons dep rest =>
        rw [step_runDeps_cons] at h
        have hguard1 : ∀ f, Req.getKey (Key.str dep) ≠ Req.runFac name f :=
          fun f hq => Req.noConfusion hq
        have hguard2 : ∀ f, Req.runDeps rest ≠ Req.runFac name f :=
          fun f hq => Req.noConfusion hq
        rcases bindOk_eq_some _ _ _ _ h with
          ⟨e, st1, hsub, -, rfl⟩ | ⟨v, st1, hsub, hk⟩
        · obtain ⟨hc1, -, -⟩ := ih i (Req.getKey (Key.str dep)) st _ _ t hi hcache hnp hguard1 hsub
          exact ⟨hc1, himp2, himp3⟩
        · obtain ⟨hc1, -, -⟩ := ih i (Req.getKey (Key.str dep)) st _ _ t hi hcache hnp hguard1 hsub
          have hinv := step_inv reg none fuel i (Req.getKey (Key.str dep)) st _ _ hi hsub
          have hi1 : i < st1.scopes.length := by
            rw [hinv.scopesLen]
            exact hi
          have hcache1 : mapGet st1.singletonCache name = Value.obj t :=
            hinv.singleMono name t hcache
          have hnp1 : name ∉ pathOf st1 i := by
            rw [hinv.pathEq]
            exact hnp
          obtain ⟨hd1, -, -⟩ := ih i (Req.runDeps rest) st1 _ _ t hi1 hcache1 hnp1 hguard2 hk
          exact ⟨hd1.trans hc1, himp2, himp3⟩

/-- Once a scope's private cache holds a defined instance for a scoped
`name`, no request on that scope invokes `name`'s factory again;
resolving or reading `name` there returns exactly the cached instance. -/
theorem scoped_hit_stable (reg : Registry) (name : String) (d : Descriptor)
    (hreg : lookupKey reg name = some d) (hdlt : d.lifetime = Lifetime.scoped)
    (hname : name ≠ "then") :
    ∀ fuel i req st r st' t, i < st.scopes.length →
      mapGet (scopedOf st i) name = Value.obj t →
      name ∉ pathOf st i →
      (∀ f, req ≠ Req.runFac name f) →
      step reg none fuel i req st = some (r, st') →
      countCalls st' name = countCalls st name ∧
      (req = Req.resolve name → r = Except.ok (Value.obj t) ∧ st' = st) ∧
      (req = Req.getKey (Key.str name) → r = Except.ok (Value.obj t)) := by
  intro fuel
  induction fuel with
  | zero =>
    intro i req st r st' t hi hcache hnp hg h
    simp [step] at h
  | succ fuel ih =>
    intro i req st r st' t hi hcache hnp hg h
    cases req with
    | getKey key =>
      cases key with
      | sym id =>
        rw [step_getKey_sym] at h
        simp only [Option.some.injEq, Prod.mk.injEq] at h
        obtain ⟨-, rfl⟩ := h
        refine ⟨rfl, fun heq => Req.noConfusion heq, fun heq => ?_⟩
        injection heq with h1
        exact Key.noConfusion h1
      | str nm =>
        by_cases hthen : nm = "then"
        · subst hthen
          rw [step_getKey_then] at h
          simp only [Option.some.injEq, Prod.mk.injEq] at h
          obtain ⟨-, rfl⟩ := h
          refine ⟨rfl, fun heq => Req.noConfusion heq, fun heq => ?_⟩
          injection heq with h1
          injection h1 with h2
          exact absurd h2.symm hname
        · rw [step_getKey_plain reg fuel i nm st hthen] at h
          obtain ⟨hc1, hc2, -⟩ := ih i (Req.resolve nm) st r st' t hi hcache hnp
            (fun f hq => Req.noConfusion hq) h
          refine ⟨hc1, fun heq => Req.noConfusion heq, fun heq => ?_⟩
          injection heq with h1
          injection h1 with h2
          exact (hc2 (by rw [h2])).1
    | resolve nm =>
      by_cases hnm : nm = name
      · subst hnm
        have hcco : circularCheck (labelOf st i) (pathOf st i) nm = none :=
          (circularCheck_eq_none_iff _ _ _).mpr hnp
        rw [step_resolve_scoped_hit reg none fuel i nm st d t hcco hreg hdlt hcache] at h
        simp only [Option.some.injEq, Prod.mk.injEq] at h
        obtain ⟨hr, rfl⟩ := h
        refine ⟨rfl, fun _ => ⟨hr.symm, rfl⟩, fun heq => Req.noConfusion heq⟩
      · have himp2 : Req.resolve nm = Req.resolve name → r = Except.ok (Value.obj t) ∧ st' = st := by
          intro heq
          injection heq with h1
          exact absurd h1 hnm
        have himp3 : Req.resolve nm = Req.getKey (Key.str name) → r = Except.ok (Value.obj t) := by
          intro heq
          exact Req.noConfusion heq
        have hnppush : name ∉ pathOf (pushPath st i nm) i := by
          rw [pathOf_pushPath_self st i nm hi]
          intro hin
          rcases List.mem_append.mp hin with hin1 | hin2
          · exact hnp hin1
          · rw [List.mem_singleton] at hin2
            exact hnm hin2.symm
        have hipush : i < (pushPath st i nm).scopes.length := by
          rw [scopes_length_pushPath]
          exact hi
        have hcachepush : mapGet (scopedOf (pushPath st i nm) i) name = Value.obj t := by
          rw [scopedOf_pushPath]
          exact hcache
        cases hcco : circularCheck (labelOf st i) (pathOf st i) nm with
        | some e =>
          rw [step_resolve_circular reg none fuel i nm st e hcco] at h
          simp only [Option.some.injEq, Prod.mk.injEq] at h
          obtain ⟨-, rfl⟩ := h
          exact ⟨rfl, himp2, himp3⟩
        | none =>
          cases hlk : lookupKey reg nm with
          | none =>
            rw [step_resolve_unregistered reg none fuel i nm st hcco hlk] at h
            simp only [Option.some.injEq, Prod.mk.injEq] at h
            obtain ⟨-, rfl⟩ := h
            exact ⟨rfl, himp2, himp3⟩
          | some d2 =>
            have hguard : ∀ f, Req.runFac nm d2.create ≠ Req.runFac name f := by
              intro f hq
              injection hq with h1 h2
              exact hnm h1
            cases hltc : d2.lifetime
            · cases hmg : mapGet st.singletonCache nm with
              | obj t2 =>
                rw [step_resolve_singleton_hit reg none fuel i nm st d2 t2 hcco hlk hltc hmg] at h
                simp only [Option.some.injEq, Prod.mk.injEq] at h
                obtain ⟨-, rfl⟩ := h
                exact ⟨rfl, himp2, himp3⟩
              | undef =>
                rw [step_resolve_singleton_miss reg none fuel i nm st d2 hcco hlk hltc hmg] at h
                rcases constructCont_eq_some _ _ _ _ _ h with
                  ⟨e, st1, hsub, -, rfl⟩ | ⟨v, st1, hsub, -, rfl⟩
                · obtain ⟨hc1, -, -⟩ := ih i (Req.runFac nm d2.create) (pushPath st i nm)
                    _ _ t hipush hcachepush hnppush hguard hsub
                  exact ⟨hc1, himp2, himp3⟩
                · obtain ⟨hc1, -, -⟩ := ih i (Req.runFac nm d2.create) (pushPath st i nm)
                    _ _ t hipush hcachepush hnppush hguard hsub
                  exact ⟨hc1, himp2, himp3⟩
            · cases hmg : mapGet (scopedOf st i) nm with
              | obj t2 =>
                rw [step_resolve_scoped_hit reg none fuel i nm st d2 t2 hcco hlk hltc hmg] at h
                simp only [Option.some.injEq, Prod.mk.injEq] at h
                obtain ⟨-, rfl⟩ := h
                exact ⟨rfl, himp2, himp3⟩
              | undef =>
                cases hlc : lifetimeCheck reg (labelOf st i) (pathOf st i) nm with
                | some e =>
                  rw [step_resolve_scoped_lterr reg none fuel i nm st d2 e hcco hlk hltc hmg hlc]
                    at h
                  simp only [Option.some.injEq, Prod.mk.injEq] at h
                  obtain ⟨-, rfl⟩ := h
                  exact ⟨rfl, himp2, himp3⟩
                | none =>
                  rw [step_resolve_scoped_miss reg none fuel i nm st d2 hcco hlk hltc hmg hlc] at h
                  rcases constructCont_eq_some _ _ _ _ _ h with
                    ⟨e, st1, hsub, -, rfl⟩ | ⟨v, st1, hsub, -, rfl⟩
                  · obtain ⟨hc1, -, -⟩ := ih i (Req.runFac nm d2.create) (pushPath st i nm)
                      _ _ t hipush hcachepush hnppush hguard hsub
                    exact ⟨hc1, himp2, himp3⟩
                  · obtain ⟨hc1, -, -⟩ := ih i (Req.runFac nm d2.create) (pushPath st i nm)
                      _ _ t hipush hcachepush hnppush hguard hsub
                    exact ⟨hc1, himp2, himp3⟩
            · rw [step_resolve_transient reg none fuel i nm st d2 hcco hlk hltc] at h
              rcases constructCont_eq_some _ _ _ _ _ h with
                ⟨e, st1, hsub, -, rfl⟩ | ⟨v, st1, hsub, -, rfl⟩
              · obtain ⟨hc1, -, -⟩ := ih i (Req.runFac nm d2.create) (pushPath st i nm)
                  _ _ t hipush hcachepush hnppush hguard hsub
                exact ⟨hc1, himp2, himp3⟩
              · obtain ⟨hc1, -, -⟩ := ih i (Req.runFac nm d2.create) (pushPath st i nm)
                  _ _ t hipush hcachepush hnppush hguard hsub
                exact ⟨hc1, himp2, himp3⟩
    | runFac nm fac =>
      have hnm : nm ≠ name := by
        intro he
        exact hg fac (by rw [he])
      have himp2 : Req.runFac nm fac = Req.resolve name → r = Except.ok (Value.obj t) ∧ st' = st :=
        fun heq => Req.noConfusion heq
      have himp3 : Req.runFac nm fac = Req.getKey (Key.str name) → r = Except.ok (Value.obj t) :=
        fun heq => Req.noConfusion heq
      cases fac with
      | const v =>
        rw [step_runFac_const] at h
        simp only [Option.some.injEq, Prod.mk.injEq] at h
        obtain ⟨-, rfl⟩ := h
        refine ⟨?_, himp2, himp3⟩
        rw [countCalls_logCall]
        simp [hnm]
      | throws t2 =>
        rw [step_runFac_throws] at h
        simp only [Option.some.injEq, Prod.mk.injEq] at h
        obtain ⟨-, rfl⟩ := h
        refine ⟨?_, himp2, himp3⟩
        rw [countCalls_logCall]
        simp [hnm]
      | alloc deps =>
        rw [step_runFac_alloc] at h
        have hguard : ∀ f, Req.runDeps deps ≠ Req.runFac name f :=
          fun f hq => Req.noConfusion hq
        rcases bindOk_eq_some _ _ _ _ h with
          ⟨e, st1, hsub, -, rfl⟩ | ⟨v, st1, hsub, hk⟩
        · obtain ⟨hc1, -, -⟩ := ih i (Req.runDeps deps) (logCall st i nm)
            _ _ t hi hcache hnp hguard hsub
          refine ⟨?_, himp2, himp3⟩
          rw [hc1, countCalls_logCall]
          simp [hnm]
        · simp only [Option.some.injEq, Prod.mk.injEq] at hk
          obtain ⟨-, rfl⟩ := hk
          obtain ⟨hc1, -, -⟩ := ih i (Req.runDeps deps) (logCall st i nm)
            _ _ t hi hcache hnp hguard hsub
          refine ⟨?_, himp2, himp3⟩
          rw [show countCalls { st1 with fresh := st1.fresh + 1 } name = countCalls st1 name
            from rfl, hc1, countCalls_logCall]
          simp [hnm]
    | runDeps deps =>
      have himp2 : Req.runDeps deps = Req.resolve name → r = Except.ok (Value.obj t) ∧ st' = st :=
        fun heq => Req.noConfusion heq
      have himp3 : Req.runDeps deps = Req.getKey (Key.str name) → r = Except.ok (Value.obj t) :=
        fun heq => Req.noConfusion heq
      cases deps with
      | nil =>
        rw [step_runDeps_nil] at h
        simp only [Option.some.injEq, Prod.mk.injEq] at h
        obtain ⟨-, rfl⟩ := h
        exact ⟨rfl, himp2, himp3⟩
      | cons dep rest =>
        rw [step_runDeps_cons] at h
        have hguard1 : ∀ f, Req.getKey (Key.str dep) ≠ Req.runFac name f :=
          fun f hq => Req.noConfusion hq
        have hguard2 : ∀ f, Req.runDeps rest ≠ Req.runFac name f :=
          fun f hq => Req.noConfusion hq
        rcases bindOk_eq_some _ _ _ _ h with
          ⟨e, st1, hsub, -, rfl⟩ | ⟨v, st1, hsub, hk⟩
        · obtain ⟨hc1, -, -⟩ := ih i (Req.getKey (Key.str dep)) st _ _ t hi hcache hnp hguard1 hsub
          exact ⟨hc1, himp2, himp3⟩
        · obtain ⟨hc1, -, -⟩ := ih i (Req.getKey (Key.str dep)) st _ _ t hi hcache hnp hguard1 hsub
          have hinv := step_inv reg none fuel i (Req.getKey (Key.str dep)) st _ _ hi hsub
          have hi1 : i < st1.scopes.length := by
            rw [hinv.scopesLen]
            exact hi
          have hcache1 : mapGet (scopedOf st1 i) name = Value.obj t :=
            hinv.scopedMono i name t hcache
          have hnp1 : name ∉ pathOf st1 i := by
            rw [hinv.pathEq]
            exact hnp
          obtain ⟨hd1, -, -⟩ := ih i (Req.runDeps rest) st1 _ _ t hi1 hcache1 hnp1 hguard2 hk
          exact ⟨hd1.trans hc1, himp2, himp3⟩

/-- The requests that directly ask for `name`: a `resolve` call or a
context property read. -/
def missNameReq (name : String) (req : Req) : Prop :=
  req = Req.resolve name ∨ req = Req.getKey (Key.str name)

/-- Outcome of any request run from a state where the singleton cache
misses `name`: either `name`'s factory never ran (and a direct request
for `name` must have failed), or it ran exactly once and the produced
instance is now cached (a direct request returns exactly it), or it ran
exactly once and threw before an instance was stored. -/
def MissOutcome (name : String) (req : Req) (st st' : St) (r : Except JsErr Value) : Prop :=
  (mapGet st'.singletonCache name = Value.undef ∧
    countCalls st' name = countCalls st name ∧
    (missNameReq name req → ∃ e, r = Except.error e))
  ∨ (∃ t, mapGet st'.singletonCache name = Value.obj t ∧
      countCalls st' name = countCalls st name + 1 ∧
      (missNameReq name req → r = Except.ok (Value.obj t)))
  ∨ (mapGet st'.singletonCache name = Value.undef ∧
      countCalls st' name = countCalls st name + 1 ∧ ∃ e, r = Except.error e)

theorem notMissReq_resolve (name nm : String) (h : nm ≠ name) :
    ¬ missNameReq name (Req.resolve nm) := by
  rintro (heq | heq)
  · injection heq with h1
    exact h h1
  · exact Req.noConfusion heq

theorem notMissReq_getKey (name nm : String) (h : nm ≠ name) :
    ¬ missNameReq name (Req.getKey (Key.str nm)) := by
  rintro (heq | heq)
  · exact Req.noConfusion heq
  · injection heq with h1
    injection h1 with h2
    exact h h2

theorem notMissReq_getKeySym (name : String) (id : Nat) :
    ¬ missNameReq name (Req.getKey (Key.sym id)) := by
  rintro (heq | heq)
  · exact Req.noConfusion heq
  · injection heq with h1
    exact Key.noConfusion h1

theorem notMissReq_runFac (name nm : String) (fac : Factory) :
    ¬ missNameReq name (Req.runFac nm fac) := by
  rintro (heq | heq) <;> exact Req.noConfusion heq

theorem notMissReq_runDeps (name : String) (deps : List String) :
    ¬ missNameReq name (Req.runDeps deps) := by
  rintro (heq | heq) <;> exact Req.noConfusion heq

theorem missOutcome_transfer (name : String) (req1 req2 : Req) (st stA stB : St)
    (r1 r2 : Except JsErr Value)
    (h : MissOutcome name req1 st stA r1)
    (hnot : ¬ missNameReq name req2)
    (hcache : mapGet stB.singletonCache name = mapGet stA.singletonCache name)
    (hcount : countCalls stB name = countCalls stA name)
    (herr : ∀ e, r1 = Except.error e → r2 = Except.error e) :
    MissOutcome name req2 st stB r2 := by
  rcases h with ⟨h1, h2, h3⟩ | ⟨t, h1, h2, h3⟩ | ⟨h1, h2, h3⟩
  · exact Or.inl ⟨hcache.trans h1, hcount.trans h2, fun hm => absurd hm hnot⟩
  · exact Or.inr (Or.inl ⟨t, hcache.trans h1, hcount.trans h2, fun hm => absurd hm hnot⟩)
  · obtain ⟨e, he⟩ := h3
    exact Or.inr (Or.inr ⟨hcache.trans h1, hcount.trans h2, e, herr e he⟩)

theorem missOutcome_same (name : String) (req1 req2 : Req) (st stA : St)
    (r1 : Except JsErr Value)
    (h : MissOutcome name req1 st stA r1)
    (hnot : ¬ missNameReq name req2) :
    MissOutcome name req2 st stA r1 :=
  missOutcome_transfer name req1 req2 st stA stA r1 r1 h hnot rfl rfl (fun _ he => he)

theorem missOutcome_getKey_of_resolve (name : String) (st st' : St) (r : Except JsErr Value)
    (h : MissOutcome name (Req.resolve name) st st' r) :
    MissOutcome name (Req.getKey (Key.str name)) st st' r := by
  rcases h with ⟨h1, h2, h3⟩ | ⟨t, h1, h2, h3⟩ | ⟨h1, h2, h3⟩
  · exact Or.inl ⟨h1, h2, fun _ => h3 (Or.inl rfl)⟩
  · exact Or.inr (Or.inl ⟨t, h1, h2, fun _ => h3 (Or.inl rfl)⟩)
  · exact Or.inr (Or.inr ⟨h1, h2, h3⟩)

theorem missOutcome_idle (name : String) (req : Req) (st : St) (r : Except JsErr Value)
    (hmiss : mapGet st.singletonCache name = Value.undef)
    (hnot : ¬ missNameReq name req) :
    MissOutcome name req st st r :=
  Or.inl ⟨hmiss, rfl, fun hm => absurd hm hnot⟩

theorem missOutcome_idle_err (name : String) (req : Req) (st : St) (e : JsErr)
    (hmiss : mapGet st.singletonCache name = Value.undef) :
    MissOutcome name req st st (Except.error e) :=
  Or.inl ⟨hmiss, rfl, fun _ => ⟨e, rfl⟩⟩

theorem missOutcome_base (name : String) (req : Req) (st st2 st' : St)
    (r : Except JsErr Value)
    (h : MissOutcome name req st2 st' r)
    (hcache : mapGet st2.singletonCache name = mapGet st.singletonCache name)
    (hcount : countCalls st2 name = countCalls st name) :
    MissOutcome name req st st' r := by
  rcases h with ⟨h1, h2, h3⟩ | ⟨t, h1, h2, h3⟩ | ⟨h1, h2, h3⟩
  · exact Or.inl ⟨h1, h2.trans hcount, h3⟩
  · exact Or.inr (Or.inl ⟨t, h1, by rw [h2, hcount], h3⟩)
  · exact Or.inr (Or.inr ⟨h1, by rw [h2, hcount], h3⟩)

/-- Master lemma for a singleton `name` whose factory never returns
`undefined`: from any state where the provider cache misses `name`,
a request either never runs `name`'s factory (and a direct request for
`name` must have thrown), or runs it exactly once, caching and
returning the constructed instance, or runs it exactly once and
propagates the factory's exception without caching anything. -/
theorem singleton_miss_master (reg : Registry) (name : String) (fac : Factory)
    (hreg : lookupKey reg name = some ⟨Lifetime.singleton, fac⟩)
    (hdef : fac.returnsDefined = true) (hname : name ≠ "then") :
    ∀ fuel i req st r st', i < st.scopes.length →
      mapGet st.singletonCache name = Value.undef →
      name ∉ pathOf st i →
      (∀ f, req ≠ Req.runFac name f) →
      step reg none fuel i req st = some (r, st') →
      MissOutcome name req st st' r := by
  intro fuel
  induction fuel with
  | zero =>
    intro i req st r st' hi hmiss hnp hg h
    simp [step] at h
  | succ fuel ih =>
    intro i req st r st' hi hmiss hnp hg h
    cases req with
    | getKey key =>
      cases key with
      | sym id =>
        rw [step_getKey_sym] at h
        simp only [Option.some.injEq, Prod.mk.injEq] at h
        obtain ⟨-, rfl⟩ := h
        exact missOutcome_idle name _ st r hmiss (notMissReq_getKeySym name id)
      | str nm =>
        by_cases hthen : nm = "then"
        · subst hthen
          rw [step_getKey_then] at h
          simp only [Option.some.injEq, Prod.mk.injEq] at h
          obtain ⟨-, rfl⟩ := h
          exact missOutcome_idle name _ st r hmiss
            (notMissReq_getKey name "then" (fun hh => hname hh.symm))
        · rw [step_getKey_plain reg fuel i nm st hthen] at h
          have hsubres := ih i (Req.resolve nm) st r st' hi hmiss hnp
            (fun f hq => Req.noConfusion hq) h
          by_cases hnm : nm = name
          · subst hnm
            exact missOutcome_getKey_of_resolve nm st st' r hsubres
          · exact missOutcome_same name _ _ st st' r hsubres (notMissReq_getKey name nm hnm)
    | resolve nm =>
      by_cases hnm : nm = name
      · subst hnm
        have hcco : circularCheck (labelOf st i) (pathOf st i) nm = none :=
          (circularCheck_eq_none_iff _ _ _).mpr hnp
        rw [step_resolve_singleton_miss reg none fuel i nm st ⟨Lifetime.singleton, fac⟩
          hcco hreg rfl hmiss] at h
        have hiLP : i < (logCall (pushPath st i nm) i nm).scopes.length := by
          have hl : (logCall (pushPath st i nm) i nm).scopes.length = st.scopes.length :=
            scopes_length_pushPath st i nm
          rw [hl]
          exact hi
        have hmemLP : nm ∈ pathOf (logCall (pushPath st i nm) i nm) i := by
          have hp : pathOf (logCall (pushPath st i nm) i nm) i = pathOf (pushPath st i nm) i :=
            rfl
          rw [hp, pathOf_pushPath_self st i nm hi]
          exact List.mem_append_right _ (List.mem_singleton.mpr rfl)
        cases fuel with
        | zero => simp [step, constructCont] at h
        | succ fuel2 =>
          rcases constructCont_eq_some _ _ _ _ _ h with
            ⟨e, st1, hsub, hr, rfl⟩ | ⟨v, st1, hsub, hr, rfl⟩
          · cases hfac : fac with
            | const v0 =>
              rw [hfac, step_runFac_const] at hsub
              simp at hsub
            | throws t =>
              rw [hfac, step_runFac_throws] at hsub
              simp only [Option.some.injEq, Prod.mk.injEq] at hsub
              obtain ⟨he, rfl⟩ := hsub
              refine Or.inr (Or.inr ⟨hmiss, ?_, e, hr⟩)
              rw [countCalls_popPath, countCalls_logCall, countCalls_pushPath]
              simp
            | alloc deps =>
              rw [hfac, step_runFac_alloc] at hsub
              rcases bindOk_eq_some _ _ _ _ hsub with
                ⟨e2, stD, hD, he2, rfl⟩ | ⟨v2, stD, hD, hk2⟩
              · obtain ⟨hcnt, hsng, -⟩ := onpath_no_invoke reg nm fuel2 i (Req.runDeps deps)
                  (logCall (pushPath st i nm) i nm) _ _ hiLP hmemLP
                  (fun f hq => Req.noConfusion hq) hD
                refine Or.inr (Or.inr ⟨?_, ?_, e, hr⟩)
                · rw [singletonCache_popPath, hsng]
                  exact hmiss
                · rw [countCalls_popPath, hcnt, countCalls_logCall, countCalls_pushPath]
                  simp
              · simp at hk2
          · cases hfac : fac with
            | const v0 =>
              rw [hfac, step_runFac_const] at hsub
              simp only [Option.some.injEq, Prod.mk.injEq] at hsub
              obtain ⟨hv, rfl⟩ := hsub
              injection hv with hv2
              cases v0 with
              | undef =>
                rw [hfac] at hdef
                simp [Factory.returnsDefined] at hdef
              | obj t =>
                refine Or.inr (Or.inl ⟨t, ?_, ?_, fun _ => by rw [hr, ← hv2]⟩)
                · rw [show (setSingleton
                    (popPath (logCall (pushPath st i nm) i nm) i) nm v).singletonCache =
                    setKey (popPath (logCall (pushPath st i nm) i nm) i).singletonCache nm v
                    from rfl, mapGet_setKey_self, ← hv2]
                · rw [countCalls_setSingleton, countCalls_popPath, countCalls_logCall,
                    countCalls_pushPath]
                  simp
            | throws t =>
              rw [hfac, step_runFac_throws] at hsub
              simp at hsub
            | alloc deps =>
              rw [hfac, step_runFac_alloc] at hsub
              rcases bindOk_eq_some _ _ _ _ hsub with
                ⟨e2, stD, hD, he2, rfl⟩ | ⟨v2, stD, hD, hk2⟩
              · exact absurd he2 (by simp)
              · simp only [Option.some.injEq, Prod.mk.injEq] at hk2
                obtain ⟨hv, rfl⟩ := hk2
                injection hv with hv2
                obtain ⟨hcnt, hsng, -⟩ := onpath_no_invoke reg nm fuel2 i (Req.runDeps deps)
                  (logCall (pushPath st i nm) i nm) _ _ hiLP hmemLP
                  (fun f hq => Req.noConfusion hq) hD
                refine Or.inr (Or.inl ⟨stD.fresh, ?_, ?_, fun _ => by rw [hr, ← hv2]⟩)
                · rw [show (setSingleton
                    (popPath { stD with fresh := stD.fresh + 1 } i) nm v).singletonCache =
                    setKey (popPath { stD with fresh := stD.fresh + 1 } i).singletonCache nm v
                    from rfl, mapGet_setKey_self, ← hv2]
                · rw [countCalls_setSingleton, countCalls_popPath]
                  have hc : countCalls { stD with fresh := stD.fresh + 1 } nm =
                      countCalls stD nm := rfl
                  rw [hc, hcnt, countCalls_logCall, countCalls_pushPath]
                  simp
      · have hnot : ¬ missNameReq name (Req.resolve nm) := notMissReq_resolve name nm hnm
        have hnppush : name ∉ pathOf (pushPath st i nm) i := by
          rw [pathOf_pushPath_self st i nm hi]
          intro hin
          rcases List.mem_append.mp hin with hin1 | hin2
          · exact hnp hin1
          · rw [List.mem_singleton] at hin2
            exact hnm hin2.symm
        have hipush : i < (pushPath st i nm).scopes.length := by
          rw [scopes_length_pushPath]
          exact hi
        cases hcco : circularCheck (labelOf st i) (pathOf st i) nm with
        | some e =>
          rw [step_resolve_circular reg none fuel i nm st e hcco] at h
          simp only [Option.some.injEq, Prod.mk.injEq] at h
          obtain ⟨-, rfl⟩ := h
          exact missOutcome_idle name _ st r hmiss hnot
        | none =>
          cases hlk : lookupKey reg nm with
          | none =>
            rw [step_resolve_unregistered reg none fuel i nm st hcco hlk] at h
            simp only [Option.some.injEq, Prod.mk.injEq] at h
            obtain ⟨-, rfl⟩ := h
            exact missOutcome_idle name _ st r hmiss hnot
          | some d2 =>
            have hguard : ∀ f, Req.runFac nm d2.create ≠ Req.runFac name f := by
              intro f hq
              injection hq with h1 h2
              exact hnm h1
            cases hltc : d2.lifetime
            · cases hmg : mapGet st.singletonCache nm with
              | obj t2 =>
                rw [step_resolve_singleton_hit reg none fuel i nm st d2 t2 hcco hlk hltc hmg] at h
                simp only [Option.some.injEq, Prod.mk.injEq] at h
                obtain ⟨-, rfl⟩ := h
                exact missOutcome_idle name _ st r hmiss hnot
              | undef =>
                rw [step_resolve_singleton_miss reg none fuel i nm st d2 hcco hlk hltc hmg] at h
                rcases constructCont_eq_some _ _ _ _ _ h with
                  ⟨e, st1, hsub, hr, rfl⟩ | ⟨v, st1, hsub, hr, rfl⟩
                · have hIH := ih i (Req.runFac nm d2.create) (pushPath st i nm) _ _ hipush
                    hmiss hnppush hguard hsub
                  have hbase := missOutcome_base name _ st (pushPath st i nm) st1 _ hIH rfl rfl
                  refine missOutcome_transfer name _ _ st st1 (popPath st1 i) _ r hbase hnot
                    (singletonCache_popPath st1 i ▸ rfl) (countCalls_popPath st1 i name)
                    (fun e2 he2 => by
                      rw [hr]
                      injection he2 with h3
                      rw [h3])
                · have hIH := ih i (Req.runFac nm d2.create) (pushPath st i nm) _ _ hipush
                    hmiss hnppush hguard hsub
                  have hbase := missOutcome_base name _ st (pushPath st i nm) st1 _ hIH rfl rfl
                  refine missOutcome_transfer name _ _ st st1
                    (setSingleton (popPath st1 i) nm v) _ r hbase hnot ?_
                    (countCalls_popPath st1 i name) (fun e2 he2 => Except.noConfusion he2)
                  rw [show (setSingleton (popPath st1 i) nm v).singletonCache =
                    setKey (popPath st1 i).singletonCache nm v from rfl,
                    mapGet_setKey_ne _ _ _ _ (fun hh => hnm hh.symm), singletonCache_popPath]
            · cases hmg : mapGet (scopedOf st i) nm with
              | obj t2 =>
                rw [step_resolve_scoped_hit reg none fuel i nm st d2 t2 hcco hlk hltc hmg] at h
                simp only [Option.some.injEq, Prod.mk.injEq] at h
                obtain ⟨-, rfl⟩ := h
                exact missOutcome_idle name _ st r hmiss hnot
              | undef =>
                cases hlc : lifetimeCheck reg (labelOf st i) (pathOf st i) nm with
                | some e =>
                  rw [step_resolve_scoped_lterr reg none fuel i nm st d2 e hcco hlk hltc hmg hlc]
                    at h
                  simp only [Option.some.injEq, Prod.mk.injEq] at h
                  obtain ⟨-, rfl⟩ := h
                  exact missOutcome_idle name _ st r hmiss hnot
                | none =>
                  rw [step_resolve_scoped_miss reg none fuel i nm st d2 hcco hlk hltc hmg hlc] at h
                  rcases constructCont_eq_some _ _ _ _ _ h with
                    ⟨e, st1, hsub, hr, rfl⟩ | ⟨v, st1, hsub, hr, rfl⟩
                  · have hIH := ih i (Req.runFac nm d2.create) (pushPath st i nm) _ _ hipush
                      hmiss hnppush hguard hsub
                    have hbase := missOutcome_base name _ st (pushPath st i nm) st1 _ hIH rfl rfl
                    refine missOutcome_transfer name _ _ st st1 (popPath st1 i) _ r hbase hnot
                      (singletonCache_popPath st1 i ▸ rfl) (countCalls_popPath st1 i name)
                      (fun e2 he2 => by
                        rw [hr]
                        injection he2 with h3
                        rw [h3])
                  · have hIH := ih i (Req.runFac nm d2.create) (pushPath st i nm) _ _ hipush
                      hmiss hnppush hguard hsub
                    have hbase := missOutcome_base name _ st (pushPath st i nm) st1 _ hIH rfl rfl
                    refine missOutcome_transfer name _ _ st st1
                      (setScoped (popPath st1 i) i nm v) _ r hbase hnot rfl
                      (countCalls_popPath st1 i name) (fun e2 he2 => Except.noConfusion he2)
            · rw [step_resolve_transient reg none fuel i nm st d2 hcco hlk hltc] at h
              rcases constructCont_eq_some _ _ _ _ _ h with
                ⟨e, st1, hsub, hr, rfl⟩ | ⟨v, st1, hsub, hr, rfl⟩
              · have hIH := ih i (Req.runFac nm d2.create) (pushPath st i nm) _ _ hipush
                  hmiss hnppush hguard hsub
                have hbase := missOutcome_base name _ st (pushPath st i nm) st1 _ hIH rfl rfl
                refine missOutcome_transfer name _ _ st st1 (popPath st1 i) _ r hbase hnot
                  (singletonCache_popPath st1 i ▸ rfl) (countCalls_popPath st1 i name)
                  (fun e2 he2 => by
                    rw [hr]
                    injection he2 with h3
                    rw [h3])
              · have hIH := ih i (Req.runFac nm d2.create) (pushPath st i nm) _ _ hipush
                  hmiss hnppush hguard hsub
                have hbase := missOutcome_base name _ st (pushPath st i nm) st1 _ hIH rfl rfl
                exact missOutcome_transfer name _ _ st st1 (popPath st1 i) _ r hbase hnot
                  (singletonCache_popPath st1 i ▸ rfl) (countCalls_popPath st1 i name)
                  (fun e2 he2 => Except.noConfusion he2)
    | runFac nm fac2 =>
      have hnm : nm ≠ name := by
        intro he
        exact hg fac2 (by rw [he])
      have hnot : ¬ missNameReq name (Req.runFac nm fac2) := notMissReq_runFac name nm fac2
      cases fac2 with
      | const v =>
        rw [step_runFac_const] at h
        simp only [Option.some.injEq, Prod.mk.injEq] at h
        obtain ⟨-, rfl⟩ := h
        refine Or.inl ⟨hmiss, ?_, fun hm => absurd hm hnot⟩
        rw [countCalls_logCall]
        simp [hnm]
      | throws t =>
        rw [step_runFac_throws] at h
        simp only [Option.some.injEq, Prod.mk.injEq] at h
        obtain ⟨-, rfl⟩ := h
        refine Or.inl ⟨hmiss, ?_, fun hm => absurd hm hnot⟩
        rw [countCalls_logCall]
        simp [hnm]
      | alloc deps =>
        rw [step_runFac_alloc] at h
        have hcountL : countCalls (logCall st i nm) name = countCalls st name := by
          rw [countCalls_logCall]
          simp [hnm]
        rcases bindOk_eq_some _ _ _ _ h with
          ⟨e, st1, hsub, hr, rfl⟩ | ⟨v, st1, hsub, hk⟩
        · have hIH := ih i (Req.runDeps deps) (logCall st i nm) _ _ hi hmiss hnp
            (fun f hq => Req.noConfusion hq) hsub
          have hbase := missOutcome_base name _ st (logCall st i nm) st' _ hIH rfl hcountL
          rw [hr]
          exact missOutcome_same name _ _ st st' _ hbase hnot
        · simp only [Option.some.injEq, Prod.mk.injEq] at hk
          obtain ⟨hv, rfl⟩ := hk
          have hIH := ih i (Req.runDeps deps) (logCall st i nm) _ _ hi hmiss hnp
            (fun f hq => Req.noConfusion hq) hsub
          have hbase := missOutcome_base name _ st (logCall st i nm) st1 _ hIH rfl hcountL
          exact missOutcome_transfer name _ _ st st1 { st1 with fresh := st1.fresh + 1 } _ r
            hbase hnot rfl rfl (fun e2 he2 => by
              rw [← hv]
              exact Except.noConfusion he2)
    | runDeps deps =>
      have hnot : ¬ missNameReq name (Req.runDeps deps) := notMissReq_runDeps name deps
      cases deps with
      | nil =>
        rw [step_runDeps_nil] at h
        simp only [Option.some.injEq, Prod.mk.injEq] at h
        obtain ⟨-, rfl⟩ := h
        exact missOutcome_idle name _ st r hmiss hnot
      | cons dep rest =>
        rw [step_runDeps_cons] at h
        rcases bindOk_eq_some _ _ _ _ h with
          ⟨e, st1, hsub, hr, rfl⟩ | ⟨v, st1, hsub, hk⟩
        · have hIH := ih i (Req.getKey (Key.str dep)) st _ _ hi hmiss hnp
            (fun f hq => Req.noConfusion hq) hsub
          rw [hr]
          exact missOutcome_same name _ _ st st' _ hIH hnot
        · have hIH := ih i (Req.getKey (Key.str dep)) st _ _ hi hmiss hnp
            (fun f hq => Req.noConfusion hq) hsub
          have hinv := step_inv reg none fuel i (Req.getKey (Key.str dep)) st _ _ hi hsub
          have hi1 : i < st1.scopes.length := by
            rw [hinv.scopesLen]
            exact hi
          have hnp1 : name ∉ pathOf st1 i := by
            rw [hinv.pathEq]
            exact hnp
          rcases hIH with ⟨h1, h2, h3⟩ | ⟨t, h1, h2, h3⟩ | ⟨h1, h2, h3⟩
          · have hIH2 := ih i (Req.runDeps rest) st1 _ _ hi1 h1 hnp1
              (fun f hq => Req.noConfusion hq) hk
            have hbase := missOutcome_base name _ st st1 st' _ hIH2
              (h1.trans hmiss.symm) h2
            exact missOutcome_same name _ _ st st' _ hbase hnot
          · have hinv2 := step_inv reg none fuel i (Req.runDeps rest) st1 _ _ hi1 hk
            obtain ⟨hcnt, -, -⟩ := singleton_hit_stable reg name ⟨Lifetime.singleton, fac⟩
              hreg rfl hname fuel i (Req.runDeps rest) st1 r st' t hi1 h1 hnp1
              (fun f hq => Req.noConfusion hq) hk
            exact Or.inr (Or.inl ⟨t, hinv2.singleMono name t h1, by rw [hcnt, h2],
              fun hm => absurd hm hnot⟩)
          · obtain ⟨e, he⟩ := h3
            exact Except.noConfusion he

theorem countScope_pushPath (st : St) (i : Nat) (n : String) (j : Nat) (name : String) :
    countScope (pushPath st i n) j name = countScope st j name := rfl

theorem countScope_popPath (st : St) (i : Nat) (j : Nat) (name : String) :
    countScope (popPath st i) j name = countScope st j name := rfl

theorem countScope_setSingleton (st : St) (n : String) (v : Value) (j : Nat) (name : String) :
    countScope (setSingleton st n v) j name = countScope st j name := rfl

theorem countScope_setScoped (st : St) (i : Nat) (n : String) (v : Value) (j : Nat)
    (name : String) :
    countScope (setScoped st i n v) j name = countScope st j name := rfl

/-- If a computation appended only log entries that do not mention
`name` (witnessed by the total count staying put), then every per-scope
count for `name` stays put as well. -/
theorem countScope_stable (st st' : St) (j : Nat) (name : String)
    (ext : List (Nat × String))
    (hext : st'.callLog = st.callLog ++ ext)
    (hcc : countCalls st' name = countCalls st name) :
    countScope st' j name = countScope st j name := by
  unfold countCalls at hcc
  unfold countScope
  rw [hext] at hcc
  rw [hext]
  rw [List.filter_append, List.length_append] at hcc
  rw [List.filter_append, List.length_append]
  have hz : (ext.filter (fun q => decide (q.2 = name))).length = 0 := by omega
  have hz2 : (ext.filter (fun q => decide (q = (j, name)))).length = 0 := by
    rw [List.length_eq_zero, List.filter_eq_nil] at hz
    rw [List.length_eq_zero, List.filter_eq_nil]
    intro a ha hpa
    have ha2 : a.2 = name := by
      have : a = (j, name) := of_decide_eq_true hpa
      rw [this]
    exact (hz a ha) (decide_eq_true ha2)
  omega

/-- Outcome of any request run on scope `i` from a state where scope
`i`'s cache misses the scoped `name`: the factory either never ran on
this scope, ran exactly once with the instance now in this scope's
cache, or ran exactly once and threw. -/
def ScopedMissOutcome (name : String) (i : Nat) (req : Req) (st st' : St)
    (r : Except JsErr Value) : Prop :=
  (mapGet (scopedOf st' i) name = Value.undef ∧
    countScope st' i name = countScope st i name ∧
    (missNameReq name req → ∃ e, r = Except.error e))
  ∨ (∃ t, mapGet (scopedOf st' i) name = Value.obj t ∧
      countScope st' i name = countScope st i name + 1 ∧
      (missNameReq name req → r = Except.ok (Value.obj t)))
  ∨ (mapGet (scopedOf st' i) name = Value.undef ∧
      countScope st' i name = countScope st i name + 1 ∧ ∃ e, r = Except.error e)

theorem scopedMissOutcome_transfer (name : String) (i : Nat) (req1 req2 : Req)
    (st stA stB : St) (r1 r2 : Except JsErr Value)
    (h : ScopedMissOutcome name i req1 st stA r1)
    (hnot : ¬ missNameReq name req2)
    (hcache : mapGet (scopedOf stB i) name = mapGet (scopedOf stA i) name)
    (hcount : countScope stB i name = countScope stA i name)
    (herr : ∀ e, r1 = Except.error e → r2 = Except.error e) :
    ScopedMissOutcome name i req2 st stB r2 := by
  rcases h with ⟨h1, h2, h3⟩ | ⟨t, h1, h2, h3⟩ | ⟨h1, h2, h3⟩
  · exact Or.inl ⟨hcache.trans h1, hcount.trans h2, fun hm => absurd hm hnot⟩
  · exact Or.inr (Or.inl ⟨t, hcache.trans h1, hcount.trans h2, fun hm => absurd hm hnot⟩)
  · obtain ⟨e, he⟩ := h3
    exact Or.inr (Or.inr ⟨hcache.trans h1, hcount.trans h2, e, herr e he⟩)

theorem scopedMissOutcome_same (name : String) (i : Nat) (req1 req2 : Req) (st stA : St)
    (r1 : Except JsErr Value)
    (h : ScopedMissOutcome name i req1 st stA r1)
    (hnot : ¬ missNameReq name req2) :
    ScopedMissOutcome name i req2 st stA r1 :=
  scopedMissOutcome_transfer name i req1 req2 st stA stA r1 r1 h hnot rfl rfl (fun _ he => he)

theorem scopedMissOutcome_getKey_of_resolve (name : String) (i : Nat) (st st' : St)
    (r : Except JsErr Value)
    (h : ScopedMissOutcome name i (Req.resolve name) st st' r) :
    ScopedMissOutcome name i (Req.getKey (Key.str name)) st st' r := by
  rcases h with ⟨h1, h2, h3⟩ | ⟨t, h1, h2, h3⟩ | ⟨h1, h2, h3⟩
  · exact Or.inl ⟨h1, h2, fun _ => h3 (Or.inl rfl)⟩
  · exact Or.inr (Or.inl ⟨t, h1, h2, fun _ => h3 (Or.inl rfl)⟩)
  · exact Or.inr (Or.inr ⟨h1, h2, h3⟩)

theorem scopedMissOutcome_idle (name : String) (i : Nat) (req : Req) (st : St)
    (r : Except JsErr Value)
    (hmiss : mapGet (scopedOf st i) name = Value.undef)
    (hnot : ¬ missNameReq name req) :
    ScopedMissOutcome name i req st st r :=
  Or.inl ⟨hmiss, rfl, fun hm => absurd hm hnot⟩

theorem scopedMissOutcome_idle_err (name : String) (i : Nat) (req : Req) (st : St) (e : JsErr)
    (hmiss : mapGet (scopedOf st i) name = Value.undef) :
    ScopedMissOutcome name i req st st (Except.error e) :=
  Or.inl ⟨hmiss, rfl, fun _ => ⟨e, rfl⟩⟩

theorem scopedMissOutcome_base (name : String) (i : Nat) (req : Req) (st st2 st' : St)
    (r : Except JsErr Value)
    (h : ScopedMissOutcome name i req st2 st' r)
    (hcount : countScope st2 i name = countScope st i name) :
    ScopedMissOutcome name i req st st' r := by
  rcases h with ⟨h1, h2, h3⟩ | ⟨t, h1, h2, h3⟩ | ⟨h1, h2, h3⟩
  · exact Or.inl ⟨h1, h2.trans hcount, h3⟩
  · exact Or.inr (Or.inl ⟨t, h1, by rw [h2, hcount], h3⟩)
  · exact Or.inr (Or.inr ⟨h1, by rw [h2, hcount], h3⟩)

/-- Master lemma for a scoped `name` whose factory never returns
`undefined`: from any state where scope `i`'s cache misses `name`, a
request on scope `i` either never runs `name`'s factory on this scope
(and a direct request for `name` must have thrown), or runs it exactly
once, caching the instance in this scope's private cache and returning
it, or runs it exactly once and propagates the exception. -/
theorem scoped_miss_master (reg : Registry) (name : String) (fac : Factory)
    (hreg : lookupKey reg name = some ⟨Lifetime.scoped, fac⟩)
    (hdef : fac.returnsDefined = true) (hname : name ≠ "then") :
    ∀ fuel i req st r st', i < st.scopes.length →
      mapGet (scopedOf st i) name = Value.undef →
      name ∉ pathOf st i →
      (∀ f, req ≠ Req.runFac name f) →
      step reg none fuel i req st = some (r, st') →
      ScopedMissOutcome name i req st st' r := by
  intro fuel
  induction fuel with
  | zero =>
    intro i req st r st' hi hmiss hnp hg h
    simp [step] at h
  | succ fuel ih =>
    intro i req st r st' hi hmiss hnp hg h
    cases req with
    | getKey key =>
      cases key with
      | sym id =>
        rw [step_getKey_sym] at h
        simp only [Option.some.injEq, Prod.mk.injEq] at h
        obtain ⟨-, rfl⟩ := h
        exact scopedMissOutcome_idle name i _ st r hmiss (notMissReq_getKeySym name id)
      | str nm =>
        by_cases hthen : nm = "then"
        · subst hthen
          rw [step_getKey_then] at h
          simp only [Option.some.injEq, Prod.mk.injEq] at h
          obtain ⟨-, rfl⟩ := h
          exact scopedMissOutcome_idle name i _ st r hmiss
            (notMissReq_getKey name "then" (fun hh => hname hh.symm))
        · rw [step_getKey_plain reg fuel i nm st hthen] at h
          have hsubres := ih i (Req.resolve nm) st r st' hi hmiss hnp
            (fun f hq => Req.noConfusion hq) h
          by_cases hnm : nm = name
          · subst hnm
            exact scopedMissOutcome_getKey_of_resolve nm i st st' r hsubres
          · exact scopedMissOutcome_same name i _ _ st st' r hsubres
              (notMissReq_getKey name nm hnm)
    | resolve nm =>
      by_cases hnm : nm = name
      · subst hnm
        have hcco : circularCheck (labelOf st i) (pathOf st i) nm = none :=
          (circularCheck_eq_none_iff _ _ _).mpr hnp
        cases hlc : lifetimeCheck reg (labelOf st i) (pathOf st i) nm with
        | some e =>
          rw [step_resolve_scoped_lterr reg none fuel i nm st ⟨Lifetime.scoped, fac⟩ e
            hcco hreg rfl hmiss hlc] at h
          simp only [Option.some.injEq, Prod.mk.injEq] at h
          obtain ⟨hre, rfl⟩ := h
          rw [← hre]
          exact scopedMissOutcome_idle_err nm i _ st e hmiss
        | none =>
          rw [step_resolve_scoped_miss reg none fuel i nm st ⟨Lifetime.scoped, fac⟩
            hcco hreg rfl hmiss hlc] at h
          have hiLP : i < (logCall (pushPath st i nm) i nm).scopes.length := by
            have hl : (logCall (pushPath st i nm) i nm).scopes.length = st.scopes.length :=
              scopes_length_pushPath st i nm
            rw [hl]
            exact hi
          have hmemLP : nm ∈ pathOf (logCall (pushPath st i nm) i nm) i := by
            have hp : pathOf (logCall (pushPath st i nm) i nm) i =
                pathOf (pushPath st i nm) i := rfl
            rw [hp, pathOf_pushPath_self st i nm hi]
            exact List.mem_append_right _ (List.mem_singleton.mpr rfl)
          have hcsLog : countScope (logCall (pushPath st i nm) i nm) i nm =
              countScope st i nm + 1 := by
            rw [countScope_logCall, countScope_pushPath]
            simp
          cases fuel with
          | zero => simp [step, constructCont] at h
          | succ fuel2 =>
            rcases constructCont_eq_some _ _ _ _ _ h with
              ⟨e, st1, hsub, hr, rfl⟩ | ⟨v, st1, hsub, hr, rfl⟩
            · cases hfac : fac with
              | const v0 =>
                rw [hfac, step_runFac_const] at hsub
                simp at hsub
              | throws t =>
                rw [hfac, step_runFac_throws] at hsub
                simp only [Option.some.injEq, Prod.mk.injEq] at hsub
                obtain ⟨he, rfl⟩ := hsub
                refine Or.inr (Or.inr ⟨?_, ?_, e, hr⟩)
                · rw [scopedOf_popPath, scopedOf_logCall, scopedOf_pushPath]
                  exact hmiss
                · rw [countScope_popPath, hcsLog]
              | alloc deps =>
                rw [hfac, step_runFac_alloc] at hsub
                rcases bindOk_eq_some _ _ _ _ hsub with
                  ⟨e2, stD, hD, he2, rfl⟩ | ⟨v2, stD, hD, hk2⟩
                · obtain ⟨hcnt, -, hscd⟩ := onpath_no_invoke reg nm fuel2 i (Req.runDeps deps)
                    (logCall (pushPath st i nm) i nm) _ _ hiLP hmemLP
                    (fun f hq => Req.noConfusion hq) hD
                  have hinvD := step_inv reg none fuel2 i (Req.runDeps deps)
                    (logCall (pushPath st i nm) i nm) _ _ hiLP hD
                  obtain ⟨ext, hext, -⟩ := hinvD.log
                  have hcsc : countScope st1 i nm =
                      countScope (logCall (pushPath st i nm) i nm) i nm :=
                    countScope_stable _ _ i nm ext hext hcnt
                  refine Or.inr (Or.inr ⟨?_, ?_, e, hr⟩)
                  · rw [scopedOf_popPath, hscd, scopedOf_logCall, scopedOf_pushPath]
                    exact hmiss
                  · rw [countScope_popPath, hcsc, hcsLog]
                · simp at hk2
            · cases hfac : fac with
              | const v0 =>
                rw [hfac, step_runFac_const] at hsub
                simp only [Option.some.injEq, Prod.mk.injEq] at hsub
                obtain ⟨hv, rfl⟩ := hsub
                injection hv with hv2
                cases v0 with
                | undef =>
                  rw [hfac] at hdef
                  simp [Factory.returnsDefined] at hdef
                | obj t =>
                  have hipop : i <
                      (popPath (logCall (pushPath st i nm) i nm) i).scopes.length := by
                    rw [scopes_length_popPath]
                    have hl : (logCall (pushPath st i nm) i nm).scopes.length =
                        st.scopes.length := scopes_length_pushPath st i nm
                    rw [hl]
                    exact hi
                  refine Or.inr (Or.inl ⟨t, ?_, ?_, fun _ => by rw [hr, ← hv2]⟩)
                  · rw [scopedOf_setScoped_self _ i nm v hipop, mapGet_setKey_self, ← hv2]
                  · rw [countScope_setScoped, countScope_popPath, hcsLog]
              | throws t =>
                rw [hfac, step_runFac_throws] at hsub
                simp at hsub
              | alloc deps =>
                rw [hfac, step_runFac_alloc] at hsub
                rcases bindOk_eq_some _ _ _ _ hsub with
                  ⟨e2, stD, hD, he2, rfl⟩ | ⟨v2, stD, hD, hk2⟩
                · exact absurd he2 (by simp)
                · simp only [Option.some.injEq, Prod.mk.injEq] at hk2
                  obtain ⟨hv, rfl⟩ := hk2
                  injection hv with hv2
                  obtain ⟨hcnt, -, hscd⟩ := onpath_no_invoke reg nm fuel2 i (Req.runDeps deps)
                    (logCall (pushPath st i nm) i nm) _ _ hiLP hmemLP
                    (fun f hq => Req.noConfusion hq) hD
                  have hinvD := step_inv reg none fuel2 i (Req.runDeps deps)
                    (logCall (pushPath st i nm) i nm) _ _ hiLP hD
                  obtain ⟨ext, hext, -⟩ := hinvD.log
                  have hcsc : countScope stD i nm =
                      countScope (logCall (pushPath st i nm) i nm) i nm :=
                    countScope_stable _ _ i nm ext hext hcnt
                  have hipop : i <
                      (popPath { stD with fresh := stD.fresh + 1 } i).scopes.length := by
                    rw [scopes_length_popPath]
                    have hl : ({ stD with fresh := stD.fresh + 1 } : St).scopes.length =
                        stD.scopes.length := rfl
                    rw [hl, hinvD.scopesLen]
                    have hl2 : (logCall (pushPath st i nm) i nm).scopes.length =
                        st.scopes.length := scopes_length_pushPath st i nm
                    rw [hl2]
                    exact hi
                  refine Or.inr (Or.inl ⟨stD.fresh, ?_, ?_, fun _ => by rw [hr, ← hv2]⟩)
                  · rw [scopedOf_setScoped_self _ i nm v hipop, mapGet_setKey_self, ← hv2]
                  · rw [countScope_setScoped, countScope_popPath]
                    have hc : countScope { stD with fresh := stD.fresh + 1 } i nm =
                        countScope stD i nm := rfl
                    rw [hc, hcsc, hcsLog]
      · have hnot : ¬ missNameReq name (Req.resolve nm) := notMissReq_resolve name nm hnm
        have hnppush : name ∉ pathOf (pushPath st i nm) i := by
          rw [pathOf_pushPath_self st i nm hi]
          intro hin
          rcases List.mem_append.mp hin with hin1 | hin2
          · exact hnp hin1
          · rw [List.mem_singleton] at hin2
            exact hnm hin2.symm
        have hipush : i < (pushPath st i nm).scopes.length := by
          rw [scopes_length_pushPath]
          exact hi
        have hmisspush : mapGet (scopedOf (pushPath st i nm) i) name = Value.undef := by
          rw [scopedOf_pushPath]
          exact hmiss
        cases hcco : circularCheck (labelOf st i) (pathOf st i) nm with
        | some e =>
          rw [step_resolve_circular reg none fuel i nm st e hcco] at h
          simp only [Option.some.injEq, Prod.mk.injEq] at h
          obtain ⟨-, rfl⟩ := h
          exact scopedMissOutcome_idle name i _ st r hmiss hnot
        | none =>
          cases hlk : lookupKey reg nm with
          | none =>
            rw [step_resolve_unregistered reg none fuel i nm st hcco hlk] at h
            simp only [Option.some.injEq, Prod.mk.injEq] at h
            obtain ⟨-, rfl⟩ := h
            exact scopedMissOutcome_idle name i _ st r hmiss hnot
          | some d2 =>
            have hguard : ∀ f, Req.runFac nm d2.create ≠ Req.runFac name f := by
              intro f hq
              injection hq with h1 h2
              exact hnm h1
            cases hltc : d2.lifetime
            · cases hmg : mapGet st.singletonCache nm with
              | obj t2 =>
                rw [step_resolve_singleton_hit reg none fuel i nm st d2 t2 hcco hlk hltc hmg] at h
                simp only [Option.some.injEq, Prod.mk.injEq] at h
                obtain ⟨-, rfl⟩ := h
                exact scopedMissOutcome_idle name i _ st r hmiss hnot
              | undef =>
                rw [step_resolve_singleton_miss reg none fuel i nm st d2 hcco hlk hltc hmg] at h
                rcases constructCont_eq_some _ _ _ _ _ h with
                  ⟨e, st1, hsub, hr, rfl⟩ | ⟨v, st1, hsub, hr, rfl⟩
                · have hIH := ih i (Req.runFac nm d2.create) (pushPath st i nm) _ _ hipush
                    hmisspush hnppush hguard hsub
                  have hbase := scopedMissOutcome_base name i _ st (pushPath st i nm) st1 _
                    hIH rfl
                  refine scopedMissOutcome_transfer name i _ _ st st1 (popPath st1 i) _ r
                    hbase hnot (scopedOf_popPath st1 i i ▸ rfl) (countScope_popPath st1 i i name)
                    (fun e2 he2 => by
                      rw [hr]
                      injection he2 with h3
                      rw [h3])
                · have hIH := ih i (Req.runFac nm d2.create) (pushPath st i nm) _ _ hipush
                    hmisspush hnppush hguard hsub
                  have hbase := scopedMissOutcome_base name i _ st (pushPath st i nm) st1 _
                    hIH rfl
                  refine scopedMissOutcome_transfer name i _ _ st st1
                    (setSingleton (popPath st1 i) nm v) _ r hbase hnot ?_
                    (countScope_popPath st1 i i name) (fun e2 he2 => Except.noConfusion he2)
                  rw [scopedOf_setSingleton, scopedOf_popPath]
            · cases hmg : mapGet (scopedOf st i) nm with
              | obj t2 =>
                rw [step_resolve_scoped_hit reg none fuel i nm st d2 t2 hcco hlk hltc hmg] at h
                simp only [Option.some.injEq, Prod.mk.injEq] at h
                obtain ⟨-, rfl⟩ := h
                exact scopedMissOutcome_idle name i _ st r hmiss hnot
              | undef =>
                cases hlc : lifetimeCheck reg (labelOf st i) (pathOf st i) nm with
                | some e =>
                  rw [step_resolve_scoped_lterr reg none fuel i nm st d2 e hcco hlk hltc hmg hlc]
                    at h
                  simp only [Option.some.injEq, Prod.mk.injEq] at h
                  obtain ⟨-, rfl⟩ := h
                  exact scopedMissOutcome_idle name i _ st r hmiss hnot
                | none =>
                  rw [step_resolve_scoped_miss reg none fuel i nm st d2 hcco hlk hltc hmg hlc] at h
                  rcases constructCont_eq_some _ _ _ _ _ h with
                    ⟨e, st1, hsub, hr, rfl⟩ | ⟨v, st1, hsub, hr, rfl⟩
                  · have hIH := ih i (Req.runFac nm d2.create) (pushPath st i nm) _ _ hipush
                      hmisspush hnppush hguard hsub
                    have hbase := scopedMissOutcome_base name i _ st (pushPath st i nm) st1 _
                      hIH rfl
                    refine scopedMissOutcome_transfer name i _ _ st st1 (popPath st1 i) _ r
                      hbase hnot (scopedOf_popPath st1 i i ▸ rfl)
                      (countScope_popPath st1 i i name)
                      (fun e2 he2 => by
                        rw [hr]
                        injection he2 with h3
                        rw [h3])
                  · have hIH := ih i (Req.runFac nm d2.create) (pushPath st i nm) _ _ hipush
                      hmisspush hnppush hguard hsub
                    have hbase := scopedMissOutcome_base name i _ st (pushPath st i nm) st1 _
                      hIH rfl
                    have hinvsub := step_inv reg none fuel i (Req.runFac nm d2.create)
                      (pushPath st i nm) _ _ hipush hsub
                    have hipop : i < (popPath st1 i).scopes.length := by
                      rw [scopes_length_popPath, hinvsub.scopesLen, scopes_length_pushPath]
                      exact hi
                    refine scopedMissOutcome_transfer name i _ _ st st1
                      (setScoped (popPath st1 i) i nm v) _ r hbase hnot ?_
                      (countScope_popPath st1 i i name) (fun e2 he2 => Except.noConfusion he2)
                    rw [scopedOf_setScoped_self _ i nm v hipop,
                      mapGet_setKey_ne _ _ _ _ (fun hh => hnm hh.symm), scopedOf_popPath]
            · rw [step_resolve_transient reg none fuel i nm st d2 hcco hlk hltc] at h
              rcases constructCont_eq_some _ _ _ _ _ h with
                ⟨e, st1, hsub, hr, rfl⟩ | ⟨v, st1, hsub, hr, rfl⟩
              · have hIH := ih i (Req.runFac nm d2.create) (pushPath st i nm) _ _ hipush
                  hmisspush hnppush hguard hsub
                have hbase := scopedMissOutcome_base name i _ st (pushPath st i nm) st1 _
                  hIH rfl
                refine scopedMissOutcome_transfer name i _ _ st st1 (popPath st1 i) _ r
                  hbase hnot (scopedOf_popPath st1 i i ▸ rfl) (countScope_popPath st1 i i name)
                  (fun e2 he2 => by
                    rw [hr]
                    injection he2 with h3
                    rw [h3])
              · have hIH := ih i (Req.runFac nm d2.create) (pushPath st i nm) _ _ hipush
                  hmisspush hnppush hguard hsub
                have hbase := scopedMissOutcome_base name i _ st (pushPath st i nm) st1 _
                  hIH rfl
                exact scopedMissOutcome_transfer name i _ _ st st1 (popPath st1 i) _ r
                  hbase hnot (scopedOf_popPath st1 i i ▸ rfl) (countScope_popPath st1 i i name)
                  (fun e2 he2 => Except.noConfusion he2)
    | runFac nm fac2 =>
      have hnm : nm ≠ name := by
        intro he
        exact hg fac2 (by rw [he])
      have hnot : ¬ missNameReq name (Req.runFac nm fac2) := notMissReq_runFac name nm fac2
      have hcountL : countScope (logCall st i nm) i name = countScope st i name := by
        rw [countScope_logCall]
        simp [hnm]
      cases fac2 with
      | const v =>
        rw [step_runFac_const] at h
        simp only [Option.some.injEq, Prod.mk.injEq] at h
        obtain ⟨-, rfl⟩ := h
        exact Or.inl ⟨hmiss, hcountL, fun hm => absurd hm hnot⟩
      | throws t =>
        rw [step_runFac_throws] at h
        simp only [Option.some.injEq, Prod.mk.injEq] at h
        obtain ⟨-, rfl⟩ := h
        exact Or.inl ⟨hmiss, hcountL, fun hm => absurd hm hnot⟩
      | alloc deps =>
        rw [step_runFac_alloc] at h
        rcases bindOk_eq_some _ _ _ _ h with
          ⟨e, st1, hsub, hr, rfl⟩ | ⟨v, st1, hsub, hk⟩
        · have hIH := ih i (Req.runDeps deps) (logCall st i nm) _ _ hi hmiss hnp
            (fun f hq => Req.noConfusion hq) hsub
          have hbase := scopedMissOutcome_base name i _ st (logCall st i nm) st' _ hIH hcountL
          rw [hr]
          exact scopedMissOutcome_same name i _ _ st st' _ hbase hnot
        · simp only [Option.some.injEq, Prod.mk.injEq] at hk
          obtain ⟨hv, rfl⟩ := hk
          have hIH := ih i (Req.runDeps deps) (logCall st i nm) _ _ hi hmiss hnp
            (fun f hq => Req.noConfusion hq) hsub
          have hbase := scopedMissOutcome_base name i _ st (logCall st i nm) st1 _ hIH hcountL
          exact scopedMissOutcome_transfer name i _ _ st st1
            { st1 with fresh := st1.fresh + 1 } _ r hbase hnot rfl rfl
            (fun e2 he2 => by
              rw [← hv]
              exact Except.noConfusion he2)
    | runDeps deps =>
      have hnot : ¬ missNameReq name (Req.runDeps deps) := notMissReq_runDeps name deps
      cases deps with
      | nil =>
        rw [step_runDeps_nil] at h
        simp only [Option.some.injEq, Prod.mk.injEq] at h
        obtain ⟨-, rfl⟩ := h
        exact scopedMissOutcome_idle name i _ st r hmiss hnot
      | cons dep rest =>
        rw [step_runDeps_cons] at h
        rcases bindOk_eq_some _ _ _ _ h with
          ⟨e, st1, hsub, hr, rfl⟩ | ⟨v, st1, hsub, hk⟩
        · have hIH := ih i (Req.getKey (Key.str dep)) st _ _ hi hmiss hnp
            (fun f hq => Req.noConfusion hq) hsub
          rw [hr]
          exact scopedMissOutcome_same name i _ _ st st' _ hIH hnot
        · have hIH := ih i (Req.getKey (Key.str dep)) st _ _ hi hmiss hnp
            (fun f hq => Req.noConfusion hq) hsub
          have hinv := step_inv reg none fuel i (Req.getKey (Key.str dep)) st _ _ hi hsub
          have hi1 : i < st1.scopes.length := by
            rw [hinv.scopesLen]
            exact hi
          have hnp1 : name ∉ pathOf st1 i := by
            rw [hinv.pathEq]
            exact hnp
          rcases hIH with ⟨h1, h2, h3⟩ | ⟨t, h1, h2, h3⟩ | ⟨h1, h2, h3⟩
          · have hIH2 := ih i (Req.runDeps rest) st1 _ _ hi1 h1 hnp1
              (fun f hq => Req.noConfusion hq) hk
            have hbase := scopedMissOutcome_base name i _ st st1 st' _ hIH2 h2
            exact scopedMissOutcome_same name i _ _ st st' _ hbase hnot
          · have hinv2 := step_inv reg none fuel i (Req.runDeps rest) st1 _ _ hi1 hk
            obtain ⟨hcnt, -, -⟩ := scoped_hit_stable reg name ⟨Lifetime.scoped, fac⟩
              hreg rfl hname fuel i (Req.runDeps rest) st1 r st' t hi1 h1 hnp1
              (fun f hq => Req.noConfusion hq) hk
            obtain ⟨ext, hext, -⟩ := hinv2.log
            have hcsc : countScope st' i name = countScope st1 i name :=
              countScope_stable _ _ i name ext hext hcnt
            exact Or.inr (Or.inl ⟨t, hinv2.scopedMono i name t h1, by rw [hcsc, h2],
              fun hm => absurd hm hnot⟩)
          · obtain ⟨e, he⟩ := h3
            exact Except.noConfusion he

/-- Resolving a transient `name` always invokes its factory exactly once
more, never stores anything under `name` in either cache, and, for an
object-allocating factory, returns a freshly allocated instance (its tag
is new: at least the pre-state allocation counter, and consumed by the
post-state counter). -/
theorem transient_resolve_master (reg : Registry) (name : String) (fac : Factory)
    (hreg : lookupKey reg name = some ⟨Lifetime.transient, fac⟩) :
    ∀ fuel i st r st', i < st.scopes.length →
      name ∉ pathOf st i →
      step reg none fuel i (Req.resolve name) st = some (r, st') →
      countCalls st' name = countCalls st name + 1 ∧
      mapGet st'.singletonCache name = mapGet st.singletonCache name ∧
      (∀ j, mapGet (scopedOf st' j) name = mapGet (scopedOf st j) name) ∧
      (∀ deps, fac = Factory.alloc deps →
        ∀ v, r = Except.ok v → ∃ t, v = Value.obj t ∧ st.fresh ≤ t ∧ t < st'.fresh) := by
  intro fuel i st r st' hi hnp h
  have hinv := step_inv reg none fuel i (Req.resolve name) st _ _ hi h
  have hnotsing : ∀ d, lookupKey reg name = some d → d.lifetime ≠ Lifetime.singleton := by
    intro d hd
    rw [hreg] at hd
    injection hd with hd2
    rw [← hd2]
    simp
  have hnotsc : ∀ d, lookupKey reg name = some d → d.lifetime ≠ Lifetime.scoped := by
    intro d hd
    rw [hreg] at hd
    injection hd with hd2
    rw [← hd2]
    simp
  cases fuel with
  | zero => simp [step] at h
  | succ fuel2 =>
    rw [step_resolve_transient reg none fuel2 i name st ⟨Lifetime.transient, fac⟩
      ((circularCheck_eq_none_iff _ _ _).mpr hnp) hreg rfl] at h
    cases fuel2 with
    | zero => simp [step, constructCont] at h
    | succ fuel3 =>
      have hiLP : i < (logCall (pushPath st i name) i name).scopes.length := by
        have hl : (logCall (pushPath st i name) i name).scopes.length = st.scopes.length :=
          scopes_length_pushPath st i name
        rw [hl]
        exact hi
      have hmemLP : name ∈ pathOf (logCall (pushPath st i name) i name) i := by
        have hp : pathOf (logCall (pushPath st i name) i name) i =
            pathOf (pushPath st i name) i := rfl
        rw [hp, pathOf_pushPath_self st i name hi]
        exact List.mem_append_right _ (List.mem_singleton.mpr rfl)
      rcases constructCont_eq_some _ _ _ _ _ h with
        ⟨e, st1, hsub, hr, rfl⟩ | ⟨v, st1, hsub, hr, rfl⟩
      · cases hfac : fac with
        | const v0 =>
          rw [hfac, step_runFac_const] at hsub
          simp at hsub
        | throws t =>
          rw [hfac, step_runFac_throws] at hsub
          simp only [Option.some.injEq, Prod.mk.injEq] at hsub
          obtain ⟨-, rfl⟩ := hsub
          refine ⟨?_, hinv.singleStable name hnotsing,
            fun j => hinv.scopedStable j name hnotsc, ?_⟩
          · rw [countCalls_popPath, countCalls_logCall, countCalls_pushPath]
            simp
          · intro deps hdeps v2 hv2
            rw [hr] at hv2
            exact Except.noConfusion hv2
        | alloc deps =>
          rw [hfac, step_runFac_alloc] at hsub
          rcases bindOk_eq_some _ _ _ _ hsub with
            ⟨e2, stD, hD, he2, rfl⟩ | ⟨v2, stD, hD, hk2⟩
          · obtain ⟨hcnt, -, -⟩ := onpath_no_invoke reg name fuel3 i (Req.runDeps deps)
              (logCall (pushPath st i name) i name) _ _ hiLP hmemLP
              (fun f hq => Req.noConfusion hq) hD
            refine ⟨?_, hinv.singleStable name hnotsing,
              fun j => hinv.scopedStable j name hnotsc, ?_⟩
            · rw [countCalls_popPath, hcnt, countCalls_logCall, countCalls_pushPath]
              simp
            · intro deps2 hdeps v3 hv3
              rw [hr] at hv3
              exact Except.noConfusion hv3
          · simp at hk2
      · cases hfac : fac with
        | const v0 =>
          rw [hfac, step_runFac_const] at hsub
          simp only [Option.some.injEq, Prod.mk.injEq] at hsub
          obtain ⟨hv, rfl⟩ := hsub
          refine ⟨?_, hinv.singleStable name hnotsing,
            fun j => hinv.scopedStable j name hnotsc, ?_⟩
          · rw [countCalls_popPath, countCalls_logCall, countCalls_pushPath]
            simp
          · intro deps hdeps
            exact Factory.noConfusion hdeps
        | throws t =>
          rw [hfac, step_runFac_throws] at hsub
          simp at hsub
        | alloc deps =>
          rw [hfac, step_runFac_alloc] at hsub
          rcases bindOk_eq_some _ _ _ _ hsub with
            ⟨e2, stD, hD, he2, rfl⟩ | ⟨v2, stD, hD, hk2⟩
          · exact absurd he2 (by simp)
          · simp only [Option.some.injEq, Prod.mk.injEq] at hk2
            obtain ⟨hv, rfl⟩ := hk2
            obtain ⟨hcnt, -, -⟩ := onpath_no_invoke reg name fuel3 i (Req.runDeps deps)
              (logCall (pushPath st i name) i name) _ _ hiLP hmemLP
              (fun f hq => Req.noConfusion hq) hD
            have hfr := (step_inv reg none fuel3 i (Req.runDeps deps)
              (logCall (pushPath st i name) i name) _ _ hiLP hD).freshLe
            refine ⟨?_, hinv.singleStable name hnotsing,
              fun j => hinv.scopedStable j name hnotsc, ?_⟩
            · rw [countCalls_popPath]
              have hc : countCalls { stD with fresh := stD.fresh + 1 } name =
                  countCalls stD name := rfl
              rw [hc, hcnt, countCalls_logCall, countCalls_pushPath]
              simp
            · intro deps2 hdeps v3 hv3
              injection hv with hv2
              rw [hr] at hv3
              injection hv3 with hv4
              refine ⟨stD.fresh, by rw [← hv4, ← hv2], hfr, Nat.lt_succ_self _⟩

theorem traceCont_eq_some (o : Option (Except JsErr Value × St))
    (k : St → Option (List (Except JsErr Value) × St))
    (rs : List (Except JsErr Value)) (stF : St)
    (h : traceCont o k = some (rs, stF)) :
    ∃ r st2 rs', o = some (r, st2) ∧ k st2 = some (rs', stF) ∧ rs = r :: rs' := by
  match o with
  | none => simp [traceCont] at h
  | some (r, st2) =>
    simp only [traceCont] at h
    cases hk : k st2 with
    | none =>
      rw [hk] at h
      simp at h
    | some q =>
      obtain ⟨rs', stF2⟩ := q
      rw [hk] at h
      simp only [Option.some.injEq, Prod.mk.injEq] at h
      obtain ⟨h1, rfl⟩ := h
      exact ⟨r, st2, rs', rfl, hk, h1.symm⟩

theorem runEv_access_inv (reg : Registry) (fuel i : Nat) (name : String) (st : St)
    (r : Except JsErr Value) (st2 : St)
    (h : runEv reg fuel (Ev.access i name) st = some (r, st2)) :
    i < st.scopes.length ∧ step reg none fuel i (Req.getKey (Key.str name)) st = some (r, st2) := by
  simp only [runEv] at h
  by_cases hi : i < st.scopes.length
  · rw [if_pos hi] at h
    exact ⟨hi, h⟩
  · rw [if_neg hi] at h
    exact absurd h (by simp)

theorem runEv_beginScope_inv (reg : Registry) (fuel : Nat) (st : St)
    (r : Except JsErr Value) (st2 : St)
    (h : runEv reg fuel Ev.beginScope st = some (r, st2)) :
    r = Except.ok Value.undef ∧ st2 = { st with scopes := st.scopes ++ [Scope.init] } := by
  simp only [runEv] at h
  simp only [Option.some.injEq, Prod.mk.injEq] at h
  exact ⟨h.1.symm, h.2.symm⟩

theorem listGet?_append_singleton {α : Type} (l : List α) (x : α) (j : Nat) :
    listGet? (l ++ [x]) j =
      if j < l.length then listGet? l j else if j = l.length then some x else none := by
  induction l generalizing j with
  | nil =>
    cases j with
    | zero => simp [listGet?]
    | succ j' => simp [listGet?]
  | cons y rest ih =>
    cases j with
    | zero => simp [listGet?]
    | succ j' =>
      simp only [List.cons_append, listGet?, List.length_cons, List.append_eq]
      rw [ih j']
      by_cases h1 : j' < rest.length
      · rw [if_pos h1, if_pos (Nat.succ_lt_succ h1)]
      · rw [if_neg h1]
        have h3 : ¬(j' + 1 < rest.length + 1) := by omega
        rw [if_neg h3]
        by_cases h2 : j' = rest.length
        · rw [if_pos h2, if_pos (by omega : j' + 1 = rest.length + 1)]
        · have h4 : ¬(j' + 1 = rest.length + 1) := by omega
          rw [if_neg h2, if_neg h4]

/-- A state whose resolution stacks are all empty keeps that property
across `beginScope`. -/
theorem pathOf_nil_beginScope (st : St) (hp : ∀ j, pathOf st j = []) :
    ∀ j, pathOf { st with scopes := st.scopes ++ [Scope.init] } j = [] := by
  intro j
  unfold pathOf
  simp only [listGet?_append_singleton]
  by_cases h1 : j < st.scopes.length
  · rw [if_pos h1]
    have := hp j
    unfold pathOf at this
    exact this
  · rw [if_neg h1]
    by_cases h2 : j = st.scopes.length
    · rw [if_pos h2]
      rfl
    · rw [if_neg h2]

/-- A state whose resolution stacks are all empty keeps that property
across any completed engine request. -/
theorem pathOf_nil_of_stepInv (reg : Registry) (i : Nat) (st st2 : St)
    (h : StepInv reg i st st2) (hp : ∀ j, pathOf st j = []) :
    ∀ j, pathOf st2 j = [] := by
  intro j
  by_cases hj : j = i
  · subst hj
    rw [h.pathEq]
    exact hp j
  · have h2 : pathOf st2 j = pathOf st j := by
      unfold pathOf
      rw [h.otherScopes j hj]
    rw [h2]
    exact hp j

/-- Trace induction for a singleton `name`: starting from a provider
state that has never constructed `name` (case one) the session
constructs it at most once, exactly once as soon as it is accessed, and
every access returns the instance that ends up in the cache; starting
from a state that already holds the one constructed instance (case two)
no further construction happens and every access returns that instance.
All access outcomes in the session are assumed successful. -/
theorem singleton_trace_aux (reg : Registry) (name : String) (fac : Factory)
    (hreg : lookupKey reg name = some ⟨Lifetime.singleton, fac⟩)
    (hdef : fac.returnsDefined = true) (hname : name ≠ "then") :
    ∀ trace fuel st rs stF,
      runTrace reg fuel trace st = some (rs, stF) →
      (∀ r ∈ rs, isOk r = true) →
      (∀ j, pathOf st j = []) →
      ((mapGet st.singletonCache name = Value.undef → countCalls st name = 0 →
        countCalls stF name ≤ 1 ∧
        ((∃ j, Ev.access j name ∈ trace) →
          countCalls stF name = 1 ∧ ∃ t, mapGet stF.singletonCache name = Value.obj t) ∧
        (∀ t, mapGet stF.singletonCache name = Value.obj t →
          ∀ p ∈ trace.zip rs, ∀ j, p.1 = Ev.access j name → p.2 = Except.ok (Value.obj t))) ∧
       (∀ t, mapGet st.singletonCache name = Value.obj t → countCalls st name = 1 →
        countCalls stF name = 1 ∧ mapGet stF.singletonCache name = Value.obj t ∧
        ∀ p ∈ trace.zip rs, ∀ j, p.1 = Ev.access j name → p.2 = Except.ok (Value.obj t))) := by
  intro trace
  induction trace with
  | nil =>
    intro fuel st rs stF hrun hok hp
    simp only [runTrace, Option.some.injEq, Prod.mk.injEq] at hrun
    obtain ⟨rfl, rfl⟩ := hrun
    constructor
    · intro hu hc
      refine ⟨by omega, ?_, ?_⟩
      · rintro ⟨j, hj⟩
        exact absurd hj (List.not_mem_nil _)
      · intro t ht
        rw [hu] at ht
        exact absurd ht (by simp)
    · intro t ht hc
      refine ⟨hc, ht, ?_⟩
      intro p hp2
      exact absurd hp2 (by simp)
  | cons ev rest ih =>
    intro fuel st rs stF hrun hok hp
    obtain ⟨r, st2, rs', hEv, hrest, rfl⟩ := traceCont_eq_some _ _ _ _ hrun
    have hok' : ∀ r2 ∈ rs', isOk r2 = true := fun r2 hr2 => hok r2 (List.mem_cons_of_mem _ hr2)
    have hokr : isOk r = true := hok r (List.mem_cons_self _ _)
    cases ev with
    | beginScope =>
      obtain ⟨rfl, rfl⟩ := runEv_beginScope_inv reg fuel st r st2 hEv
      have hp2 := pathOf_nil_beginScope st hp
      obtain ⟨ihA, ihB⟩ := ih fuel _ rs' stF hrest hok' hp2
      constructor
      · intro hu hc
        obtain ⟨c1, c2, c3⟩ := ihA hu hc
        refine ⟨c1, ?_, ?_⟩
        · rintro ⟨j, hj⟩
          rcases List.mem_cons.mp hj with hj1 | hj2
          · exact absurd hj1 (by simp)
          · exact c2 ⟨j, hj2⟩
        · intro t ht p hpz j hpj
          rw [List.zip_cons_cons] at hpz
          rcases List.mem_cons.mp hpz with hp1 | hp2z
          · rw [hp1] at hpj
            exact absurd hpj (by simp)
          · exact c3 t ht p hp2z j hpj
      · intro t ht hc
        obtain ⟨c1, c2, c3⟩ := ihB t ht hc
        refine ⟨c1, c2, ?_⟩
        intro p hpz j hpj
        rw [List.zip_cons_cons] at hpz
        rcases List.mem_cons.mp hpz with hp1 | hp2z
        · rw [hp1] at hpj
          exact absurd hpj (by simp)
        · exact c3 p hp2z j hpj
    | access iE nmE =>
      obtain ⟨hiE, hstep⟩ := runEv_access_inv reg fuel iE nmE st r st2 hEv
      have hinv := step_inv reg none fuel iE (Req.getKey (Key.str nmE)) st _ _ hiE hstep
      have hp2 := pathOf_nil_of_stepInv reg iE st st2 hinv hp
      have hnpE : name ∉ pathOf st iE := by
        rw [hp iE]
        exact List.not_mem_nil _
      obtain ⟨ihA, ihB⟩ := ih fuel st2 rs' stF hrest hok' hp2
      constructor
      · intro hu hc
        have hmm := singleton_miss_master reg name fac hreg hdef hname fuel iE
          (Req.getKey (Key.str nmE)) st r st2 hiE hu hnpE
          (fun f hq => Req.noConfusion hq) hstep
        rcases hmm with ⟨hm1, hm2, hm3⟩ | ⟨t, hm1, hm2, hm3⟩ | ⟨hm1, hm2, hm3⟩
        · have hnE : nmE ≠ name := by
            intro he
            obtain ⟨e, he2⟩ := hm3 (Or.inr (by rw [he]))
            rw [he2] at hokr
            simp [isOk] at hokr
          obtain ⟨c1, c2, c3⟩ := ihA hm1 (by rw [hm2, hc])
          refine ⟨c1, ?_, ?_⟩
          · rintro ⟨j, hj⟩
            rcases List.mem_cons.mp hj with hj1 | hj2
            · injection hj1 with hj3 hj4
              exact absurd hj4.symm hnE
            · exact c2 ⟨j, hj2⟩
          · intro t ht p hpz j hpj
            rw [List.zip_cons_cons] at hpz
            rcases List.mem_cons.mp hpz with hp1 | hp2z
            · rw [hp1] at hpj
              injection hpj with hj3 hj4
              exact absurd hj4 hnE
            · exact c3 t ht p hp2z j hpj
        · obtain ⟨c1, c2, c3⟩ := ihB t hm1 (by rw [hm2, hc])
          refine ⟨by omega, fun _ => ⟨c1, t, c2⟩, ?_⟩
          intro t2 ht2 p hpz j hpj
          have ht2t : t2 = t := by
            rw [c2] at ht2
            injection ht2 with ht3
            exact ht3.symm
          subst ht2t
          rw [List.zip_cons_cons] at hpz
          rcases List.mem_cons.mp hpz with hp1 | hp2z
          · rw [hp1] at hpj
            injection hpj with hj3 hj4
            rw [hp1]
            exact hm3 (Or.inr (by rw [hj4]))
          · exact c3 p hp2z j hpj
        · obtain ⟨e, he⟩ := hm3
          rw [he] at hokr
          simp [isOk] at hokr
      · intro t ht hc
        obtain ⟨hs1, -, hs3⟩ := singleton_hit_stable reg name ⟨Lifetime.singleton, fac⟩ hreg rfl
          hname fuel iE (Req.getKey (Key.str nmE)) st r st2 t hiE ht hnpE
          (fun f hq => Req.noConfusion hq) hstep
        have hcache2 : mapGet st2.singletonCache name = Value.obj t :=
          hinv.singleMono name t ht
        obtain ⟨c1, c2, c3⟩ := ihB t hcache2 (by rw [hs1, hc])
        refine ⟨c1, c2, ?_⟩
        intro p hpz j hpj
        rw [List.zip_cons_cons] at hpz
        rcases List.mem_cons.mp hpz with hp1 | hp2z
        · rw [hp1] at hpj
          injection hpj with hj3 hj4
          rw [hp1]
          exact hs3 (by rw [hj4])
        · exact c3 p hp2z j hpj

theorem listGet?_none_of_ge {α : Type} (l : List α) (j : Nat) (h : ¬ j < l.length) :
    listGet? l j = none := by
  induction l generalizing j with
  | nil => cases j <;> rfl
  | cons x rest ih =>
    cases j with
    | zero => simp at h
    | succ j' =>
      simp only [listGet?]
      exact ih j' (by simp at h; omega)

theorem scopedOf_beginScope (st : St) (j : Nat) :
    scopedOf { st with scopes := st.scopes ++ [Scope.init] } j = scopedOf st j := by
  unfold scopedOf
  simp only [listGet?_append_singleton]
  by_cases h1 : j < st.scopes.length
  · rw [if_pos h1]
  · rw [if_neg h1, listGet?_none_of_ge st.scopes j h1]
    by_cases h3 : j = st.scopes.length
    · rw [if_pos h3]
      rfl
    · rw [if_neg h3]

theorem scopedOf_of_stepInv (reg : Registry) (i : Nat) (st st2 : St)
    (h : StepInv reg i st st2) (j : Nat) (hj : j ≠ i) :
    scopedOf st2 j = scopedOf st j := by
  unfold scopedOf
  rw [h.otherScopes j hj]

theorem countScope_other (st st2 : St) (iE j : Nat) (name : String)
    (hne : j ≠ iE)
    (ext : List (Nat × String)) (hext : st2.callLog = st.callLog ++ ext)
    (hall : ∀ p ∈ ext, p.1 = iE) :
    countScope st2 j name = countScope st j name := by
  unfold countScope
  rw [hext, List.filter_append, List.length_append]
  have hz : (ext.filter (fun q => decide (q = (j, name)))).length = 0 := by
    rw [List.length_eq_zero, List.filter_eq_nil]
    intro a ha hpa
    have h1 := hall a ha
    have h2 : a = (j, name) := of_decide_eq_true hpa
    rw [h2] at h1
    exact hne h1
  omega

/-- Trace induction for a scoped `name`, observed on one fixed scope
index: starting with that scope's cache empty, the session constructs
`name` on that scope at most once, exactly once as soon as that scope
accesses it, and all its accesses return the instance that scope ends up
caching; starting with the instance already cached, no further
construction happens there. -/
theorem scoped_trace_aux (reg : Registry) (name : String) (fac : Factory)
    (hreg : lookupKey reg name = some ⟨Lifetime.scoped, fac⟩)
    (hdef : fac.returnsDefined = true) (hname : name ≠ "then") (J : Nat) :
    ∀ trace fuel st rs stF,
      runTrace reg fuel trace st = some (rs, stF) →
      (∀ r ∈ rs, isOk r = true) →
      (∀ j, pathOf st j = []) →
      ((mapGet (scopedOf st J) name = Value.undef → countScope st J name = 0 →
        countScope stF J name ≤ 1 ∧
        ((Ev.access J name ∈ trace) →
          countScope stF J name = 1 ∧ ∃ t, mapGet (scopedOf stF J) name = Value.obj t) ∧
        (∀ t, mapGet (scopedOf stF J) name = Value.obj t →
          ∀ p ∈ trace.zip rs, p.1 = Ev.access J name → p.2 = Except.ok (Value.obj t))) ∧
       (∀ t, mapGet (scopedOf st J) name = Value.obj t → countScope st J name = 1 →
        countScope stF J name = 1 ∧ mapGet (scopedOf stF J) name = Value.obj t ∧
        ∀ p ∈ trace.zip rs, p.1 = Ev.access J name → p.2 = Except.ok (Value.obj t))) := by
  intro trace
  induction trace with
  | nil =>
    intro fuel st rs stF hrun hok hp
    simp only [runTrace, Option.some.injEq, Prod.mk.injEq] at hrun
    obtain ⟨rfl, rfl⟩ := hrun
    constructor
    · intro hu hc
      refine ⟨by omega, ?_, ?_⟩
      · intro hj
        exact absurd hj (List.not_mem_nil _)
      · intro t ht
        rw [hu] at ht
        exact absurd ht (by simp)
    · intro t ht hc
      refine ⟨hc, ht, ?_⟩
      intro p hp2
      exact absurd hp2 (by simp)
  | cons ev rest ih =>
    intro fuel st rs stF hrun hok hp
    obtain ⟨r, st2, rs', hEv, hrest, rfl⟩ := traceCont_eq_some _ _ _ _ hrun
    have hok' : ∀ r2 ∈ rs', isOk r2 = true := fun r2 hr2 => hok r2 (List.mem_cons_of_mem _ hr2)
    have hokr : isOk r = true := hok r (List.mem_cons_self _ _)
    cases ev with
    | beginScope =>
      obtain ⟨rfl, rfl⟩ := runEv_beginScope_inv reg fuel st r st2 hEv
      have hp2 := pathOf_nil_beginScope st hp
      obtain ⟨ihA, ihB⟩ := ih fuel _ rs' stF hrest hok' hp2
      have hsc := scopedOf_beginScope st J
      have hcs : countScope { st with scopes := st.scopes ++ [Scope.init] } J name =
          countScope st J name := rfl
      constructor
      · intro hu hc
        obtain ⟨c1, c2, c3⟩ := ihA (by rw [hsc]; exact hu) (by rw [hcs]; exact hc)
        refine ⟨c1, ?_, ?_⟩
        · intro hj
          rcases List.mem_cons.mp hj with hj1 | hj2
          · exact absurd hj1 (by simp)
          · exact c2 hj2
        · intro t ht p hpz hpj
          rw [List.zip_cons_cons] at hpz
          rcases List.mem_cons.mp hpz with hp1 | hp2z
          · rw [hp1] at hpj
            exact absurd hpj (by simp)
          · exact c3 t ht p hp2z hpj
      · intro t ht hc
        obtain ⟨c1, c2, c3⟩ := ihB t (by rw [hsc]; exact ht) (by rw [hcs]; exact hc)
        refine ⟨c1, c2, ?_⟩
        intro p hpz hpj
        rw [List.zip_cons_cons] at hpz
        rcases List.mem_cons.mp hpz with hp1 | hp2z
        · rw [hp1] at hpj
          exact absurd hpj (by simp)
        · exact c3 p hp2z hpj
    | access iE nmE =>
      obtain ⟨hiE, hstep⟩ := runEv_access_inv reg fuel iE nmE st r st2 hEv
      have hinv := step_inv reg none fuel iE (Req.getKey (Key.str nmE)) st _ _ hiE hstep
      have hp2 := pathOf_nil_of_stepInv reg iE st st2 hinv hp
      obtain ⟨ihA, ihB⟩ := ih fuel st2 rs' stF hrest hok' hp2
      by_cases hJE : iE = J
      · subst hJE
        have hnpE : name ∉ pathOf st iE := by
          rw [hp iE]
          exact List.not_mem_nil _
        constructor
        · intro hu hc
          have hmm := scoped_miss_master reg name fac hreg hdef hname fuel iE
            (Req.getKey (Key.str nmE)) st r st2 hiE hu hnpE
            (fun f hq => Req.noConfusion hq) hstep
          rcases hmm with ⟨hm1, hm2, hm3⟩ | ⟨t, hm1, hm2, hm3⟩ | ⟨hm1, hm2, hm3⟩
          · have hnE : nmE ≠ name := by
              intro he
              obtain ⟨e, he2⟩ := hm3 (Or.inr (by rw [he]))
              rw [he2] at hokr
              simp [isOk] at hokr
            obtain ⟨c1, c2, c3⟩ := ihA hm1 (by rw [hm2, hc])
            refine ⟨c1, ?_, ?_⟩
            · intro hj
              rcases List.mem_cons.mp hj with hj1 | hj2
              · injection hj1 with hj3 hj4
                exact absurd hj4.symm hnE
              · exact c2 hj2
            · intro t ht p hpz hpj
              rw [List.zip_cons_cons] at hpz
              rcases List.mem_cons.mp hpz with hp1 | hp2z
              · rw [hp1] at hpj
                injection hpj with hj3 hj4
                exact absurd hj4 hnE
              · exact c3 t ht p hp2z hpj
          · obtain ⟨c1, c2, c3⟩ := ihB t hm1 (by rw [hm2, hc])
            refine ⟨by omega, fun _ => ⟨c1, t, c2⟩, ?_⟩
            intro t2 ht2 p hpz hpj
            have ht2t : t2 = t := by
              rw [c2] at ht2
              injection ht2 with ht3
              exact ht3.symm
            subst ht2t
            rw [List.zip_cons_cons] at hpz
            rcases List.mem_cons.mp hpz with hp1 | hp2z
            · rw [hp1] at hpj
              injection hpj with hj3 hj4
              rw [hp1]
              exact hm3 (Or.inr (by rw [hj4]))
            · exact c3 p hp2z hpj
          · obtain ⟨e, he⟩ := hm3
            rw [he] at hokr
            simp [isOk] at hokr
        · intro t ht hc
          obtain ⟨hs1, -, hs3⟩ := scoped_hit_stable reg name ⟨Lifetime.scoped, fac⟩ hreg rfl
            hname fuel iE (Req.getKey (Key.str nmE)) st r st2 t hiE ht hnpE
            (fun f hq => Req.noConfusion hq) hstep
          have hcache2 : mapGet (scopedOf st2 iE) name = Value.obj t :=
            hinv.scopedMono iE name t ht
          obtain ⟨ext, hext, -⟩ := hinv.log
          have hcs2 : countScope st2 iE name = countScope st iE name :=
            countScope_stable st st2 iE name ext hext hs1
          obtain ⟨c1, c2, c3⟩ := ihB t hcache2 (by rw [hcs2, hc])
          refine ⟨c1, c2, ?_⟩
          intro p hpz hpj
          rw [List.zip_cons_cons] at hpz
          rcases List.mem_cons.mp hpz with hp1 | hp2z
          · rw [hp1] at hpj
            injection hpj with hj3 hj4
            rw [hp1]
            exact hs3 (by rw [hj4])
          · exact c3 p hp2z hpj
      · have hJE2 : J ≠ iE := fun he => hJE he.symm
        have hsc2 : scopedOf st2 J = scopedOf st J := scopedOf_of_stepInv reg iE st st2 hinv J hJE2
        obtain ⟨ext, hext, hall⟩ := hinv.log
        have hcs2 : countScope st2 J name = countScope st J name :=
          countScope_other st st2 iE J name hJE2 ext hext hall
        constructor
        · intro hu hc
          obtain ⟨c1, c2, c3⟩ := ihA (by rw [hsc2]; exact hu) (by rw [hcs2, hc])
          refine ⟨c1, ?_, ?_⟩
          · intro hj
            rcases List.mem_cons.mp hj with hj1 | hj2
            · injection hj1 with hj3 hj4
              exact absurd hj3.symm hJE
            · exact c2 hj2
          · intro t ht p hpz hpj
            rw [List.zip_cons_cons] at hpz
            rcases List.mem_cons.mp hpz with hp1 | hp2z
            · rw [hp1] at hpj
              injection hpj with hj3 hj4
              exact absurd hj3 hJE
            · exact c3 t ht p hp2z hpj
        · intro t ht hc
          obtain ⟨c1, c2, c3⟩ := ihB t (by rw [hsc2]; exact ht) (by rw [hcs2]; exact hc)
          refine ⟨c1, c2, ?_⟩
          intro p hpz hpj
          rw [List.zip_cons_cons] at hpz
          rcases List.mem_cons.mp hpz with hp1 | hp2z
          · rw [hp1] at hpj
            injection hpj with hj3 hj4
            exact absurd hj3 hJE
          · exact c3 p hp2z hpj

/-! Helpers for the circular-reference message, the stack discipline of a
throwing factory, and singleton-cache stability across whole sessions. -/

theorem listGet?_mem {α : Type} (l : List α) (k : Nat) (x : α)
    (h : listGet? l k = some x) : x ∈ l := by
  induction l generalizing k with
  | nil => cases k <;> exact Option.noConfusion h
  | cons p rest ih =>
    cases k with
    | zero =>
      simp only [listGet?, Option.some.injEq] at h
      rw [← h]
      exact List.mem_cons_self _ _
    | succ k2 => exact List.mem_cons_of_mem _ (ih k2 h)

theorem listGet?_lt_length {α : Type} (l : List α) (k : Nat) (x : α)
    (h : listGet? l k = some x) : k < l.length := by
  induction l generalizing k with
  | nil => cases k <;> exact Option.noConfusion h
  | cons p rest ih =>
    cases k with
    | zero => simp
    | succ k2 =>
      have := ih k2 h
      simp only [List.length_cons]
      omega

/-- The index `lastIndexOf` returns is an occurrence of the name. -/
theorem lastIdxOf_get (l : List String) (name : String) (k : Nat)
    (h : lastIdxOf l name = some k) : listGet? l k = some name := by
  induction l generalizing k with
  | nil => exact Option.noConfusion h
  | cons p rest ih =>
    simp only [lastIdxOf] at h
    cases hrest : lastIdxOf rest name with
    | some i =>
      rw [hrest] at h
      injection h with h2
      rw [← h2]
      exact ih i hrest
    | none =>
      rw [hrest] at h
      by_cases hp : p = name
      · rw [if_pos hp] at h
        injection h with h2
        rw [← h2, hp]
        rfl
      · rw [if_neg hp] at h
        exact Option.noConfusion h

/-- The index `lastIndexOf` returns is the most recent occurrence: no
later stack entry holds the name. -/
theorem lastIdxOf_maximal (l : List String) (name : String) (k : Nat)
    (h : lastIdxOf l name = some k) :
    ∀ k2, k < k2 → listGet? l k2 ≠ some name := by
  induction l generalizing k with
  | nil =>
    intro k2 hk hc
    cases k2 <;> exact Option.noConfusion hc
  | cons p rest ih =>
    simp only [lastIdxOf] at h
    intro k2 hk hc
    cases hrest : lastIdxOf rest name with
    | some i =>
      rw [hrest] at h
      injection h with h2
      cases k2 with
      | zero => omega
      | succ k3 =>
        have hk3 : i < k3 := by omega
        exact ih i hrest k3 hk3 hc
    | none =>
      have hnm : name ∉ rest := (lastIdxOf_eq_none_iff rest name).mp hrest
      cases k2 with
      | zero => omega
      | succ k3 => exact hnm (listGet?_mem rest k3 name hc)

/-- The bracket-marking renderer splits around the marked occurrence:
everything before the marked index, the bracketed name, the arrow, then
everything after it. -/
theorem markJoin_decomp (l : List String) (k : Nat) (name : String)
    (h : listGet? l k = some name) :
    markJoin l k =
      joinArrow (l.take k) ++ "[" ++ name ++ "]" ++ " -> " ++ joinArrow (l.drop (k + 1)) := by
  induction l generalizing k with
  | nil => cases k <;> exact Option.noConfusion h
  | cons p rest ih =>
    cases k with
    | zero =>
      simp only [listGet?, Option.some.injEq] at h
      subst h
      simp only [List.take_zero, List.drop_succ_cons, List.drop_zero]
      have h0 : markJoin (p :: rest) 0 = "[" ++ p ++ "]" ++ " -> " ++ joinArrow rest := rfl
      rw [h0]
      have he : joinArrow [] = "" := rfl
      rw [he]
      simp [String.append_assoc]
    | succ k2 =>
      have hstep : markJoin (p :: rest) (k2 + 1) = p ++ " -> " ++ markJoin rest k2 := rfl
      have hj : joinArrow (p :: rest.take k2) = p ++ " -> " ++ joinArrow (rest.take k2) := rfl
      rw [hstep, ih k2 h, List.take_succ_cons, List.drop_succ_cons, hj]
      simp [String.append_assoc]

theorem modifyAt_modifyAt {α : Type} (l : List α) (i : Nat) (f g : α → α) :
    modifyAt (modifyAt l i f) i g = modifyAt l i (fun a => g (f a)) := by
  induction l generalizing i with
  | nil => cases i <;> rfl
  | cons x rest ih =>
    cases i with
    | zero => rfl
    | succ i2 =>
      simp only [modifyAt]
      rw [ih]

theorem modifyAt_congr_id {α : Type} (l : List α) (i : Nat) (f : α → α)
    (hf : ∀ a, f a = a) : modifyAt l i f = l := by
  induction l generalizing i with
  | nil => cases i <;> rfl
  | cons x rest ih =>
    cases i with
    | zero =>
      simp only [modifyAt]
      rw [hf]
    | succ i2 =>
      simp only [modifyAt]
      rw [ih]

/-- The `finally`-pop exactly cancels the push surrounding a factory
invocation: what remains of push, invoke-and-log, pop is just the log
entry. -/
theorem popPath_logCall_pushPath (st : St) (i : Nat) (name : String) :
    popPath (logCall (pushPath st i name) i name) i = logCall st i name := by
  have h1 : popPath (logCall (pushPath st i name) i name) i =
      ⟨st.singletonCache,
        modifyAt (modifyAt st.scopes i
            (fun sc => { sc with path := sc.path ++ [name] })) i
          (fun sc => { sc with path := sc.path.dropLast }),
        st.callLog ++ [(i, name)], st.fresh⟩ := rfl
  have h2 : logCall st i name =
      ⟨st.singletonCache, st.scopes, st.callLog ++ [(i, name)], st.fresh⟩ := rfl
  rw [h1, h2, modifyAt_modifyAt, modifyAt_congr_id]
  intro sc
  cases sc with
  | mk c p lb => simp [List.dropLast_concat]

/-- Across a whole session, the provider singleton cache is never
written at a name not registered as a singleton. -/
theorem runTrace_singleStable (reg : Registry) (name : String)
    (hsc : ∀ d, lookupKey reg name = some d → d.lifetime ≠ Lifetime.singleton) :
    ∀ trace fuel st rs stF, runTrace reg fuel trace st = some (rs, stF) →
      mapGet stF.singletonCache name = mapGet st.singletonCache name := by
  intro trace
  induction trace with
  | nil =>
    intro fuel st rs stF h
    simp only [runTrace, Option.some.injEq, Prod.mk.injEq] at h
    obtain ⟨-, rfl⟩ := h
    rfl
  | cons ev rest ih =>
    intro fuel st rs stF h
    obtain ⟨r, st2, rs2, hEv, hrest, rfl⟩ := traceCont_eq_some _ _ _ _ h
    have h2 := ih fuel st2 rs2 stF hrest
    cases ev with
    | beginScope =>
      obtain ⟨rfl, rfl⟩ := runEv_beginScope_inv reg fuel st r st2 hEv
      rw [h2]
    | access j nm =>
      obtain ⟨hj, hstep⟩ := runEv_access_inv reg fuel j nm st r st2 hEv
      have hinv := step_inv reg none fuel j _ st r st2 hj hstep
      rw [h2, hinv.singleStable name hsc]

/-! The claims. -/

/-- Claim C1 counterexample: the lifetime-escalation walk runs only on a
scoped cache miss, so a transient constructed while a singleton is on
the resolution stack is NOT rejected: resolving the singleton `"s"`,
whose factory reads the transient `"t"`, succeeds, invokes both
factories, and returns the constructed instance instead of any
`ResolveError`. -/
theorem transient_under_singleton_allowed :
    lookupKey regSingletonOverTransient "t" =
      some ⟨Lifetime.transient, Factory.alloc []⟩ ∧
    step regSingletonOverTransient none 20 0 (Req.getKey (Key.str "s")) oneScopeSt =
      some (Except.ok (Value.obj 1),
        ⟨[("s", Value.obj 1)], [Scope.init], [(0, "s"), (0, "t")], 2⟩) ∧
    countCalls ⟨[("s", Value.obj 1)], [Scope.init], [(0, "s"), (0, "t")], 2⟩ "t" = 1 :=
  ⟨rfl, rfl, rfl⟩

/-- Claim C1 (amended): the lifetime-escalation walk guards only the
scoped cache-miss branch.  Resolving a scoped name whose scope cache
misses, while any entry of the resolution stack is a registered
singleton, fails with a `ResolveError` carrying the lifetime message and
leaves the state unchanged — no factory runs. -/
theorem lifetime_escalation_scoped_only (reg : Registry) (ex : Exotic) (fuel i : Nat)
    (name : String) (st : St) (fac : Factory)
    (hreg : lookupKey reg name = some ⟨Lifetime.scoped, fac⟩)
    (hmiss : mapGet (scopedOf st i) name = Value.undef)
    (hnp : name ∉ pathOf st i)
    (hpath : ∀ p ∈ pathOf st i, (lookupKey reg p).isSome = true)
    (hsing : ∃ p ∈ pathOf st i, ∃ d, lookupKey reg p = some d ∧
      d.lifetime = Lifetime.singleton) :
    ∃ k, step reg ex (fuel + 1) i (Req.resolve name) st =
      some (Except.error (JsErr.resolveError
        (lifetimeMessage (labelOf st i) (pathOf st i) k name)), st) := by
  obtain ⟨k, hk⟩ := lifetimeCheck_fires reg (labelOf st i) (pathOf st i) name hpath hsing
  refine ⟨k, ?_⟩
  exact step_resolve_scoped_lterr reg ex fuel i name st ⟨Lifetime.scoped, fac⟩ _
    ((circularCheck_eq_none_iff _ _ _).mpr hnp) hreg rfl hmiss hk

/-- Concrete instance of `lifetime_escalation_scoped_only`: resolving
the scoped `"p"` while the singleton `"s"` is being constructed fails
with the lifetime `ResolveError`. -/
theorem lifetime_escalation_scoped_only_witness :
    ∃ k, step regSingletonOverScoped none 5 0 (Req.resolve "p") midResolveSt =
      some (Except.error (JsErr.resolveError
        (lifetimeMessage (labelOf midResolveSt 0) (pathOf midResolveSt 0) k "p")),
        midResolveSt) :=
  lifetime_escalation_scoped_only regSingletonOverScoped none 4 0 "p" midResolveSt
    (Factory.alloc []) rfl rfl (by decide) (by decide)
    ⟨"s", by decide, ⟨Lifetime.singleton, Factory.alloc ["p"]⟩, rfl, rfl⟩

/-- Claim C2 counterexample: a singleton factory that returns
`undefined` is re-invoked on a later access of the same name — the cache
probe cannot tell the stored `undefined` from a miss — so the factory
runs twice even though the claim promises exactly once. -/
theorem singleton_undef_factory_reinvoked :
    lookupKey regUndefSingleton "a" =
      some ⟨Lifetime.singleton, Factory.const Value.undef⟩ ∧
    runTrace regUndefSingleton 20 [Ev.beginScope, Ev.access 0 "a", Ev.access 0 "a"] St.init =
      some ([Except.ok Value.undef, Except.ok Value.undef, Except.ok Value.undef],
        ⟨[("a", Value.undef)], [Scope.init], [(0, "a"), (0, "a")], 0⟩) ∧
    countCalls ⟨[("a", Value.undef)], [Scope.init], [(0, "a"), (0, "a")], 0⟩ "a" = 2 :=
  ⟨rfl, rfl, rfl⟩

/-- Claim C2 (amended): for a singleton name, not reserved, whose
factory returns a defined instance, any successful provider session —
any number of scopes and accesses — invokes the factory at most once in
total, exactly once as soon as some scope accesses the name; the
instance is cached in the provider cache and every access of the name
returns it. -/
theorem singleton_unique_trace (reg : Registry) (name : String) (fac : Factory)
    (trace : List Ev) (fuel : Nat) (rs : List (Except JsErr Value)) (stF : St)
    (hreg : lookupKey reg name = some ⟨Lifetime.singleton, fac⟩)
    (hdef : fac.returnsDefined = true) (hname : name ≠ "then")
    (hrun : runTrace reg fuel trace St.init = some (rs, stF))
    (hok : ∀ r ∈ rs, isOk r = true) :
    countCalls stF name ≤ 1 ∧
    ((∃ j, Ev.access j name ∈ trace) →
      countCalls stF name = 1 ∧ ∃ t, mapGet stF.singletonCache name = Value.obj t) ∧
    (∀ t, mapGet stF.singletonCache name = Value.obj t →
      ∀ p ∈ trace.zip rs, ∀ j, p.1 = Ev.access j name → p.2 = Except.ok (Value.obj t)) := by
  have h := (singleton_trace_aux reg name fac hreg hdef hname trace fuel St.init rs stF hrun
    hok (fun j => by cases j <;> rfl)).1
  exact h rfl rfl

/-- Concrete instance of `singleton_unique_trace`: two scopes, three
accesses of the singleton `"w"`, one invocation, every access returning
the one cached instance. -/
theorem singleton_unique_trace_witness :
    countCalls ⟨[("w", Value.obj 0)], [Scope.init, Scope.init], [(0, "w")], 1⟩ "w" ≤ 1 ∧
    ((∃ j, Ev.access j "w" ∈
        [Ev.beginScope, Ev.access 0 "w", Ev.access 0 "w", Ev.beginScope, Ev.access 1 "w"]) →
      countCalls ⟨[("w", Value.obj 0)], [Scope.init, Scope.init], [(0, "w")], 1⟩ "w" = 1 ∧
      ∃ t, mapGet (St.mk [("w", Value.obj 0)] [Scope.init, Scope.init] [(0, "w")] 1).singletonCache
        "w" = Value.obj t) ∧
    (∀ t, mapGet (St.mk [("w", Value.obj 0)] [Scope.init, Scope.init] [(0, "w")] 1).singletonCache
        "w" = Value.obj t →
      ∀ p ∈ List.zip
        [Ev.beginScope, Ev.access 0 "w", Ev.access 0 "w", Ev.beginScope, Ev.access 1 "w"]
        ([Except.ok Value.undef, Except.ok (Value.obj 0), Except.ok (Value.obj 0),
          Except.ok Value.undef, Except.ok (Value.obj 0)] : List (Except JsErr Value)),
        ∀ j, p.1 = Ev.access j "w" → p.2 = Except.ok (Value.obj t)) :=
  singleton_unique_trace regOneSingleton "w" (Factory.alloc [])
    [Ev.beginScope, Ev.access 0 "w", Ev.access 0 "w", Ev.beginScope, Ev.access 1 "w"] 20
    ([Except.ok Value.undef, Except.ok (Value.obj 0), Except.ok (Value.obj 0),
      Except.ok Value.undef, Except.ok (Value.obj 0)] : List (Except JsErr Value))
    ⟨[("w", Value.obj 0)], [Scope.init, Scope.init], [(0, "w")], 1⟩
    rfl rfl (by decide) rfl (by decide)

/-- Claim C3: a resolution request for a name already on the scope's
resolution stack fails immediately with a `ResolveError`, leaving the
state unchanged; the marked index is the most recent prior occurrence of
the name, and the message renders the full path with that occurrence and
the newly requested one both bracket-marked.  Concretely, the cycle
`a -> b -> a` fails on the first access with exactly that message, the
stack is empty afterwards, and an unrelated resolution then succeeds. -/
theorem circular_detection (reg : Registry) (ex : Exotic) (fuel i k : Nat)
    (name : String) (st : St)
    (hk : lastIdxOf (pathOf st i) name = some k) :
    step reg ex (fuel + 1) i (Req.resolve name) st =
      some (Except.error (JsErr.resolveError
        (circularMessage (labelOf st i) (pathOf st i) k name)), st) ∧
    listGet? (pathOf st i) k = some name ∧
    (∀ k2, k < k2 → listGet? (pathOf st i) k2 ≠ some name) ∧
    circularMessage (labelOf st i) (pathOf st i) k name =
      (if labelOf st i = ScopeLabel.nullv then "/(unnamed)/ "
        else "/" ++ (labelOf st i).interp ++ "/ ") ++
        "Invalid service resolution" ++ ": " ++
        joinArrow ((pathOf st i).take k) ++ "[" ++ name ++ "]" ++ " -> " ++
        joinArrow ((pathOf st i).drop (k + 1)) ++ "[" ++ name ++ "]" ∧
    runTrace regCycle 20 [Ev.beginScope, Ev.access 0 "a", Ev.access 0 "c"] St.init =
      some ([Except.ok Value.undef,
        Except.error (JsErr.resolveError
          "/(unnamed)/ Invalid service resolution: [a] -> b -> [a]"),
        Except.ok (Value.obj 0)],
        ⟨[("c", Value.obj 0)], [Scope.init], [(0, "a"), (0, "b"), (0, "c")], 1⟩) ∧
    pathOf ⟨[("c", Value.obj 0)], [Scope.init], [(0, "a"), (0, "b"), (0, "c")], 1⟩ 0 = [] := by
  have hget := lastIdxOf_get _ _ _ hk
  have hcc : circularCheck (labelOf st i) (pathOf st i) name =
      some (JsErr.resolveError (circularMessage (labelOf st i) (pathOf st i) k name)) := by
    unfold circularCheck
    rw [hk]
  refine ⟨step_resolve_circular reg ex fuel i name st _ hcc, hget,
    lastIdxOf_maximal _ _ _ hk, ?_, rfl, rfl⟩
  unfold circularMessage
  rw [markJoin_decomp _ _ _ hget]
  simp [String.append_assoc]

/-- Concrete instance of `circular_detection`: requesting `"y"` while
the stack holds `x -> y` fails immediately with the doubly marked
message and no state change. -/
theorem circular_detection_witness :
    step ([] : Registry) none 5 0 (Req.resolve "y") twoPathSt =
      some (Except.error (JsErr.resolveError
        (circularMessage (labelOf twoPathSt 0) (pathOf twoPathSt 0) 1 "y")), twoPathSt) ∧
    listGet? (pathOf twoPathSt 0) 1 = some "y" ∧
    (∀ k2, 1 < k2 → listGet? (pathOf twoPathSt 0) k2 ≠ some "y") ∧
    circularMessage (labelOf twoPathSt 0) (pathOf twoPathSt 0) 1 "y" =
      (if labelOf twoPathSt 0 = ScopeLabel.nullv then "/(unnamed)/ "
        else "/" ++ (labelOf twoPathSt 0).interp ++ "/ ") ++
        "Invalid service resolution" ++ ": " ++
        joinArrow ((pathOf twoPathSt 0).take 1) ++ "[" ++ "y" ++ "]" ++ " -> " ++
        joinArrow ((pathOf twoPathSt 0).drop 2) ++ "[" ++ "y" ++ "]" ∧
    runTrace regCycle 20 [Ev.beginScope, Ev.access 0 "a", Ev.access 0 "c"] St.init =
      some ([Except.ok Value.undef,
        Except.error (JsErr.resolveError
          "/(unnamed)/ Invalid service resolution: [a] -> b -> [a]"),
        Except.ok (Value.obj 0)],
        ⟨[("c", Value.obj 0)], [Scope.init], [(0, "a"), (0, "b"), (0, "c")], 1⟩) ∧
    pathOf ⟨[("c", Value.obj 0)], [Scope.init], [(0, "a"), (0, "b"), (0, "c")], 1⟩ 0 = [] :=
  circular_detection [] none 4 0 1 "y" twoPathSt rfl

/-- Claim C4: a user factory that throws has its exception propagate
unchanged (a `userError`, never wrapped into a `ResolveError`), while
the `finally` pop rebalances the stack: the access's only net state
change is the invocation-log entry, the path is exactly as before, and
an immediate second access of the same name reaches the factory again —
throwing the same user error rather than being falsely flagged as
circular. -/
theorem factory_throw_propagates (reg : Registry) (fuel i : Nat) (name : String)
    (st : St) (lt : Lifetime) (t : Nat)
    (hreg : lookupKey reg name = some ⟨lt, Factory.throws t⟩)
    (hthen : name ≠ "then")
    (hpath : pathOf st i = [])
    (hmiss1 : mapGet st.singletonCache name = Value.undef)
    (hmiss2 : mapGet (scopedOf st i) name = Value.undef) :
    step reg none (fuel + 3) i (Req.getKey (Key.str name)) st =
      some (Except.error (JsErr.userError t), logCall st i name) ∧
    pathOf (logCall st i name) i = pathOf st i ∧
    (∀ m, (JsErr.userError t : JsErr) ≠ JsErr.resolveError m) ∧
    step reg none (fuel + 3) i (Req.getKey (Key.str name)) (logCall st i name) =
      some (Except.error (JsErr.userError t), logCall (logCall st i name) i name) := by
  have key : ∀ st0 : St, pathOf st0 i = [] →
      mapGet st0.singletonCache name = Value.undef →
      mapGet (scopedOf st0 i) name = Value.undef →
      step reg none (fuel + 3) i (Req.getKey (Key.str name)) st0 =
        some (Except.error (JsErr.userError t), logCall st0 i name) := by
    intro st0 hp0 hm1 hm2
    rw [step_getKey_plain reg (fuel + 2) i name st0 hthen]
    have hcc : circularCheck (labelOf st0 i) (pathOf st0 i) name = none := by
      rw [circularCheck_eq_none_iff, hp0]
      exact List.not_mem_nil _
    cases hlt : lt
    · rw [step_resolve_singleton_miss reg none (fuel + 1) i name st0 ⟨lt, Factory.throws t⟩
        hcc hreg (by rw [hlt]) hm1]
      rw [step_runFac_throws]
      show some (Except.error (JsErr.userError t),
        popPath (logCall (pushPath st0 i name) i name) i) = _
      rw [popPath_logCall_pushPath]
    · have hlc : lifetimeCheck reg (labelOf st0 i) (pathOf st0 i) name = none := by
        rw [hp0]
        rfl
      rw [step_resolve_scoped_miss reg none (fuel + 1) i name st0 ⟨lt, Factory.throws t⟩
        hcc hreg (by rw [hlt]) hm2 hlc]
      rw [step_runFac_throws]
      show some (Except.error (JsErr.userError t),
        popPath (logCall (pushPath st0 i name) i name) i) = _
      rw [popPath_logCall_pushPath]
    · rw [step_resolve_transient reg none (fuel + 1) i name st0 ⟨lt, Factory.throws t⟩
        hcc hreg (by rw [hlt])]
      rw [step_runFac_throws]
      show some (Except.error (JsErr.userError t),
        popPath (logCall (pushPath st0 i name) i name) i) = _
      rw [popPath_logCall_pushPath]
  refine ⟨key st hpath hmiss1 hmiss2, pathOf_logCall st i name i, fun m h => JsErr.noConfusion h,
    key (logCall st i name) ?_ ?_ ?_⟩
  · rw [pathOf_logCall]
    exact hpath
  · rw [singletonCache_logCall]
    exact hmiss1
  · rw [scopedOf_logCall]
    exact hmiss2

/-- Concrete instance of `factory_throw_propagates`: the throwing
singleton `"boom"` propagates `userError 42` twice in a row, each time
leaving only a log entry behind. -/
theorem factory_throw_propagates_witness :
    step regThrowing none 20 0 (Req.getKey (Key.str "boom")) oneScopeSt =
      some (Except.error (JsErr.userError 42), logCall oneScopeSt 0 "boom") ∧
    pathOf (logCall oneScopeSt 0 "boom") 0 = pathOf oneScopeSt 0 ∧
    (∀ m, (JsErr.userError 42 : JsErr) ≠ JsErr.resolveError m) ∧
    step regThrowing none 20 0 (Req.getKey (Key.str "boom")) (logCall oneScopeSt 0 "boom") =
      some (Except.error (JsErr.userError 42),
        logCall (logCall oneScopeSt 0 "boom") 0 "boom") :=
  factory_throw_propagates regThrowing 17 0 "boom" oneScopeSt Lifetime.singleton 42
    rfl (by decide) rfl rfl rfl

/-- Claim C5 counterexample: the reserved-name guard runs before the
exotic lookup, so an exotic mapping that contains `"then"` is ignored:
the read returns `undefined`, not the exotic value `obj 7` it
supplies. -/
theorem exotic_then_shadowed :
    containsKey [("then", Value.obj 7)] "then" = true ∧
    step [] (some [("then", Value.obj 7)]) 1 0 (Req.getKey (Key.str "then")) St.init =
      some (Except.ok Value.undef, St.init) ∧
    Value.undef ≠ Value.obj 7 :=
  ⟨rfl, rfl, fun h => Value.noConfusion h⟩

/-- Claim C5 (amended): for a name other than the reserved `"then"`, a
context read of a name contained in the supplied exotic mapping returns
the exotic value and leaves the provider state untouched — no factory
runs, whatever lifetime (if any) the registry holds for that name. -/
theorem exotic_override_precedence (reg : Registry) (m : EntryMap Value) (fuel i : Nat)
    (name : String) (st : St) (r : Except JsErr Value) (st2 : St)
    (hthen : name ≠ "then") (hc : containsKey m name = true)
    (h : step reg (some m) (fuel + 1) i (Req.getKey (Key.str name)) st = some (r, st2)) :
    r = Except.ok (mapGet m name) ∧ st2 = st ∧
    countCalls st2 name = countCalls st name := by
  rw [step_getKey_exotic_hit reg m fuel i name st hthen hc] at h
  simp only [Option.some.injEq, Prod.mk.injEq] at h
  obtain ⟨rfl, rfl⟩ := h
  exact ⟨rfl, rfl, rfl⟩

/-- Concrete instance of `exotic_override_precedence`: the exotic value
for `"a"` wins over the registered singleton and no factory runs. -/
theorem exotic_override_precedence_witness :
    (Except.ok (Value.obj 9) : Except JsErr Value) =
      Except.ok (mapGet [("a", Value.obj 9)] "a") ∧
    oneScopeSt = oneScopeSt ∧
    countCalls oneScopeSt "a" = countCalls oneScopeSt "a" :=
  exotic_override_precedence regConstSingleton [("a", Value.obj 9)] 2 0 "a" oneScopeSt
    (Except.ok (Value.obj 9)) oneScopeSt (by decide) rfl rfl

/-- Claim C6 counterexample: a scoped factory that returns `undefined`
is re-invoked on a later access within the same scope — the scope cache
probe cannot tell the stored `undefined` from a miss — so the factory
runs twice in one scope even though the claim promises exactly once. -/
theorem scoped_undef_factory_reinvoked :
    lookupKey regUndefScoped "b" = some ⟨Lifetime.scoped, Factory.const Value.undef⟩ ∧
    runTrace regUndefScoped 20 [Ev.beginScope, Ev.access 0 "b", Ev.access 0 "b"] St.init =
      some ([Except.ok Value.undef, Except.ok Value.undef, Except.ok Value.undef],
        ⟨[], [⟨[("b", Value.undef)], [], ScopeLabel.nullv⟩], [(0, "b"), (0, "b")], 0⟩) ∧
    countScope ⟨[], [⟨[("b", Value.undef)], [], ScopeLabel.nullv⟩], [(0, "b"), (0, "b")], 0⟩
      0 "b" = 2 :=
  ⟨rfl, rfl, rfl⟩

/-- Claim C6 (amended): for a scoped name, not reserved, whose factory
returns a defined instance, within each single scope of a successful
session the factory runs at most once — exactly once as soon as that
scope accesses the name — the instance lands in that scope's private
cache, every access on that scope returns it, and the provider's
singleton cache is never touched at that name. -/
theorem scoped_unique_trace (reg : Registry) (name : String) (fac : Factory) (J : Nat)
    (trace : List Ev) (fuel : Nat) (rs : List (Except JsErr Value)) (stF : St)
    (hreg : lookupKey reg name = some ⟨Lifetime.scoped, fac⟩)
    (hdef : fac.returnsDefined = true) (hname : name ≠ "then")
    (hrun : runTrace reg fuel trace St.init = some (rs, stF))
    (hok : ∀ r ∈ rs, isOk r = true) :
    countScope stF J name ≤ 1 ∧
    (Ev.access J name ∈ trace →
      countScope stF J name = 1 ∧ ∃ t, mapGet (scopedOf stF J) name = Value.obj t) ∧
    (∀ t, mapGet (scopedOf stF J) name = Value.obj t →
      ∀ p ∈ trace.zip rs, p.1 = Ev.access J name → p.2 = Except.ok (Value.obj t)) ∧
    mapGet stF.singletonCache name = Value.undef := by
  have hsc : ∀ d, lookupKey reg name = some d → d.lifetime ≠ Lifetime.singleton := by
    intro d hd
    rw [hreg] at hd
    injection hd with hd2
    rw [← hd2]
    simp
  have hstable := runTrace_singleStable reg name hsc trace fuel St.init rs stF hrun
  have hu : mapGet (scopedOf St.init J) name = Value.undef := by
    cases J <;> rfl
  have h := (scoped_trace_aux reg name fac hreg hdef hname J trace fuel St.init rs stF hrun
    hok (fun j => by cases j <;> rfl)).1
  obtain ⟨c1, c2, c3⟩ := h hu rfl
  refine ⟨c1, c2, c3, ?_⟩
  rw [hstable]
  rfl

/-- Concrete instance of `scoped_unique_trace`: two scopes each access
the scoped `"w"`; on scope `0` the factory runs once, its instance is
cached in scope `0` only, every scope-`0` access returns it, and the
provider cache stays empty at `"w"`. -/
theorem scoped_unique_trace_witness :
    countScope ⟨[], [⟨[("w", Value.obj 0)], [], ScopeLabel.nullv⟩,
      ⟨[("w", Value.obj 1)], [], ScopeLabel.nullv⟩], [(0, "w"), (1, "w")], 2⟩ 0 "w" ≤ 1 ∧
    (Ev.access 0 "w" ∈
        [Ev.beginScope, Ev.access 0 "w", Ev.access 0 "w", Ev.beginScope, Ev.access 1 "w"] →
      countScope ⟨[], [⟨[("w", Value.obj 0)], [], ScopeLabel.nullv⟩,
        ⟨[("w", Value.obj 1)], [], ScopeLabel.nullv⟩], [(0, "w"), (1, "w")], 2⟩ 0 "w" = 1 ∧
      ∃ t, mapGet (scopedOf ⟨[], [⟨[("w", Value.obj 0)], [], ScopeLabel.nullv⟩,
        ⟨[("w", Value.obj 1)], [], ScopeLabel.nullv⟩], [(0, "w"), (1, "w")], 2⟩ 0) "w" =
        Value.obj t) ∧
    (∀ t, mapGet (scopedOf ⟨[], [⟨[("w", Value.obj 0)], [], ScopeLabel.nullv⟩,
        ⟨[("w", Value.obj 1)], [], ScopeLabel.nullv⟩], [(0, "w"), (1, "w")], 2⟩ 0) "w" =
        Value.obj t →
      ∀ p ∈ List.zip
        [Ev.beginScope, Ev.access 0 "w", Ev.access 0 "w", Ev.beginScope, Ev.access 1 "w"]
        ([Except.ok Value.undef, Except.ok (Value.obj 0), Except.ok (Value.obj 0),
          Except.ok Value.undef, Except.ok (Value.obj 1)] : List (Except JsErr Value)),
        p.1 = Ev.access 0 "w" → p.2 = Except.ok (Value.obj t)) ∧
    mapGet (St.mk [] [⟨[("w", Value.obj 0)], [], ScopeLabel.nullv⟩,
      ⟨[("w", Value.obj 1)], [], ScopeLabel.nullv⟩] [(0, "w"), (1, "w")] 2).singletonCache "w" =
      Value.undef :=
  scoped_unique_trace regOneScoped "w" (Factory.alloc []) 0
    [Ev.beginScope, Ev.access 0 "w", Ev.access 0 "w", Ev.beginScope, Ev.access 1 "w"] 20
    ([Except.ok Value.undef, Except.ok (Value.obj 0), Except.ok (Value.obj 0),
      Except.ok Value.undef, Except.ok (Value.obj 1)] : List (Except JsErr Value))
    ⟨[], [⟨[("w", Value.obj 0)], [], ScopeLabel.nullv⟩,
      ⟨[("w", Value.obj 1)], [], ScopeLabel.nullv⟩], [(0, "w"), (1, "w")], 2⟩
    rfl rfl (by decide) rfl (by decide)

/-- Claim C7: a context read of a transient name always invokes the
registered factory once more, stores nothing under the name in the
provider cache or in any scope cache, and, for an object-allocating
factory, a successful read returns a freshly allocated instance — its
tag is at least the pre-state allocation counter and consumed by the
post-state counter, so repeated accesses (including several within one
expression) give distinct instances. -/
theorem transient_fresh (reg : Registry) (name : String) (fac : Factory)
    (fuel i : Nat) (st : St) (r : Except JsErr Value) (st2 : St)
    (hreg : lookupKey reg name = some ⟨Lifetime.transient, fac⟩)
    (hthen : name ≠ "then") (hi : i < st.scopes.length) (hnp : name ∉ pathOf st i)
    (h : step reg none (fuel + 1) i (Req.getKey (Key.str name)) st = some (r, st2)) :
    countCalls st2 name = countCalls st name + 1 ∧
    mapGet st2.singletonCache name = mapGet st.singletonCache name ∧
    (∀ j, mapGet (scopedOf st2 j) name = mapGet (scopedOf st j) name) ∧
    (∀ deps, fac = Factory.alloc deps →
      ∀ v, r = Except.ok v → ∃ t, v = Value.obj t ∧ st.fresh ≤ t ∧ t < st2.fresh) := by
  rw [step_getKey_plain reg fuel i name st hthen] at h
  exact transient_resolve_master reg name fac hreg fuel i st r st2 hi hnp h

/-- Concrete instance of `transient_fresh`: one access of the transient
`"w"` invokes its factory once and allocates the fresh tag `0`. -/
theorem transient_fresh_witness :
    countCalls ⟨[], [Scope.init], [(0, "w")], 1⟩ "w" = countCalls oneScopeSt "w" + 1 ∧
    mapGet (St.mk [] [Scope.init] [(0, "w")] 1).singletonCache "w" =
      mapGet oneScopeSt.singletonCache "w" ∧
    (∀ j, mapGet (scopedOf ⟨[], [Scope.init], [(0, "w")], 1⟩ j) "w" =
      mapGet (scopedOf oneScopeSt j) "w") ∧
    (∀ deps, Factory.alloc [] = Factory.alloc deps →
      ∀ v, (Except.ok (Value.obj 0) : Except JsErr Value) = Except.ok v →
        ∃ t, v = Value.obj t ∧ oneScopeSt.fresh ≤ t ∧
          t < (St.mk [] [Scope.init] [(0, "w")] 1).fresh) :=
  transient_fresh regOneTransient "w" (Factory.alloc []) 19 0 oneScopeSt
    (Except.ok (Value.obj 0)) ⟨[], [Scope.init], [(0, "w")], 1⟩ rfl (by decide)
    (by decide) (by decide) rfl

/-- Claim C8: reading a symbol key on a context does fail, but with a
`TypeError`, not the `ResolveError` the code's own `throwError` helper
builds: the template literal interpolating the key coerces the symbol
and throws before `throwError` ever runs.  The second half of the claim
is accurate: the reserved name `"then"` reads as `undefined` without
resolving. -/
theorem symbol_key_typeerror (reg : Registry) (ex : Exotic) (fuel i id : Nat) (st : St) :
    step reg ex (fuel + 1) i (Req.getKey (Key.sym id)) st =
      some (Except.error JsErr.typeError, st) ∧
    step reg ex (fuel + 1) i (Req.getKey (Key.str "then")) st =
      some (Except.ok Value.undef, st) ∧
    (∀ m, (JsErr.typeError : JsErr) ≠ JsErr.resolveError m) :=
  ⟨step_getKey_sym reg ex fuel i id st, step_getKey_then reg ex fuel i st,
    fun _ h => JsErr.noConfusion h⟩

/-- Claim C9 counterexample: the proxy defines only a `get` trap over an
empty target, so own-property enumeration sees no keys and spreading a
context yields the empty object — the registered (and individually
resolvable) singleton `"a"` does not appear in the spread. -/
theorem spread_misses_registered_name :
    contextSpread regConstSingleton none 20 0 oneScopeSt = [] ∧
    lookupKey regConstSingleton "a" =
      some ⟨Lifetime.singleton, Factory.const (Value.obj 5)⟩ ∧
    step regConstSingleton none 20 0 (Req.getKey (Key.str "a")) oneScopeSt =
      some (Except.ok (Value.obj 5),
        ⟨[("a", Value.obj 5)], [Scope.init], [(0, "a")], 0⟩) ∧
    lookupKey ([] : EntryMap Value) "a" = none :=
  ⟨rfl, rfl, rfl, rfl⟩

/-- Claim C9 (amended): spreading a context always yields the empty
object — the proxy's only trap is `get`, so enumerating own properties
sees none of the registered names; registered services are obtained
through individual property reads, which (away from the reserved
`"then"`, with no exotic mapping) delegate to `resolve`. -/
theorem spread_empty_reads_resolve (reg : Registry) (ex : Exotic) (fuel i : Nat) (st : St)
    (name : String) (hthen : name ≠ "then") :
    contextSpread reg ex fuel i st = [] ∧
    contextOwnKeys = [] ∧
    step reg none (fuel + 1) i (Req.getKey (Key.str name)) st =
      step reg none fuel i (Req.resolve name) st :=
  ⟨rfl, rfl, step_getKey_plain reg fuel i name st hthen⟩

/-- Concrete instance of `spread_empty_reads_resolve` at the registry
holding `"a"`. -/
theorem spread_empty_reads_resolve_witness :
    contextSpread regConstSingleton none 7 0 oneScopeSt = [] ∧
    contextOwnKeys = [] ∧
    step regConstSingleton none 8 0 (Req.getKey (Key.str "a")) oneScopeSt =
      step regConstSingleton none 7 0 (Req.resolve "a") oneScopeSt :=
  spread_empty_reads_resolve regConstSingleton none 7 0 oneScopeSt "a" (by decide)

/-- Claim C10: registering a non-function target through any of the
three builder methods throws a `TypeError` (not a `ResolveError`) right
at registration: `ServiceFactory.from` runs before the descriptor map is
touched, so nothing is registered and no resolution is ever attempted,
while both function shapes are accepted. -/
theorem add_nonfunction_typeerror (b : EntryMap Descriptor) (name : String) (v : Value) :
    addSingleton b name (Target.notFn v) = Except.error JsErr.typeError ∧
    addScoped b name (Target.notFn v) = Except.error JsErr.typeError ∧
    addTransient b name (Target.notFn v) = Except.error JsErr.typeError ∧
    (∀ m, (JsErr.typeError : JsErr) ≠ JsErr.resolveError m) ∧
    (∀ f, fromTarget (Target.classCtor f) = Except.ok f) ∧
    (∀ f, fromTarget (Target.plainFn f) = Except.ok f) :=
  ⟨rfl, rfl, rfl, fun _ h => JsErr.noConfusion h, fun _ => rfl, fun _ => rfl⟩

end PicoDi
